import Mathlib

/-!
# Verification of the boundary-tag allocator `src/mm.c`

The allocator keeps its free blocks in a binary search tree keyed by block
size whose nodes live inside the payloads of the free blocks themselves.
Following the specification's design note — the tree links are raw pointers
and "the index operations themselves can be expressed as pure functions over
`(root, bp)`" — the index is embedded as an inductive tree whose nodes carry
the block pointer (the byte address `bp`) and the block size (the value
`GETSIZE(bp)` stored in the block header).  A null pointer is the `leaf`
constructor.  A pointer write `SETLEFT(x, c)` / `SETRIGHT(x, c)` to the node
at address `x` is modeled as the structural update of the unique node carrying
address `x` (`setChildAt`); reading the fields of a node pointer `bp` is
modeled as locating the unique node with address `bp` (`lookupN`).  Both
coincide with the pointer semantics whenever the addresses in the tree are
distinct, which the allocator guarantees and the proofs assume explicitly.
Dereferencing a null pointer is modeled by returning `none`.

The heap itself is embedded later in the file as a byte-addressed memory
together with the word accessors (`GET`, `PUT`, `PACK`, `GET_SIZE`,
`GET_ALLOC`, header/footer/neighbor navigation) transcribed from the macros
of `mm.c`, and the public operations `mm_init`, `mm_malloc`, `mm_free`,
`mm_realloc` plus the helpers `extend_heap`, `place`, `coalesce` transcribed
statement by statement.
-/

namespace MM

/-- A (sub)tree of the free-block index.  `leaf` is the null pointer; a node
carries the block pointer `addr` and the header size `GETSIZE(addr)`. -/
inductive Tree where
  | leaf
  | node (addr : Nat) (size : Nat) (l : Tree) (r : Tree)
deriving DecidableEq, Repr

/-- The address of a (possibly null) node pointer, used for the pointer
equality tests `LEFT(parent) == bp` of `mm.c`. -/
def addrOf : Tree → Option Nat
  | .leaf => none
  | .node a _ _ _ => some a

/-- All `(addr, size)` pairs of the nodes of a tree, root first. -/
def nodes : Tree → List (Nat × Nat)
  | .leaf => []
  | .node a s l r => (a, s) :: (nodes l ++ nodes r)

/-- The addresses of the nodes of a tree. -/
def addrs (t : Tree) : List Nat := (nodes t).map Prod.fst

/-- Number of nodes; used as recursion fuel for `mm_remove`. -/
def sizeT : Tree → Nat
  | .leaf => 0
  | .node _ _ l r => sizeT l + sizeT r + 1

/-- The search-tree ordering invariant of the spec: at every node, the sizes
in the left subtree are `≤` the node's size and the sizes in the right
subtree are `>` the node's size. -/
def bst : Tree → Bool
  | .leaf => true
  | .node _ s l r =>
      ((nodes l).all fun x => decide (x.2 ≤ s)) &&
      ((nodes r).all fun x => decide (s < x.2)) &&
      bst l && bst r

/-- `mm_insert(root, bp)` of `mm.c`: descend left on `GETSIZE(bp) ≤
GETSIZE(root)`, right otherwise; at null install `bp` as a leaf with both
links cleared.  `bp` is the pair (address, header size) of the inserted
block. -/
def mm_insert (root : Tree) (bp : Nat × Nat) : Tree :=
  match root with
  | .leaf => .node bp.1 bp.2 .leaf .leaf
  | .node ra rs l r =>
      if bp.2 ≤ rs then .node ra rs (mm_insert l bp) r
      else .node ra rs l (mm_insert r bp)

/-- `mm_fitter(root, size)` of `mm.c`: return null at null, return `root`
when `GETSIZE(root) >= size`, otherwise recurse into the right child. -/
def mm_fitter (root : Tree) (size : Nat) : Tree :=
  match root with
  | .leaf => .leaf
  | .node ra rs l r => if size ≤ rs then .node ra rs l r else mm_fitter r size

/-- `mm_parent(root, bp)` of `mm.c`.  `bpa`/`bps` are the address and header
size of `bp`.  Result `some .leaf` is the C `NULL` return (`bp == root`);
`none` models the null dereference `GETSIZE(NULL)` that the C code performs
when the descent falls off the tree. -/
def mm_parent (root : Tree) (bpa bps : Nat) : Option Tree :=
  match root with
  | .leaf => none
  | .node ra rs l r =>
      if bpa = ra then some .leaf
      else if bps ≤ rs then
        (if addrOf l = some bpa then some (.node ra rs l r) else mm_parent l bpa bps)
      else
        (if addrOf r = some bpa then some (.node ra rs l r) else mm_parent r bpa bps)

/-- `mm_children(root)` of `mm.c`: the number of non-null children.  `none`
models the null dereference `LEFT(NULL)`. -/
def mm_children : Tree → Option Nat
  | .leaf => none
  | .node _ _ l r => some ((if l = .leaf then 0 else 1) + (if r = .leaf then 0 else 1))

/-- `mm_replace(bp)` of `mm.c`: the rightmost node reachable from `bp`.
`none` models the null dereference `RIGHT(NULL)`. -/
def mm_replace : Tree → Option Tree
  | .leaf => none
  | .node a s l .leaf => some (.node a s l .leaf)
  | .node _ _ _ (.node b u rl rr) => mm_replace (.node b u rl rr)

/-- Reading the fields of the node pointer `a`: the unique subtree of `t`
whose root carries address `a` (unique once the addresses of `t` are
distinct). -/
def lookupN : Tree → Nat → Option Tree
  | .leaf, _ => none
  | .node ra rs l r, a =>
      if a = ra then some (.node ra rs l r)
      else
        match lookupN l a with
        | some s => some s
        | none => lookupN r a

/-- The pointer write `SETLEFT(pa, c)` (`isL = true`) or `SETRIGHT(pa, c)`
(`isL = false`): replace the corresponding child of the node with address
`pa`. -/
def setChildAt : Tree → Nat → Bool → Tree → Tree
  | .leaf, _, _, _ => .leaf
  | .node ra rs l r, pa, isL, c =>
      if pa = ra then (if isL then .node ra rs c r else .node ra rs l c)
      else .node ra rs (setChildAt l pa isL c) (setChildAt r pa isL c)

/-- The common tail of the three cases of `mm_remove`: attach `c` where the
removed node `bpa` used to hang.  With a non-null parent, `mm.c` tests
`LEFT(parent_node) == bp` and overwrites that child link, returning the
unchanged root pointer; with a null parent (`bp` was the root) it returns
`c` itself — in the 0-children case the C code returns `NULL`, which is the
same as returning the new child `c = NULL`. -/
def attach (root : Tree) (bpa : Nat) (p : Tree) (c : Tree) : Option Tree :=
  match p with
  | .leaf => some c
  | .node pa _ pl _ =>
      if addrOf pl = some bpa then some (setChildAt root pa true c)
      else some (setChildAt root pa false c)

/-- `mm_remove(root, bp)` of `mm.c`, with explicit recursion fuel (the C
code recurses on the pointer structure; the wrapper `mm_remove` below passes
fuel `sizeT root`, which the proofs show is never exhausted on actual
trees).  The three cases follow the C source: a node with 0 children is
detached from its parent, a node with 1 child has the child promoted, and a
node with 2 children is replaced by the rightmost node of its left subtree,
which is first removed recursively from that subtree.  Each of the three C
cases starts with the identical pure call `mm_parent(root, bp)`; it is
hoisted above the case split here.  `none` models a null dereference (or
fuel exhaustion, which on actual trees cannot happen). -/
def mm_removeF : Nat → Tree → Nat → Option Tree
  | 0, _, _ => none
  | fuel+1, root, bpa =>
    match lookupN root bpa with
    | none => none
    | some .leaf => none
    | some (.node _ bs bl br) =>
      match mm_children (.node bpa bs bl br) with
      | none => none
      | some nch =>
        match mm_parent root bpa bs with
        | none => none
        | some p =>
          if nch = 0 then attach root bpa p .leaf
          else if nch = 1 then attach root bpa p (if bl ≠ .leaf then bl else br)
          else
            match mm_replace bl with
            | none => none
            | some .leaf => none
            | some (.node ma ms _ _) =>
              match mm_removeF fuel bl ma with
              | none => none
              | some nbp => attach root bpa p (.node ma ms nbp br)

/-- `mm_remove(root, bp)` of `mm.c` (see `mm_removeF`). -/
def mm_remove (root : Tree) (bpa : Nat) : Option Tree :=
  mm_removeF (sizeT root) root bpa

/-! ## Basic facts about the index operations -/

theorem nodes_addrs_node (ra rs : Nat) (l r : Tree) :
    addrs (.node ra rs l r) = ra :: (addrs l ++ addrs r) := by
  simp [addrs, nodes]

theorem bst_node_iff {ra rs : Nat} {l r : Tree} :
    bst (.node ra rs l r) = true ↔
      (∀ x ∈ nodes l, x.2 ≤ rs) ∧ (∀ x ∈ nodes r, rs < x.2) ∧
      bst l = true ∧ bst r = true := by
  simp [bst, List.all_eq_true, and_assoc]

theorem mem_addrs {t : Tree} {a : Nat} : a ∈ addrs t ↔ ∃ s, (a, s) ∈ nodes t := by
  constructor
  · intro h
    rcases List.mem_map.1 h with ⟨⟨a', s⟩, hm, h2⟩
    cases h2
    exact ⟨s, hm⟩
  · rintro ⟨s, hm⟩
    exact List.mem_map.2 ⟨(a, s), hm, rfl⟩

theorem nodes_mm_insert (t : Tree) (bp : Nat × Nat) :
    (nodes (mm_insert t bp)).Perm (bp :: nodes t) := by
  induction t with
  | leaf => simp [mm_insert, nodes]
  | node ra rs l r ihl ihr =>
    by_cases h : bp.2 ≤ rs
    · simp only [mm_insert, if_pos h, nodes]
      exact ((ihl.append_right (nodes r)).cons _).trans (List.Perm.swap _ _ _)
    · simp only [mm_insert, if_neg h, nodes]
      refine (((ihr.append_left (nodes l)).trans List.perm_middle).cons _).trans ?_
      exact List.Perm.swap _ _ _

theorem bst_mm_insert {t : Tree} (bp : Nat × Nat) (h : bst t = true) :
    bst (mm_insert t bp) = true := by
  induction t with
  | leaf => simp [mm_insert, bst, nodes]
  | node ra rs l r ihl ihr =>
    rcases bst_node_iff.1 h with ⟨hl, hr, hbl, hbr⟩
    by_cases hle : bp.2 ≤ rs
    · simp only [mm_insert, if_pos hle]
      refine bst_node_iff.2 ⟨?_, hr, ihl hbl, hbr⟩
      intro x hx
      rcases List.mem_cons.1 ((nodes_mm_insert l bp).mem_iff.1 hx) with h1 | h1
      · simpa [h1] using hle
      · exact hl x h1
    · simp only [mm_insert, if_neg hle]
      refine bst_node_iff.2 ⟨hl, ?_, hbl, ihr hbr⟩
      intro x hx
      rcases List.mem_cons.1 ((nodes_mm_insert r bp).mem_iff.1 hx) with h1 | h1
      · subst h1; omega
      · exact hr x h1

theorem mm_fitter_node_mem {t : Tree} {size a s : Nat} {l r : Tree}
    (h : mm_fitter t size = .node a s l r) : (a, s) ∈ nodes t ∧ size ≤ s := by
  induction t with
  | leaf => simp [mm_fitter] at h
  | node ra rs L R ihl ihr =>
    by_cases hle : size ≤ rs
    · simp only [mm_fitter, if_pos hle, Tree.node.injEq] at h
      refine ⟨?_, ?_⟩
      · simp [nodes, h.1, h.2.1]
      · omega
    · simp only [mm_fitter, if_neg hle] at h
      rcases ihr h with ⟨hm, hs⟩
      exact ⟨by simp [nodes, hm], hs⟩

theorem mm_fitter_eq_leaf_iff {t : Tree} (size : Nat) (h : bst t = true) :
    mm_fitter t size = .leaf ↔ ∀ x ∈ nodes t, x.2 < size := by
  induction t with
  | leaf => simp [mm_fitter, nodes]
  | node ra rs L R ihl ihr =>
    rcases bst_node_iff.1 h with ⟨hl, hr, hbl, hbr⟩
    by_cases hle : size ≤ rs
    · simp only [mm_fitter, if_pos hle]
      constructor
      · intro hc; cases hc
      · intro hall
        have := hall (ra, rs) (by simp [nodes])
        omega
    · simp only [mm_fitter, if_neg hle]
      rw [ihr hbr]
      constructor
      · intro hall x hx
        simp only [nodes, List.mem_cons, List.mem_append] at hx
        rcases hx with rfl | hx | hx
        · omega
        · have := hl x hx; omega
        · exact hall x hx
      · intro hall x hx
        exact hall x (by simp [nodes, hx])

theorem lookupN_eq_none_iff {t : Tree} {a : Nat} : lookupN t a = none ↔ a ∉ addrs t := by
  induction t with
  | leaf => simp [lookupN, addrs, nodes]
  | node ra rs l r ihl ihr =>
    by_cases h : a = ra
    · simp [lookupN, h, nodes_addrs_node]
    · cases hl : lookupN l a with
      | some s =>
        have hmem : a ∈ addrs l := by
          by_contra hc
          rw [ihl.2 hc] at hl
          cases hl
        simp [lookupN, h, hl, nodes_addrs_node, hmem]
      | none =>
        have hnl : a ∉ addrs l := ihl.1 hl
        simp [lookupN, h, hl, nodes_addrs_node, ihr, hnl, Ne.symm h]

theorem lookupN_isSome_of_mem {t : Tree} {a : Nat} (h : a ∈ addrs t) :
    ∃ s, lookupN t a = some s := by
  cases hl : lookupN t a with
  | none => exact absurd h (lookupN_eq_none_iff.1 hl)
  | some s => exact ⟨s, rfl⟩

theorem lookupN_shape {t : Tree} {a : Nat} {s : Tree} (h : lookupN t a = some s) :
    ∃ bs bl br, s = .node a bs bl br ∧ (a, bs) ∈ nodes t ∧ ∀ x ∈ nodes s, x ∈ nodes t := by
  induction t with
  | leaf => simp [lookupN] at h
  | node ra rs l r ihl ihr =>
    by_cases ha : a = ra
    · subst ha
      have h2 : s = Tree.node a rs l r := by
        simp [lookupN] at h
        exact h.symm
      subst h2
      exact ⟨rs, l, r, rfl, by simp [nodes], fun x hx => hx⟩
    · simp only [lookupN, if_neg ha] at h
      cases hl : lookupN l a with
      | some s1 =>
        rw [hl] at h
        cases h
        rcases ihl hl with ⟨bs, bl, br, hsh, hm, hsub⟩
        exact ⟨bs, bl, br, hsh, by simp [nodes, hm],
          fun x hx => by simp [nodes, hsub x hx]⟩
      | none =>
        rw [hl] at h
        rcases ihr h with ⟨bs, bl, br, hsh, hm, hsub⟩
        exact ⟨bs, bl, br, hsh, by simp [nodes, hm],
          fun x hx => by simp [nodes, hsub x hx]⟩

theorem lookupN_sizeT {t s : Tree} {a : Nat} (h : lookupN t a = some s) :
    sizeT s ≤ sizeT t := by
  induction t with
  | leaf => simp [lookupN] at h
  | node ra rs l r ihl ihr =>
    by_cases ha : a = ra
    · simp only [lookupN, if_pos ha, Option.some.injEq] at h
      rw [← h]
    · simp only [lookupN, if_neg ha] at h
      cases hl : lookupN l a with
      | some s1 =>
        rw [hl] at h
        cases h
        have := ihl hl
        simp [sizeT]
        omega
      | none =>
        rw [hl] at h
        have := ihr h
        simp [sizeT]
        omega

theorem sizeT_eq_zero {t : Tree} : sizeT t = 0 ↔ t = .leaf := by
  cases t <;> simp [sizeT]

/-- Two index entries with the same block address have the same size when the
tree's addresses are distinct. -/
theorem nodupKeys_eq {l : List (Nat × Nat)} (h : (l.map Prod.fst).Nodup)
    {a s1 s2 : Nat} (h1 : (a, s1) ∈ l) (h2 : (a, s2) ∈ l) : s1 = s2 := by
  induction l with
  | nil => cases h1
  | cons x rest ih =>
    simp only [List.map_cons, List.nodup_cons] at h
    rcases List.mem_cons.1 h1 with rfl | h1m
    · rcases List.mem_cons.1 h2 with h2e | h2m
      · cases h2e; rfl
      · exact absurd (List.mem_map.2 ⟨(a, s2), h2m, rfl⟩) h.1
    · rcases List.mem_cons.1 h2 with rfl | h2m
      · exact absurd (List.mem_map.2 ⟨(a, s1), h1m, rfl⟩) h.1
      · exact ih h.2 h1m h2m

theorem setChildAt_not_mem {t : Tree} {pa : Nat} {isL : Bool} {c : Tree}
    (h : pa ∉ addrs t) : setChildAt t pa isL c = t := by
  induction t with
  | leaf => rfl
  | node ra rs l r ihl ihr =>
    rw [nodes_addrs_node] at h
    simp only [List.mem_cons, List.mem_append] at h
    push_neg at h
    simp [setChildAt, h.1, ihl h.2.1, ihr h.2.2]

theorem mm_replace_ok {L : Tree} (hne : L ≠ .leaf) :
    ∃ ma ms ml, mm_replace L = some (.node ma ms ml .leaf) ∧ (ma, ms) ∈ nodes L ∧
      (bst L = true → ∀ x ∈ nodes L, x.2 ≤ ms) := by
  induction L with
  | leaf => exact absurd rfl hne
  | node a s l r ihl ihr =>
    cases r with
    | leaf =>
      refine ⟨a, s, l, rfl, by simp [nodes], ?_⟩
      intro hb x hx
      rcases bst_node_iff.1 hb with ⟨hl, _, _, _⟩
      simp only [nodes, List.mem_cons, List.mem_append] at hx
      rcases hx with rfl | hx | hx
      · exact le_refl _
      · exact hl x hx
      · cases hx
    | node b u rl rr =>
      rcases ihr (by simp) with ⟨ma, ms, ml, hrep, hm, hmax⟩
      refine ⟨ma, ms, ml, hrep,
        List.mem_cons_of_mem _ (List.mem_append_right _ hm), ?_⟩
      intro hb x hx
      rcases bst_node_iff.1 hb with ⟨hl, hr, hbl, hbr⟩
      have hms : s < ms := hr (ma, ms) hm
      have hx2 : x = (a, s) ∨ x ∈ nodes l ++ nodes (Tree.node b u rl rr) :=
        List.mem_cons.1 hx
      rcases hx2 with rfl | hx2
      · omega
      · rcases List.mem_append.1 hx2 with hx3 | hx3
        · have := hl x hx3; omega
        · exact hmax hbr x hx3

theorem mm_removeF_fuel (f : Nat) : ∀ (g : Nat) (t : Tree) (a : Nat),
    sizeT t ≤ f → sizeT t ≤ g → mm_removeF f t a = mm_removeF g t a := by
  induction f with
  | zero =>
    intro g t a hf _
    have ht : t = .leaf := sizeT_eq_zero.1 (Nat.le_zero.1 hf)
    subst ht
    cases g <;> simp [mm_removeF, lookupN]
  | succ f ih =>
    intro g t a hf hg
    cases g with
    | zero =>
      have ht : t = .leaf := sizeT_eq_zero.1 (Nat.le_zero.1 hg)
      subst ht
      simp [mm_removeF, lookupN]
    | succ g =>
      simp only [mm_removeF]
      cases hl : lookupN t a with
      | none => rfl
      | some s =>
        cases s with
        | leaf => rfl
        | node A bs bl br =>
          have hs := lookupN_sizeT hl
          simp only [sizeT] at hs
          dsimp only
          cases hch : mm_children (.node a bs bl br) with
          | none => rfl
          | some nch =>
            cases hp : mm_parent t a bs with
            | none => rfl
            | some p =>
              by_cases h0 : nch = 0
              · simp [h0]
              by_cases h1 : nch = 1
              · simp [h0, h1]
              simp only [if_neg h0, if_neg h1]
              cases hrep : mm_replace bl with
              | none => rfl
              | some rep =>
                cases rep with
                | leaf => rfl
                | node ma ms ml mr =>
                  dsimp only
                  rw [ih g bl ma (by omega) (by omega)]

theorem nodes_node (a s : Nat) (l r : Tree) :
    nodes (.node a s l r) = (a, s) :: (nodes l ++ nodes r) := rfl

theorem addrOf_mem {t : Tree} {a : Nat} (h : addrOf t = some a) : a ∈ addrs t := by
  cases t with
  | leaf => cases h
  | node ra rs l r =>
    cases h
    simp [nodes_addrs_node]

theorem mm_parent_mem {t : Tree} {a s pa ps : Nat} {pl pr : Tree}
    (h : mm_parent t a s = some (.node pa ps pl pr)) : (pa, ps) ∈ nodes t := by
  induction t with
  | leaf => cases h
  | node ra rs l r ihl ihr =>
    by_cases ha : a = ra
    · simp [mm_parent, ha] at h
    · by_cases hle : s ≤ rs
      · by_cases hc : addrOf l = some a
        · simp only [mm_parent, if_neg ha, if_pos hle, if_pos hc,
            Option.some.injEq, Tree.node.injEq] at h
          simp [nodes_node, h.1, h.2.1]
        · simp only [mm_parent, if_neg ha, if_pos hle, if_neg hc] at h
          simp [nodes_node, ihl h]
      · by_cases hc : addrOf r = some a
        · simp only [mm_parent, if_neg ha, if_neg hle, if_pos hc,
            Option.some.injEq, Tree.node.injEq] at h
          simp [nodes_node, h.1, h.2.1]
        · simp only [mm_parent, if_neg ha, if_neg hle, if_neg hc] at h
          simp [nodes_node, ihr h]

theorem mm_parent_ok {t : Tree} {a sa : Nat} (hb : bst t = true)
    (hnd : (addrs t).Nodup) (hm : (a, sa) ∈ nodes t) (hroot : addrOf t ≠ some a) :
    ∃ pa ps pl pr, mm_parent t a sa = some (.node pa ps pl pr) ∧
      (addrOf pl = some a ∨ (addrOf pl ≠ some a ∧ addrOf pr = some a)) := by
  induction t with
  | leaf => cases hm
  | node ra rs l r ihl ihr =>
    rcases bst_node_iff.1 hb with ⟨hbl, hbr, hL, hR⟩
    have hane : a ≠ ra := fun h => hroot (by simp [addrOf, h])
    rw [nodes_addrs_node] at hnd
    obtain ⟨hra, hLR⟩ := List.nodup_cons.1 hnd
    obtain ⟨hndl, hndr, hdis⟩ := List.nodup_append.1 hLR
    rw [nodes_node] at hm
    rcases List.mem_cons.1 hm with heq | hm2
    · cases heq; exact absurd rfl hane
    rcases List.mem_append.1 hm2 with hml | hmr
    · have hsa : sa ≤ rs := hbl (a, sa) hml
      simp only [mm_parent, if_neg hane, if_pos hsa]
      by_cases hchild : addrOf l = some a
      · exact ⟨ra, rs, l, r, by rw [if_pos hchild], Or.inl hchild⟩
      · rw [if_neg hchild]
        exact ihl hL hndl hml hchild
    · have hsa : rs < sa := hbr (a, sa) hmr
      have hnot : ¬ sa ≤ rs := by omega
      simp only [mm_parent, if_neg hane, if_neg hnot]
      by_cases hchild : addrOf r = some a
      · refine ⟨ra, rs, l, r, by rw [if_pos hchild], Or.inr ⟨?_, hchild⟩⟩
        intro hcl
        exact hdis (addrOf_mem hcl) (mem_addrs.2 ⟨sa, hmr⟩)
      · rw [if_neg hchild]
        exact ihr hR hndr hmr hchild

/-- A pointer write to a node inside the left subtree leaves the root and
the right subtree untouched. -/
theorem setChildAt_node_left {ra rs : Nat} {L R c : Tree} {pa : Nat} {isL : Bool}
    (h1 : pa ≠ ra) (h2 : pa ∉ addrs R) :
    setChildAt (.node ra rs L R) pa isL c = .node ra rs (setChildAt L pa isL c) R := by
  simp [setChildAt, h1, setChildAt_not_mem h2]

/-- A pointer write to a node inside the right subtree leaves the root and
the left subtree untouched. -/
theorem setChildAt_node_right {ra rs : Nat} {L R c : Tree} {pa : Nat} {isL : Bool}
    (h1 : pa ≠ ra) (h2 : pa ∉ addrs L) :
    setChildAt (.node ra rs L R) pa isL c = .node ra rs L (setChildAt R pa isL c) := by
  simp [setChildAt, h1, setChildAt_not_mem h2]

theorem attach_leaf (root : Tree) (bpa : Nat) (c : Tree) :
    attach root bpa .leaf c = some c := rfl

/-- Removing a node that lives in the left subtree only rewrites pointers in
the left subtree: the result is the (unchanged) root with the surgically
modified left subtree. -/
theorem mm_removeF_cong_left {ra rs : Nat} {L R : Tree} {a f : Nat}
    (hb : bst (.node ra rs L R) = true) (hnd : (addrs (.node ra rs L R)).Nodup)
    (hmL : a ∈ addrs L) (hf : sizeT L + 1 ≤ f) :
    mm_removeF f (.node ra rs L R) a =
      (mm_removeF f L a).map (fun x => Tree.node ra rs x R) := by
  obtain ⟨g, rfl⟩ : ∃ g, f = g + 1 := ⟨f - 1, by omega⟩
  rcases bst_node_iff.1 hb with ⟨hbl, hbr, hL, hR⟩
  rw [nodes_addrs_node] at hnd
  obtain ⟨hra, hLR⟩ := List.nodup_cons.1 hnd
  obtain ⟨hndl, hndr, hdis⟩ := List.nodup_append.1 hLR
  have hane : a ≠ ra := by
    rintro rfl
    exact hra (List.mem_append_left _ hmL)
  obtain ⟨s, hs⟩ := lookupN_isSome_of_mem hmL
  obtain ⟨bs, bl, br, rfl, hmbs, hsub⟩ := lookupN_shape hs
  have hlookT : lookupN (.node ra rs L R) a = some (.node a bs bl br) := by
    simp [lookupN, hane, hs]
  have hbs : bs ≤ rs := hbl (a, bs) hmbs
  have hparT : mm_parent (.node ra rs L R) a bs =
      (if addrOf L = some a then some (.node ra rs L R) else mm_parent L a bs) := by
    simp [mm_parent, hane, hbs]
  simp only [mm_removeF, hlookT, hs]
  cases hch : mm_children (.node a bs bl br) with
  | none => rfl
  | some nch =>
    dsimp only
    by_cases hq : addrOf L = some a
    · obtain ⟨ls, ll, lr, rfl⟩ : ∃ ls ll lr, L = .node a ls ll lr := by
        cases L with
        | leaf => cases hq
        | node la ls ll lr =>
          have : la = a := by simpa [addrOf] using hq
          subst this
          exact ⟨ls, ll, lr, rfl⟩
      have hLeq : Tree.node a ls ll lr = Tree.node a bs bl br := by
        simpa [lookupN] using hs
      injection hLeq with e1 e2 e3 e4
      have e2s := e2.symm
      have e3s := e3.symm
      have e4s := e4.symm
      subst e2s; subst e3s; subst e4s
      have hparL : mm_parent (.node a bs bl br) a bs = some .leaf := by
        simp [mm_parent]
      rw [hparT, if_pos hq, hparL]
      dsimp only
      have hattach : ∀ c, attach (.node ra rs (.node a bs bl br) R) a
          (.node ra rs (.node a bs bl br) R) c = some (.node ra rs c R) := by
        intro c
        simp [attach, addrOf, setChildAt]
      by_cases h0 : nch = 0
      · simp [h0, hattach, attach_leaf]
      by_cases h1 : nch = 1
      · simp [h0, h1, hattach, attach_leaf]
      simp only [if_neg h0, if_neg h1]
      cases hrep : mm_replace bl with
      | none => rfl
      | some rep =>
        cases rep with
        | leaf => rfl
        | node ma ms ml mr =>
          dsimp only
          cases hrec : mm_removeF g bl ma with
          | none => rfl
          | some nbp =>
            dsimp only
            rw [hattach]
            rfl
    · rw [hparT, if_neg hq]
      obtain ⟨pa, ps, pl, pr, hpar, hside⟩ := mm_parent_ok hL hndl hmbs hq
      rw [hpar]
      dsimp only
      have hpam : (pa, ps) ∈ nodes L := mm_parent_mem hpar
      have hpaL : pa ∈ addrs L := mem_addrs.2 ⟨ps, hpam⟩
      have hpane : pa ≠ ra := by
        rintro rfl
        exact hra (List.mem_append_left _ hpaL)
      have hpaR : pa ∉ addrs R := fun hc => hdis hpaL hc
      have hattach : ∀ c, attach (.node ra rs L R) a (.node pa ps pl pr) c =
          (attach L a (.node pa ps pl pr) c).map (fun x => Tree.node ra rs x R) := by
        intro c
        by_cases hcl : addrOf pl = some a
        · simp [attach, hcl, setChildAt_node_left hpane hpaR]
        · simp [attach, hcl, setChildAt_node_left hpane hpaR]
      by_cases h0 : nch = 0
      · simp [h0, hattach]
      by_cases h1 : nch = 1
      · simp [h0, h1, hattach]
      simp only [if_neg h0, if_neg h1]
      cases hrep : mm_replace bl with
      | none => rfl
      | some rep =>
        cases rep with
        | leaf => rfl
        | node ma ms ml mr =>
          dsimp only
          cases hrec : mm_removeF g bl ma with
          | none => rfl
          | some nbp =>
            dsimp only
            rw [hattach]

/-- Removing a node that lives in the right subtree only rewrites pointers in
the right subtree. -/
theorem mm_removeF_cong_right {ra rs : Nat} {L R : Tree} {a f : Nat}
    (hb : bst (.node ra rs L R) = true) (hnd : (addrs (.node ra rs L R)).Nodup)
    (hmR : a ∈ addrs R) (hf : sizeT R + 1 ≤ f) :
    mm_removeF f (.node ra rs L R) a =
      (mm_removeF f R a).map (fun x => Tree.node ra rs L x) := by
  obtain ⟨g, rfl⟩ : ∃ g, f = g + 1 := ⟨f - 1, by omega⟩
  rcases bst_node_iff.1 hb with ⟨hbl, hbr, hL, hR⟩
  rw [nodes_addrs_node] at hnd
  obtain ⟨hra, hLR⟩ := List.nodup_cons.1 hnd
  obtain ⟨hndl, hndr, hdis⟩ := List.nodup_append.1 hLR
  have hane : a ≠ ra := by
    rintro rfl
    exact hra (List.mem_append_right _ hmR)
  have hnotL : a ∉ addrs L := fun hc => hdis hc hmR
  obtain ⟨s, hs⟩ := lookupN_isSome_of_mem hmR
  obtain ⟨bs, bl, br, rfl, hmbs, hsub⟩ := lookupN_shape hs
  have hlookT : lookupN (.node ra rs L R) a = some (.node a bs bl br) := by
    simp [lookupN, hane, lookupN_eq_none_iff.2 hnotL, hs]
  have hbs : ¬ bs ≤ rs := by
    have := hbr (a, bs) hmbs
    omega
  have hparT : mm_parent (.node ra rs L R) a bs =
      (if addrOf R = some a then some (.node ra rs L R) else mm_parent R a bs) := by
    simp [mm_parent, hane, hbs]
  simp only [mm_removeF, hlookT, hs]
  cases hch : mm_children (.node a bs bl br) with
  | none => rfl
  | some nch =>
    dsimp only
    by_cases hq : addrOf R = some a
    · obtain ⟨ls, ll, lr, rfl⟩ : ∃ ls ll lr, R = .node a ls ll lr := by
        cases R with
        | leaf => cases hq
        | node la ls ll lr =>
          have : la = a := by simpa [addrOf] using hq
          subst this
          exact ⟨ls, ll, lr, rfl⟩
      have hLeq : Tree.node a ls ll lr = Tree.node a bs bl br := by
        simpa [lookupN] using hs
      injection hLeq with e1 e2 e3 e4
      have e2s := e2.symm
      have e3s := e3.symm
      have e4s := e4.symm
      subst e2s; subst e3s; subst e4s
      have hparL : mm_parent (.node a bs bl br) a bs = some .leaf := by
        simp [mm_parent]
      rw [hparT, if_pos hq, hparL]
      dsimp only
      have hattach : ∀ c, attach (.node ra rs L (.node a bs bl br)) a
          (.node ra rs L (.node a bs bl br)) c = some (.node ra rs L c) := by
        intro c
        have hLa : addrOf L ≠ some a := fun hc => hnotL (addrOf_mem hc)
        simp only [attach]
        rw [if_neg hLa]
        simp [setChildAt]
      by_cases h0 : nch = 0
      · simp [h0, hattach, attach_leaf]
      by_cases h1 : nch = 1
      · simp [h0, h1, hattach, attach_leaf]
      simp only [if_neg h0, if_neg h1]
      cases hrep : mm_replace bl with
      | none => rfl
      | some rep =>
        cases rep with
        | leaf => rfl
        | node ma ms ml mr =>
          dsimp only
          cases hrec : mm_removeF g bl ma with
          | none => rfl
          | some nbp =>
            dsimp only
            rw [hattach]
            rfl
    · rw [hparT, if_neg hq]
      obtain ⟨pa, ps, pl, pr, hpar, hside⟩ := mm_parent_ok hR hndr hmbs hq
      rw [hpar]
      dsimp only
      have hpam : (pa, ps) ∈ nodes R := mm_parent_mem hpar
      have hpaR : pa ∈ addrs R := mem_addrs.2 ⟨ps, hpam⟩
      have hpane : pa ≠ ra := by
        rintro rfl
        exact hra (List.mem_append_right _ hpaR)
      have hpaL : pa ∉ addrs L := fun hc => hdis hc hpaR
      have hattach : ∀ c, attach (.node ra rs L R) a (.node pa ps pl pr) c =
          (attach R a (.node pa ps pl pr) c).map (fun x => Tree.node ra rs L x) := by
        intro c
        by_cases hcl : addrOf pl = some a
        · simp [attach, hcl, setChildAt_node_right hpane hpaL]
        · simp [attach, hcl, setChildAt_node_right hpane hpaL]
      by_cases h0 : nch = 0
      · simp [h0, hattach]
      by_cases h1 : nch = 1
      · simp [h0, h1, hattach]
      simp only [if_neg h0, if_neg h1]
      cases hrep : mm_replace bl with
      | none => rfl
      | some rep =>
        cases rep with
        | leaf => rfl
        | node ma ms ml mr =>
          dsimp only
          cases hrec : mm_removeF g bl ma with
          | none => rfl
          | some nbp =>
            dsimp only
            rw [hattach]

/-- Membership transfer along the multiset equation produced by removal. -/
theorem mem_of_cons_nodes {a : Nat × Nat} {u t : Tree}
    (h : a ::ₘ (nodes u : Multiset (Nat × Nat)) = (nodes t : Multiset (Nat × Nat)))
    {x : Nat × Nat} (hx : x ∈ nodes u) : x ∈ nodes t := by
  have h2 : x ∈ (nodes t : Multiset (Nat × Nat)) := by
    rw [← h]
    exact Multiset.mem_cons_of_mem (Multiset.mem_coe.2 hx)
  exact Multiset.mem_coe.1 h2

/-- Correctness of `mm_remove` on well-formed index trees: removing a node
that is present succeeds (no null dereference), removes exactly that node
(the multiset of index entries loses one copy of `(a, sa)`), and preserves
the search-tree ordering invariant. -/
theorem mm_removeF_ok {t : Tree} : ∀ {a sa f : Nat}, bst t = true → (addrs t).Nodup →
    (a, sa) ∈ nodes t → sizeT t ≤ f →
    ∃ u, mm_removeF f t a = some u ∧
      (a, sa) ::ₘ (nodes u : Multiset (Nat × Nat)) = (nodes t : Multiset (Nat × Nat)) ∧
      bst u = true := by
  induction t with
  | leaf => intro a sa f _ _ hm _; cases hm
  | node ra rs L R ihl ihr =>
    intro a sa f hb hnd hm hf
    rcases bst_node_iff.1 hb with ⟨hbl, hbr, hL, hR⟩
    have hnd2 := hnd
    rw [nodes_addrs_node] at hnd2
    obtain ⟨hra, hLR⟩ := List.nodup_cons.1 hnd2
    obtain ⟨hndl, hndr, hdis⟩ := List.nodup_append.1 hLR
    have hfpos : 1 ≤ f := by
      simp only [sizeT] at hf
      omega
    by_cases ha : a = ra
    · subst ha
      have hsa : sa = rs := nodupKeys_eq hnd hm (by simp [nodes_node])
      subst hsa
      obtain ⟨g, rfl⟩ : ∃ g, f = g + 1 := ⟨f - 1, by omega⟩
      have hlook : lookupN (.node a sa L R) a = some (.node a sa L R) := by
        simp [lookupN]
      have hpar : mm_parent (.node a sa L R) a sa = some .leaf := by
        simp [mm_parent]
      simp only [mm_removeF, hlook]
      cases L with
      | leaf =>
        cases R with
        | leaf =>
          refine ⟨.leaf, ?_, ?_, rfl⟩
          · simp [mm_children, hpar, attach]
          · simp [nodes_node, nodes, Multiset.cons_coe]
        | node r1 r2 r3 r4 =>
          refine ⟨.node r1 r2 r3 r4, ?_, ?_, hR⟩
          · simp [mm_children, hpar, attach]
          · rw [nodes_node a sa]
            rw [← Multiset.cons_coe]
            rw [Multiset.cons_inj_right]
            simp [nodes]
      | node l1 l2 l3 l4 =>
        cases R with
        | leaf =>
          refine ⟨.node l1 l2 l3 l4, ?_, ?_, hL⟩
          · simp [mm_children, hpar, attach]
          · rw [nodes_node a sa]
            rw [← Multiset.cons_coe]
            rw [Multiset.cons_inj_right]
            simp [nodes]
        | node r1 r2 r3 r4 =>
          obtain ⟨ma, ms, ml, hrepl, hmL, hmax⟩ :=
            mm_replace_ok (L := .node l1 l2 l3 l4) (by simp)
          obtain ⟨nbp, hrec, hperm, hbst⟩ :=
            ihl hL hndl hmL (f := g) (by simp only [sizeT] at hf ⊢; omega)
          refine ⟨.node ma ms nbp (.node r1 r2 r3 r4), ?_, ?_, ?_⟩
          · simp [mm_children, hpar, hrepl, hrec, attach]
          · rw [nodes_node a sa, nodes_node ma ms]
            rw [← Multiset.cons_coe, ← Multiset.cons_coe]
            rw [Multiset.cons_inj_right]
            rw [← Multiset.coe_add, ← Multiset.coe_add]
            rw [← Multiset.cons_add]
            rw [hperm]
          · refine bst_node_iff.2 ⟨?_, ?_, hbst, hR⟩
            · intro x hx
              exact hmax hL x (mem_of_cons_nodes hperm hx)
            · intro x hx
              have h1 : sa < x.2 := hbr x hx
              have h2 : ms ≤ sa := hbl (ma, ms) hmL
              omega
    · rw [nodes_node] at hm
      rcases List.mem_cons.1 hm with heq | hm2
      · cases heq; exact absurd rfl ha
      rcases List.mem_append.1 hm2 with hml | hmr
      · have hfl : sizeT L + 1 ≤ f := by
          simp only [sizeT] at hf
          omega
        rw [mm_removeF_cong_left hb hnd (mem_addrs.2 ⟨sa, hml⟩) hfl]
        obtain ⟨u, hu, hperm, hbst⟩ := ihl hL hndl hml (f := f) (by omega)
        rw [hu]
        refine ⟨.node ra rs u R, rfl, ?_, ?_⟩
        · rw [nodes_node ra rs u R, nodes_node ra rs L R]
          rw [← Multiset.cons_coe, ← Multiset.cons_coe]
          rw [← Multiset.coe_add, ← Multiset.coe_add]
          rw [Multiset.cons_swap]
          rw [Multiset.cons_inj_right]
          rw [← Multiset.cons_add]
          rw [hperm]
        · refine bst_node_iff.2 ⟨?_, hbr, hbst, hR⟩
          intro x hx
          exact hbl x (mem_of_cons_nodes hperm hx)
      · have hfr : sizeT R + 1 ≤ f := by
          simp only [sizeT] at hf
          omega
        rw [mm_removeF_cong_right hb hnd (mem_addrs.2 ⟨sa, hmr⟩) hfr]
        obtain ⟨u, hu, hperm, hbst⟩ := ihr hR hndr hmr (f := f) (by omega)
        rw [hu]
        refine ⟨.node ra rs L u, rfl, ?_, ?_⟩
        · rw [nodes_node ra rs L u, nodes_node ra rs L R]
          rw [← Multiset.cons_coe, ← Multiset.cons_coe]
          rw [← Multiset.coe_add, ← Multiset.coe_add]
          rw [Multiset.cons_swap]
          rw [Multiset.cons_inj_right]
          rw [← Multiset.add_cons]
          rw [hperm]
        · refine bst_node_iff.2 ⟨hbl, ?_, hL, hbst⟩
          intro x hx
          exact hbr x (mem_of_cons_nodes hperm hx)

/-- `mm_remove` (with its actual fuel) on well-formed index trees. -/
theorem mm_remove_ok {t : Tree} {a sa : Nat} (hb : bst t = true)
    (hnd : (addrs t).Nodup) (hm : (a, sa) ∈ nodes t) :
    ∃ u, mm_remove t a = some u ∧
      (a, sa) ::ₘ (nodes u : Multiset (Nat × Nat)) = (nodes t : Multiset (Nat × Nat)) ∧
      bst u = true :=
  mm_removeF_ok hb hnd hm (Nat.le_refl _)

theorem addrs_mm_insert (t : Tree) (bp : Nat × Nat) :
    (addrs (mm_insert t bp)).Perm (bp.1 :: addrs t) :=
  (nodes_mm_insert t bp).map Prod.fst

theorem nodup_of_cons_nodes {a : Nat × Nat} {u t : Tree}
    (h : a ::ₘ (nodes u : Multiset (Nat × Nat)) = (nodes t : Multiset (Nat × Nat)))
    (hnd : (addrs t).Nodup) : (addrs u).Nodup := by
  have hperm : (nodes t).Perm (a :: nodes u) := by
    rw [Multiset.cons_coe] at h
    exact (Multiset.coe_eq_coe.1 h).symm
  have haddr : (addrs t).Perm (a.1 :: addrs u) := hperm.map Prod.fst
  have := (haddr.nodup_iff).1 hnd
  exact (List.nodup_cons.1 this).2

/-- A free-index operation issued by the allocator: insert a block or remove
a block by identity. -/
inductive TOp where
  | ins (addr size : Nat)
  | rem (addr : Nat)
deriving DecidableEq, Repr

/-- Run a sequence of `mm_insert`/`mm_remove` calls, propagating the
null-dereference failure of `mm_remove`. -/
def applyOps : List TOp → Tree → Option Tree
  | [], t => some t
  | .ins a s :: rest, t => applyOps rest (mm_insert t (a, s))
  | .rem a :: rest, t =>
      match mm_remove t a with
      | none => none
      | some u => applyOps rest u

/-- Well-formed call sequences, matching the allocator's usage: an inserted
block is not currently in the index (its address is fresh), and a removed
block "must currently be in the tree" (the spec's own precondition for
remove-by-identity). -/
def okOps : List TOp → Tree → Bool
  | [], _ => true
  | .ins a s :: rest, t => !(decide (a ∈ addrs t)) && okOps rest (mm_insert t (a, s))
  | .rem a :: rest, t =>
      decide (a ∈ addrs t) &&
        (match mm_remove t a with
         | none => false
         | some u => okOps rest u)

theorem applyOps_ok (ops : List TOp) : ∀ t : Tree, bst t = true → (addrs t).Nodup →
    okOps ops t = true →
    ∃ u, applyOps ops t = some u ∧ bst u = true ∧ (addrs u).Nodup := by
  induction ops with
  | nil => intro t hb hnd _; exact ⟨t, rfl, hb, hnd⟩
  | cons op rest ih =>
    intro t hb hnd hok
    cases op with
    | ins a s =>
      simp only [okOps, Bool.and_eq_true, Bool.not_eq_true', decide_eq_false_iff_not]
        at hok
      have hfresh : a ∉ addrs t := hok.1
      have hnd2 : (addrs (mm_insert t (a, s))).Nodup :=
        ((addrs_mm_insert t (a, s)).nodup_iff).2 (List.nodup_cons.2 ⟨hfresh, hnd⟩)
      exact ih (mm_insert t (a, s)) (bst_mm_insert _ hb) hnd2 hok.2
    | rem a =>
      simp only [okOps, Bool.and_eq_true, decide_eq_true_eq] at hok
      obtain ⟨sa, hm⟩ := mem_addrs.1 hok.1
      obtain ⟨u, hu, hcons, hbu⟩ := mm_remove_ok hb hnd hm
      have hok2 : okOps rest u = true := by
        have := hok.2
        rw [hu] at this
        exact this
      have hndu : (addrs u).Nodup := nodup_of_cons_nodes hcons hnd
      obtain ⟨v, hv, hbv, hnv⟩ := ih u hbu hndu hok2
      refine ⟨v, ?_, hbv, hnv⟩
      simp only [applyOps, hu]
      exact hv

/-- C3: `mm_fitter(root, size)` on a tree satisfying the size-ordering
invariant returns null exactly when no indexed block has size `≥ size`, and
any non-null result is a node of the tree whose size is `≥ size` (the
descent recurses right whenever the current node is too small). -/
theorem c3_fitter_correct (t : Tree) (size : Nat) (hb : bst t = true) :
    (mm_fitter t size = .leaf ↔ ∀ x ∈ nodes t, x.2 < size) ∧
    (∀ a s l r, mm_fitter t size = .node a s l r → (a, s) ∈ nodes t ∧ size ≤ s) :=
  ⟨mm_fitter_eq_leaf_iff size hb, fun _ _ _ _ h => mm_fitter_node_mem h⟩

theorem c3_fitter_correct_witness :
    (mm_fitter (.node 24 32 (.node 16 24 .leaf .leaf) (.node 40 48 .leaf .leaf)) 40
        = .leaf ↔
      ∀ x ∈ nodes (.node 24 32 (.node 16 24 .leaf .leaf) (.node 40 48 .leaf .leaf)),
        x.2 < 40) ∧
    (∀ a s l r,
      mm_fitter (.node 24 32 (.node 16 24 .leaf .leaf) (.node 40 48 .leaf .leaf)) 40
          = .node a s l r →
        (a, s) ∈ nodes (.node 24 32 (.node 16 24 .leaf .leaf) (.node 40 48 .leaf .leaf)) ∧
        40 ≤ s) :=
  c3_fitter_correct _ 40 (by decide)

/-- C4: the search-tree ordering invariant (left subtree sizes `≤` the node
size, right subtree sizes `>` it, duplicates to the left) is preserved by
every well-formed sequence of `mm_insert` and `mm_remove` calls starting
from the empty (null) tree. -/
theorem c4_bst_invariant_sequences (ops : List TOp) (hok : okOps ops .leaf = true) :
    ∃ u, applyOps ops .leaf = some u ∧ bst u = true ∧ (addrs u).Nodup :=
  applyOps_ok ops .leaf rfl List.nodup_nil hok

theorem c4_bst_invariant_sequences_witness :
    ∃ u, applyOps [.ins 16 32, .ins 24 32, .ins 48 64, .ins 64 16, .rem 24, .rem 64]
        .leaf = some u ∧ bst u = true ∧ (addrs u).Nodup :=
  c4_bst_invariant_sequences _ (by decide)

/-- C10: removal safety.  On a tree satisfying the ordering invariant, with
distinct node addresses, and with `bp` a node of the tree, the whole removal
machinery is safe: `mm_remove` never dereferences a null pointer and returns
a value on every control path (it yields `some` result — `none` models every
null dereference inside `mm_remove`, `mm_parent`, `mm_children`,
`mm_replace`, including the two-children case's recursive removal from the
left subtree), and `mm_parent`'s size-directed descent always reaches `bp`,
returning the C `NULL` (`some .leaf`) exactly when `bp` is the root. -/
theorem c10_remove_machinery_safe (t : Tree) (a sa : Nat) (hb : bst t = true)
    (hnd : (addrs t).Nodup) (hm : (a, sa) ∈ nodes t) :
    mm_remove t a ≠ none ∧
    mm_parent t a sa ≠ none ∧
    (mm_parent t a sa = some .leaf ↔ addrOf t = some a) := by
  obtain ⟨u, hu, -, -⟩ := mm_remove_ok hb hnd hm
  refine ⟨by rw [hu]; simp, ?_, ?_, ?_⟩
  · by_cases hroot : addrOf t = some a
    · cases t with
      | leaf => cases hroot
      | node ra rs l r =>
        have : ra = a := by simpa [addrOf] using hroot
        subst this
        simp [mm_parent]
    · obtain ⟨pa, ps, pl, pr, hpar, -⟩ := mm_parent_ok hb hnd hm hroot
      rw [hpar]
      simp
  · intro hleaf
    by_cases hroot : addrOf t = some a
    · exact hroot
    · obtain ⟨pa, ps, pl, pr, hpar, -⟩ := mm_parent_ok hb hnd hm hroot
      rw [hpar] at hleaf
      cases hleaf
  · intro hroot
    cases t with
    | leaf => cases hroot
    | node ra rs l r =>
      have : ra = a := by simpa [addrOf] using hroot
      subst this
      simp [mm_parent]

theorem c10_remove_machinery_safe_witness :
    mm_remove (.node 24 32 (.node 16 24 .leaf .leaf) (.node 40 48 .leaf .leaf)) 16
        ≠ none ∧
    mm_parent (.node 24 32 (.node 16 24 .leaf .leaf) (.node 40 48 .leaf .leaf)) 16 24
        ≠ none ∧
    (mm_parent (.node 24 32 (.node 16 24 .leaf .leaf) (.node 40 48 .leaf .leaf)) 16 24
        = some .leaf ↔
      addrOf (.node 24 32 (.node 16 24 .leaf .leaf) (.node 40 48 .leaf .leaf))
        = some 16) :=
  c10_remove_machinery_safe _ 16 24 (by decide) (by decide) (by decide)

/-! ## The byte heap and the word macros of `mm.c` -/

/-- Byte-addressed heap memory (one `Nat < 256` per byte on every state the
allocator builds). -/
abbrev Mem : Type := Nat → Nat

/-- `GET(p)`: the 4-byte little-endian word at byte address `p`
(`*(size_t *)(p)` with 32-bit `size_t`). -/
def GET (m : Mem) (p : Nat) : Nat :=
  m p + 256 * m (p+1) + 65536 * m (p+2) + 16777216 * m (p+3)

/-- `PUT(p, val)`: store the word `val` at byte address `p` (4 bytes,
little-endian; the stored value is `val mod 2^32` as on the machine). -/
def PUT (m : Mem) (p v : Nat) : Mem := fun x =>
  if x = p then v % 256
  else if x = p + 1 then v / 256 % 256
  else if x = p + 2 then v / 65536 % 256
  else if x = p + 3 then v / 16777216 % 256
  else m x

/-- `PACK(size, alloc)` is `size | alloc` in `mm.c`; for `8 ∣ size` and
`alloc < 8` — the only way the allocator ever uses it — the bitwise or
equals addition, which is how it is modeled. -/
def PACK (size alloc : Nat) : Nat := size + alloc

/-- `GET_SIZE`/`GETSIZE` applied to a word value: clear the low three bits
(`v & ~0x7`, which for any `v` equals `v - v % 8`). -/
def GET_SIZE (v : Nat) : Nat := v - v % 8

/-- `GET_ALLOC` applied to a word value: the low bit (`v & 0x1`). -/
def GET_ALLOC (v : Nat) : Nat := v % 2

/-- `HDRP(bp) = bp - WSIZE`. -/
def HDRP (bp : Nat) : Nat := bp - 4

/-- `FTRP(bp) = bp + GET_SIZE(HDRP(bp)) - DSIZE`. -/
def FTRP (m : Mem) (bp : Nat) : Nat := bp + GET_SIZE (GET m (HDRP bp)) - 8

/-- `NEXT_BLKP(bp) = bp + GET_SIZE(bp - WSIZE)`. -/
def NEXT_BLKP (m : Mem) (bp : Nat) : Nat := bp + GET_SIZE (GET m (bp - 4))

/-- `PREV_BLKP(bp) = bp - GET_SIZE(bp - DSIZE)`. -/
def PREV_BLKP (m : Mem) (bp : Nat) : Nat := bp - GET_SIZE (GET m (bp - 8))

/-- 32-bit `size_t` subtraction (the allocator's only possibly-wrapping
subtraction, `csize - asize` in `place`). -/
def sub32 (a b : Nat) : Nat := (a + 4294967296 - b % 4294967296) % 4294967296

/-- `memcpy(dst, src, n)` (the allocator only calls it on non-overlapping
ranges, where reading from the pre-state is the C semantics). -/
def memcpy (m : Mem) (dst src n : Nat) : Mem := fun x =>
  if dst ≤ x ∧ x < dst + n then m (src + (x - dst)) else m x

/-- Allocator state: heap bytes, the current break (the `mem_sbrk` top), the
sink capacity (maximum heap size, fixed for the process's lifetime),
`heap_listp`, and the free-index root `tree_root`.  Per the design note
quoted at the top of the file the index tree is kept as a pure structure;
the link words it would occupy inside free payloads are accounted for by
`insertWrites`/`removeWrites` below. -/
structure AState where
  mem : Mem
  brk : Nat
  limit : Nat
  heap_listp : Nat
  tree_root : Tree

/-- Modelled from the spec: the heap sink `extend_region(bytes)` (the
`mem_sbrk` of the out-of-scope `memlib.c`) "enlarges the heap tail by
`bytes` and returns the former tail (the base of the new region), or a
failure sentinel on exhaustion".  Failure is `none`; both call sites in
`mm.c` test for the failure sentinel. -/
def mem_sbrk (st : AState) (n : Nat) : Option (Nat × AState) :=
  if st.brk + n ≤ st.limit then some (st.brk, { st with brk := st.brk + n })
  else none

/-- The byte addresses of the link words written by `mm_insert`: the C code
rewrites the left or right link of every node along the descent
(`SETLEFT(root, mm_insert(LEFT(root), bp))` writes the word at `root`;
`SETRIGHT` the word at `root + WSIZE`) and clears both links of the new
leaf. -/
def insertWrites : Tree → Nat × Nat → List Nat
  | .leaf, bp => [bp.1, bp.1 + 4]
  | .node ra rs l r, bp =>
      if bp.2 ≤ rs then ra :: insertWrites l bp
      else (ra + 4) :: insertWrites r bp

/-- Link words written when attaching at the parent slot in `mm_remove`
(`SETLEFT(parent_node, ·)` is the word at `parent_node`, `SETRIGHT` at
`parent_node + WSIZE`; a null parent writes nothing). -/
def attachWrites (bpa : Nat) (p : Tree) : List Nat :=
  match p with
  | .leaf => []
  | .node pa _ pl _ => if addrOf pl = some bpa then [pa] else [pa + 4]

/-- The byte addresses of the link words written by `mm_remove` (mirrors
`mm_removeF`: the parent-slot write of each case, plus in the two-children
case the recursive removal's writes and `SETLEFT`/`SETRIGHT` on the
replacement node). -/
def removeWritesF : Nat → Tree → Nat → List Nat
  | 0, _, _ => []
  | fuel+1, root, bpa =>
    match lookupN root bpa with
    | none => []
    | some .leaf => []
    | some (.node _ bs bl br) =>
      match mm_children (.node bpa bs bl br) with
      | none => []
      | some nch =>
        match mm_parent root bpa bs with
        | none => []
        | some p =>
          if nch = 0 then attachWrites bpa p
          else if nch = 1 then attachWrites bpa p
          else
            match mm_replace bl with
            | none => []
            | some .leaf => []
            | some (.node ma _ _ _) =>
              removeWritesF fuel bl ma ++ [ma, ma + 4] ++ attachWrites bpa p

/-- Link words written by `mm_remove` with its actual fuel. -/
def removeWrites (root : Tree) (bpa : Nat) : List Nat :=
  removeWritesF (sizeT root) root bpa

/-! ## The allocator operations of `mm.c`

Each operation returns, besides its C result and the new state, the list of
byte addresses of the 4-byte words it wrote (tag writes from `PUT` plus the
link words of the index writes).  A `none` at the outermost layer models an
undefined pointer dereference inside the index operations; the invariant
proofs show it never occurs on reachable states. -/

/-- `coalesce(bp)` of `mm.c`: boundary-tag coalescing, four cases on the
allocation bits of the preceding footer and following header. -/
def coalesce (st : AState) (bp : Nat) : Option (Nat × AState × List Nat) :=
  let m := st.mem
  let prev_alloc := GET_ALLOC (GET m (FTRP m (PREV_BLKP m bp)))
  let next_alloc := GET_ALLOC (GET m (HDRP (NEXT_BLKP m bp)))
  let size := GET_SIZE (GET m (HDRP bp))
  if prev_alloc ≠ 0 ∧ next_alloc ≠ 0 then
    some (bp, st, [])
  else if prev_alloc ≠ 0 ∧ next_alloc = 0 then
    let size2 := size + GET_SIZE (GET m (HDRP (NEXT_BLKP m bp)))
    match mm_remove st.tree_root (NEXT_BLKP m bp) with
    | none => none
    | some tr =>
      let m1 := PUT m (HDRP bp) (PACK size2 0)
      let m2 := PUT m1 (FTRP m1 bp) (PACK size2 0)
      some (bp, { st with mem := m2, tree_root := tr },
        [HDRP bp, FTRP m1 bp] ++ removeWrites st.tree_root (NEXT_BLKP m bp))
  else if prev_alloc = 0 ∧ next_alloc ≠ 0 then
    let size3 := size + GET_SIZE (GET m (HDRP (PREV_BLKP m bp)))
    match mm_remove st.tree_root (PREV_BLKP m bp) with
    | none => none
    | some tr =>
      let m1 := PUT m (FTRP m bp) (PACK size3 0)
      let m2 := PUT m1 (HDRP (PREV_BLKP m1 bp)) (PACK size3 0)
      some (PREV_BLKP m2 bp, { st with mem := m2, tree_root := tr },
        [FTRP m bp, HDRP (PREV_BLKP m1 bp)] ++
          removeWrites st.tree_root (PREV_BLKP m bp))
  else
    let size4 := size + GET_SIZE (GET m (HDRP (PREV_BLKP m bp))) +
      GET_SIZE (GET m (FTRP m (NEXT_BLKP m bp)))
    match mm_remove st.tree_root (NEXT_BLKP m bp) with
    | none => none
    | some tr1 =>
      match mm_remove tr1 (PREV_BLKP m bp) with
      | none => none
      | some tr2 =>
        let m1 := PUT m (HDRP (PREV_BLKP m bp)) (PACK size4 0)
        let m2 := PUT m1 (FTRP m1 (NEXT_BLKP m1 bp)) (PACK size4 0)
        some (PREV_BLKP m2 bp, { st with mem := m2, tree_root := tr2 },
          [HDRP (PREV_BLKP m bp), FTRP m1 (NEXT_BLKP m1 bp)] ++
            removeWrites st.tree_root (NEXT_BLKP m bp) ++
            removeWrites tr1 (PREV_BLKP m bp))

/-- `extend_heap(words)` of `mm.c`: round the word count up to even, ask the
sink, write the new free block's tags and the fresh epilogue header, then
coalesce.  `some none` is the C `NULL` return on sink failure (checked
before any write). -/
def extend_heap (st : AState) (words : Nat) :
    Option (Option (Nat × AState × List Nat)) :=
  let size := if words % 2 = 1 then (words + 1) * 4 else words * 4
  match mem_sbrk st size with
  | none => some none
  | some (bp, st1) =>
    let m1 := PUT st1.mem (HDRP bp) (PACK size 0)
    let m2 := PUT m1 (FTRP m1 bp) (PACK size 0)
    let m3 := PUT m2 (HDRP (NEXT_BLKP m2 bp)) (PACK 0 1)
    match coalesce { st1 with mem := m3 } bp with
    | none => none
    | some (cp, st2, lg) =>
      some (some (cp, st2,
        [HDRP bp, FTRP m1 bp, HDRP (NEXT_BLKP m2 bp)] ++ lg))

/-- `place(bp, asize)` of `mm.c`: no split when `csize - asize < 6*OVERHEAD`
(48); otherwise split, allocating at the front when the next physical
neighbor is strictly larger than the previous one (inserting the tail
remainder), and at the tail otherwise (inserting the front remainder).
`csize - asize` is 32-bit `size_t` subtraction (`sub32`). -/
def place (st : AState) (bp asize : Nat) : Nat × AState × List Nat :=
  let m := st.mem
  let csize := GET_SIZE (GET m (HDRP bp))
  if 48 ≤ sub32 csize asize then
    if GET_SIZE (GET m (HDRP (NEXT_BLKP m bp))) >
        GET_SIZE (GET m (HDRP (PREV_BLKP m bp))) then
      let m1 := PUT m (HDRP bp) (PACK asize 1)
      let m2 := PUT m1 (FTRP m1 bp) (PACK asize 1)
      let blah := NEXT_BLKP m2 bp
      let m3 := PUT m2 (HDRP blah) (PACK (sub32 csize asize) 0)
      let m4 := PUT m3 (FTRP m3 blah) (PACK (sub32 csize asize) 0)
      let tr := mm_insert st.tree_root (blah, GET_SIZE (GET m4 (HDRP blah)))
      (bp, { st with mem := m4, tree_root := tr },
        [HDRP bp, FTRP m1 bp, HDRP blah, FTRP m3 blah] ++
          insertWrites st.tree_root (blah, GET_SIZE (GET m4 (HDRP blah))))
    else
      let m1 := PUT m (HDRP bp) (PACK (sub32 csize asize) 0)
      let m2 := PUT m1 (FTRP m1 bp) (PACK (sub32 csize asize) 0)
      let blah := NEXT_BLKP m2 bp
      let m3 := PUT m2 (HDRP blah) (PACK asize 1)
      let m4 := PUT m3 (FTRP m3 blah) (PACK asize 1)
      let tr := mm_insert st.tree_root (bp, GET_SIZE (GET m4 (HDRP bp)))
      (blah, { st with mem := m4, tree_root := tr },
        [HDRP bp, FTRP m1 bp, HDRP blah, FTRP m3 blah] ++
          insertWrites st.tree_root (bp, GET_SIZE (GET m4 (HDRP bp))))
  else
    let m1 := PUT m (HDRP bp) (PACK csize 1)
    let m2 := PUT m1 (FTRP m1 bp) (PACK csize 1)
    (bp, { st with mem := m2 }, [HDRP bp, FTRP m1 bp])

/-- The process start state: zeroed memory, break at 0, empty index. -/
def st0 (limit : Nat) : AState :=
  { mem := fun _ => 0, brk := 0, limit := limit, heap_listp := 0,
    tree_root := .leaf }

/-- `mm_init()` of `mm.c`: four sink words for pad + prologue + epilogue,
then extend by `CHUNKSIZE` (4096) bytes and insert the resulting free block
into the (reset) index.  `-1` on sink failure. -/
def mm_init (limit : Nat) : Option (Int × AState) :=
  let st := st0 limit
  match mem_sbrk st 16 with
  | none => some (-1, st)
  | some (base, st1) =>
    let m1 := PUT st1.mem base 0
    let m2 := PUT m1 (base + 4) (PACK 8 1)
    let m3 := PUT m2 (base + 8) (PACK 8 1)
    let m4 := PUT m3 (base + 12) (PACK 0 1)
    let st2 := { st1 with mem := m4, heap_listp := base + 8 }
    match extend_heap st2 (4096 / 4) with
    | none => none
    | some none => some (-1, st2)
    | some (some (bp, st3, _)) =>
      some (0, { st3 with
        tree_root := mm_insert st3.tree_root (bp, GET_SIZE (GET st3.mem (HDRP bp))) })

/-- `mm_free(bp)` of `mm.c`: clear the allocation bit in header and footer,
coalesce, insert the result into the index. -/
def mm_free (st : AState) (bp : Nat) : Option AState :=
  let size := GET_SIZE (GET st.mem (HDRP bp))
  let m1 := PUT st.mem (HDRP bp) (PACK size 0)
  let m2 := PUT m1 (FTRP m1 bp) (PACK size 0)
  match coalesce { st with mem := m2 } bp with
  | none => none
  | some (cp, st2, _) =>
    some { st2 with
      tree_root := mm_insert st2.tree_root (cp, GET_SIZE (GET st2.mem (HDRP cp))) }

/-- The adjusted block size of `mm_malloc`: `16` for requests of at most
`DSIZE` bytes, otherwise `size + OVERHEAD` rounded up to a multiple of 8
(in 32-bit `size_t` arithmetic). -/
def adjustSize (size : Nat) : Nat :=
  if size ≤ 8 then 16
  else 8 * (((size + 8 + 7) % 4294967296) / 8)

/-- `mm_malloc(size)` of `mm.c`: null for `size = 0` (`size <= 0` on the
unsigned `size_t`); query the index, and on a hit remove the node and place;
on a miss extend by `max(asize, CHUNKSIZE)` and place.  The returned option
is the C pointer-or-null.  (`mm_fitter`'s C parameter is a 32-bit `int`; the
modeled domain keeps `asize < 2^31`, where the comparison agrees with the
`Nat` one.) -/
def mm_malloc (st : AState) (size : Nat) :
    Option (Option Nat × AState × List Nat) :=
  if size = 0 then some (none, st, [])
  else
    let asize := adjustSize size
    match mm_fitter st.tree_root asize with
    | .node ba _ _ _ =>
      match mm_remove st.tree_root ba with
      | none => none
      | some tr =>
        let out := place { st with tree_root := tr } ba asize
        some (some out.1, out.2.1, removeWrites st.tree_root ba ++ out.2.2)
    | .leaf =>
      let extendsize := max asize 4096
      match extend_heap st (extendsize / 4) with
      | none => none
      | some none => some (none, st, [])
      | some (some (bp, st1, lg1)) =>
        let out := place st1 bp asize
        some (some out.1, out.2.1, lg1 ++ out.2.2)

/-- The observable outcome of a successful `mm_realloc`: the new pointer,
the number of bytes the `memcpy` copied, and the final state. -/
structure ReallocOut where
  newp : Nat
  copyCount : Nat
  finalState : AState

/-- `mm_realloc(ptr, size)` of `mm.c`: allocate, copy
`min(size, GET_SIZE(HDRP(ptr)))` bytes, free the old block.  When the inner
`mm_malloc` fails the C code prints an error and calls `exit(1)` — modeled
as `Except.error ()`; it does not return null. -/
def mm_realloc (st : AState) (ptr size : Nat) : Option (Except Unit ReallocOut) :=
  match mm_malloc st size with
  | none => none
  | some (none, _, _) => some (.error ())
  | some (some newp, st1, _) =>
    let copySize0 := GET_SIZE (GET st1.mem (HDRP ptr))
    let copySize := if size < copySize0 then size else copySize0
    let m2 := memcpy st1.mem newp ptr copySize
    match mm_free { st1 with mem := m2 } ptr with
    | none => none
    | some st2 => some (.ok ⟨newp, copySize, st2⟩)

/-! ## Word-level laws of the heap accessors -/

theorem PUT_at0 (m : Mem) (p v : Nat) : PUT m p v p = v % 256 := by
  simp [PUT]

theorem PUT_at1 (m : Mem) (p v : Nat) : PUT m p v (p+1) = v / 256 % 256 := by
  simp only [PUT]
  rw [if_neg (by omega)]
  simp

theorem PUT_at2 (m : Mem) (p v : Nat) : PUT m p v (p+2) = v / 65536 % 256 := by
  simp only [PUT]
  rw [if_neg (by omega), if_neg (by omega)]
  simp

theorem PUT_at3 (m : Mem) (p v : Nat) : PUT m p v (p+3) = v / 16777216 % 256 := by
  simp only [PUT]
  rw [if_neg (by omega), if_neg (by omega), if_neg (by omega)]
  simp

theorem PUT_outside {p x : Nat} (m : Mem) (v : Nat) (h : x < p ∨ p + 4 ≤ x) :
    PUT m p v x = m x := by
  simp only [PUT]
  rw [if_neg (by omega), if_neg (by omega), if_neg (by omega), if_neg (by omega)]

theorem GET_PUT_same (m : Mem) (p v : Nat) :
    GET (PUT m p v) p = v % 4294967296 := by
  rw [GET, PUT_at0, PUT_at1, PUT_at2, PUT_at3]
  omega

theorem GET_PUT_same_of_lt (m : Mem) (p : Nat) {v : Nat} (h : v < 4294967296) :
    GET (PUT m p v) p = v := by
  rw [GET_PUT_same, Nat.mod_eq_of_lt h]

theorem GET_PUT_ne (m : Mem) (p v : Nat) {q : Nat}
    (h : q + 4 ≤ p ∨ p + 4 ≤ q) : GET (PUT m p v) q = GET m q := by
  rw [GET, GET, PUT_outside _ _ (by omega), PUT_outside _ _ (by omega),
    PUT_outside _ _ (by omega), PUT_outside _ _ (by omega)]

theorem PUT_byte {m : Mem} (hm : ∀ x, m x < 256) (p v : Nat) :
    ∀ x, PUT m p v x < 256 := by
  intro x
  simp only [PUT]
  split_ifs <;> first | exact Nat.mod_lt _ (by omega) | exact hm x

theorem memcpy_byte {m : Mem} (hm : ∀ x, m x < 256) (dst src n : Nat) :
    ∀ x, memcpy m dst src n x < 256 := by
  intro x
  simp only [memcpy]
  split_ifs <;> apply hm

theorem memcpy_outside {dst src n x : Nat} (m : Mem)
    (h : x < dst ∨ dst + n ≤ x) : memcpy m dst src n x = m x := by
  simp only [memcpy]
  rw [if_neg (by omega)]

theorem memcpy_inside {dst src n x : Nat} (m : Mem)
    (h1 : dst ≤ x) (h2 : x < dst + n) : memcpy m dst src n x = m (src + (x - dst)) := by
  simp only [memcpy]
  rw [if_pos ⟨h1, h2⟩]

theorem GET_lt {m : Mem} (hm : ∀ x, m x < 256) (p : Nat) :
    GET m p < 4294967296 := by
  have h0 := hm p
  have h1 := hm (p+1)
  have h2 := hm (p+2)
  have h3 := hm (p+3)
  rw [GET]
  omega

theorem GET_congr {m1 m2 : Mem} (p : Nat)
    (h : ∀ x, p ≤ x → x < p + 4 → m1 x = m2 x) : GET m1 p = GET m2 p := by
  rw [GET, GET, h p (by omega) (by omega), h (p+1) (by omega) (by omega),
    h (p+2) (by omega) (by omega), h (p+3) (by omega) (by omega)]

theorem GET_SIZE_PACK {s a : Nat} (h8 : s % 8 = 0) (ha : a < 8) :
    GET_SIZE (PACK s a) = s := by
  simp only [GET_SIZE, PACK]
  omega

theorem GET_ALLOC_PACK {s a : Nat} (h8 : s % 8 = 0) (ha : a < 2) :
    GET_ALLOC (PACK s a) = a := by
  simp only [GET_ALLOC, PACK]
  omega

theorem GET_SIZE_mod (v : Nat) : GET_SIZE v % 8 = 0 := by
  simp only [GET_SIZE]
  omega

theorem GET_ALLOC_lt (v : Nat) : GET_ALLOC v < 2 := by
  simp only [GET_ALLOC]
  omega

theorem sub32_eq {a b : Nat} (hb : b ≤ a) (ha : a < 4294967296) :
    sub32 a b = a - b := by
  simp only [sub32]
  omega

/-! ## C1: behavior on sink exhaustion -/

theorem adjustSize_mod (size : Nat) : adjustSize size % 8 = 0 := by
  rw [adjustSize]
  split
  · rfl
  · omega

/-- C1 counterexample: with the sink capped at the 4112 bytes `mm_init`
consumes, `mm_realloc` of a live pointer to 5000 bytes makes the inner
`mm_malloc` miss the index and fail to extend — and the process is
terminated (`exit(1)`, modeled `.error ()`); no null is returned.  Also,
`mm_init` under a sink that allows its first request but refuses the
extension returns `-1` with the prologue tag already written
(`GET mem 4 = 9 = PACK(8,1)`, where the pristine heap held `0`): heap tags
are mutated on that failure path. -/
theorem c1_sink_failure_counterexample :
    ((mm_init 4112).bind fun r => mm_realloc r.2 16 5000) = some (.error ()) ∧
    (mm_init 100).map (fun r => (r.1, GET r.2.mem 4)) = some (-1, 9) := by
  exact ⟨rfl, rfl⟩

/-- C1, amended: when the sink refuses to grow the heap, `mm_malloc`
surfaces the failure as null with no mutation at all (state returned
unchanged, empty write log); `mm_init` surfaces it as `-1` with nothing
inserted into the index — but when its first four-word request succeeded,
the pad/prologue/epilogue words it already wrote remain; and `mm_realloc`
does not surface the failure as null: it terminates the process
(`exit(1)`). -/
theorem c1_sink_failure_amended :
    (∀ (st : AState) (size : Nat), size ≠ 0 →
      mm_fitter st.tree_root (adjustSize size) = .leaf →
      st.limit < st.brk + max (adjustSize size) 4096 →
      mm_malloc st size = some (none, st, [])) ∧
    (∀ limit : Nat, limit < 16 → mm_init limit = some (-1, st0 limit)) ∧
    (∀ limit : Nat, 16 ≤ limit → limit < 4112 →
      ∃ st, mm_init limit = some (-1, st) ∧ st.tree_root = .leaf ∧
        st.brk = 16 ∧ ∀ x, 16 ≤ x → st.mem x = 0) ∧
    (∀ (st st2 : AState) (ptr size : Nat) (lg : List Nat),
      mm_malloc st size = some (none, st2, lg) →
      mm_realloc st ptr size = some (.error ())) := by
  refine ⟨?_, ?_, ?_, ?_⟩
  · intro st size hs hmiss hrefuse
    have hmod := adjustSize_mod size
    have hsbrk : mem_sbrk st (if (max (adjustSize size) 4096 / 4) % 2 = 1
        then (max (adjustSize size) 4096 / 4 + 1) * 4
        else (max (adjustSize size) 4096 / 4) * 4) = none := by
      rw [if_neg (by omega)]
      rw [mem_sbrk, if_neg (by omega)]
    simp only [mm_malloc, if_neg hs, hmiss, extend_heap, hsbrk]
  · intro limit hlim
    have h1 : mem_sbrk (st0 limit) 16 = none := by
      simp only [mem_sbrk, st0]
      rw [if_neg (by omega)]
    simp only [mm_init, h1]
  · intro limit h16 hlim
    have h1 : mem_sbrk (st0 limit) 16 = some (0, { st0 limit with brk := 16 }) := by
      simp only [mem_sbrk, st0]
      rw [if_pos (by omega)]
    have h2 : ∀ st2 : AState, st2.brk = 16 → st2.limit = limit →
        extend_heap st2 1024 = some none := by
      intro st2 hb hl
      have h3 : mem_sbrk st2 (if (1024 : Nat) % 2 = 1 then (1024 + 1) * 4
          else 1024 * 4) = none := by
        rw [if_neg (by norm_num)]
        rw [mem_sbrk, if_neg (by omega)]
      simp only [extend_heap, h3]
    simp only [mm_init, h1]
    norm_num
    rw [h2 _ rfl rfl]
    refine ⟨_, rfl, rfl, rfl, ?_⟩
    intro x hx
    simp only [st0]
    rw [PUT_outside _ _ (by omega), PUT_outside _ _ (by omega),
      PUT_outside _ _ (by omega), PUT_outside _ _ (by omega)]
  · intro st st2 ptr size lg h
    rw [mm_realloc, h]

theorem c1_sink_failure_amended_witness :
    mm_malloc (st0 100) 24 = some (none, st0 100, []) ∧
    mm_init 10 = some (-1, st0 10) ∧
    mm_realloc (st0 100) 16 24 = some (.error ()) := by
  have h1 := c1_sink_failure_amended.1 (st0 100) 24 (by decide) rfl (by decide)
  exact ⟨h1, c1_sink_failure_amended.2.1 10 (by decide),
    c1_sink_failure_amended.2.2.2 (st0 100) (st0 100) 16 24 [] h1⟩

/-! ## C2: what `mm_realloc` copies -/

/-- A small concrete heap used to exercise `mm_realloc`: pad + prologue,
an allocated 16-byte block at 16 (the pointer to be reallocated), a free
48-byte block at 32 (indexed), epilogue at 76, break 80. -/
def stW : AState :=
  { mem := PUT (PUT (PUT (PUT (PUT (PUT (PUT (PUT (fun _ => 0)
      0 0) 4 9) 8 9) 12 17) 24 17) 28 48) 72 48) 76 1,
    brk := 80, limit := 80, heap_listp := 8,
    tree_root := .node 32 48 .leaf .leaf }

/-- The outcome of `mm_realloc(16, 4)` on `stW` (a successful run). -/
def outW : ReallocOut :=
  match mm_realloc stW 16 4 with
  | some (.ok o) => o
  | _ => ⟨0, 0, st0 0⟩

/-- C2 counterexample: start from `mm_init`, `mm_malloc(5)` (returns the
16-byte block at 4096), then `mm_realloc(4096, 12)`.  The old block's size
is 16, so its payload capacity is `16 - 8 = 8`; the claim says exactly
`min(12, 8) = 8` bytes are copied, but the code copies
`min(size, GET_SIZE(HDRP(ptr))) = min(12, 16) = 12` bytes — the block size
including the boundary tags, not the payload. -/
theorem c2_realloc_copy_counterexample :
    (((mm_init 20000).bind fun r => mm_malloc r.2 5).map fun x =>
        GET_SIZE (GET x.2.1.mem (HDRP 4096))) = some 16 ∧
    (((mm_init 20000).bind fun r => mm_malloc r.2 5).bind fun x =>
        (mm_realloc x.2.1 4096 12).map fun e =>
          e.map fun out => (out.newp, out.copyCount))
      = some (.ok (16, 12)) ∧
    (12 : Nat) ≠ min 12 (16 - 8) := by
  exact ⟨rfl, rfl, by decide⟩

/-- C2, amended: `mm_realloc(ptr, size)` allocates a new block via
`mm_malloc(size)`, copies exactly `min(size, GET_SIZE(HDRP(ptr)))` bytes —
`GET_SIZE(HDRP(ptr))` is the old block's full size including its 8 bytes of
header and footer, not the payload capacity — from `ptr` to the new block,
frees the old block, and returns the new pointer. -/
theorem c2_realloc_amended (st : AState) (ptr size : Nat) (out : ReallocOut)
    (h : mm_realloc st ptr size = some (.ok out)) :
    ∃ st1 lg, mm_malloc st size = some (some out.newp, st1, lg) ∧
      out.copyCount = min size (GET_SIZE (GET st1.mem (HDRP ptr))) ∧
      (∀ i, i < out.copyCount →
        memcpy st1.mem out.newp ptr out.copyCount (out.newp + i) = st1.mem (ptr + i)) ∧
      mm_free { st1 with mem := memcpy st1.mem out.newp ptr out.copyCount } ptr =
        some out.finalState := by
  rw [mm_realloc] at h
  cases hm : mm_malloc st size with
  | none => rw [hm] at h; cases h
  | some res =>
    obtain ⟨r, st1, lg⟩ := res
    cases r with
    | none =>
      rw [hm] at h
      simp at h
    | some newp =>
      rw [hm] at h
      dsimp only at h
      cases hf : mm_free { st1 with mem := (memcpy st1.mem newp ptr
          (if size < GET_SIZE (GET st1.mem (HDRP ptr)) then size
           else GET_SIZE (GET st1.mem (HDRP ptr)))) } ptr with
      | none => rw [hf] at h; cases h
      | some st2 =>
        rw [hf] at h
        simp only [Option.some.injEq, Except.ok.injEq] at h
        have hmin : (if size < GET_SIZE (GET st1.mem (HDRP ptr)) then size
            else GET_SIZE (GET st1.mem (HDRP ptr)))
            = min size (GET_SIZE (GET st1.mem (HDRP ptr))) := by
          rcases Nat.lt_or_ge size (GET_SIZE (GET st1.mem (HDRP ptr))) with hc | hc
          · rw [if_pos hc, Nat.min_eq_left (Nat.le_of_lt hc)]
          · rw [if_neg (by omega), Nat.min_eq_right hc]
        subst h
        refine ⟨st1, lg, rfl, by rw [← hmin], ?_, ?_⟩
        · intro i hi
          rw [memcpy_inside _ (by omega) (by omega)]
          congr 1
          omega
        · exact hf

theorem c2_realloc_amended_witness :
    ∃ st1 lg, mm_malloc stW 4 = some (some outW.newp, st1, lg) ∧
      outW.copyCount = min 4 (GET_SIZE (GET st1.mem (HDRP 16))) ∧
      (∀ i, i < outW.copyCount →
        memcpy st1.mem outW.newp 16 outW.copyCount (outW.newp + i) = st1.mem (16 + i)) ∧
      mm_free { st1 with mem := memcpy st1.mem outW.newp 16 outW.copyCount } 16 =
        some outW.finalState :=
  c2_realloc_amended stW 16 4 outW (by rfl)

/-! ## C6: the placement and split policy -/

/-- `place` without a split (`csize - asize < 48`): the whole block is
marked allocated in place and `bp` is returned; the index is untouched. -/
theorem place_nosplit_eq (st : AState) (bp asize S : Nat)
    (hhdr : GET st.mem (bp - 4) = PACK S 0)
    (hS8 : S % 8 = 0) (hSlt : S < 4294967296) (hle : asize ≤ S)
    (hrem : S - asize < 48) :
    place st bp asize = (bp,
      { st with mem := PUT (PUT st.mem (bp - 4) (PACK S 1)) (bp + S - 8) (PACK S 1) },
      [bp - 4, bp + S - 8]) := by
  have hcs : GET_SIZE (GET st.mem (HDRP bp)) = S := by
    rw [HDRP, hhdr, GET_SIZE_PACK hS8 (by omega)]
  have hcond : ¬ 48 ≤ sub32 (GET_SIZE (GET st.mem (HDRP bp))) asize := by
    rw [hcs, sub32_eq hle hSlt]
    omega
  have hftr : FTRP (PUT st.mem (HDRP bp) (PACK (GET_SIZE (GET st.mem (HDRP bp))) 1)) bp
      = bp + S - 8 := by
    rw [FTRP, hcs, HDRP, GET_PUT_same_of_lt _ _ (by simp only [PACK]; omega),
      GET_SIZE_PACK hS8 (by omega)]
  simp only [place]
  rw [if_neg hcond, hftr, hcs]
  simp only [HDRP]

/-- `place` with a split, allocation at the front (the next physical
neighbor is strictly larger than the previous one): the allocated part sits
at `bp` with size `asize`, the remainder becomes a free block at
`bp + asize` of size `S - asize` and is inserted into the index, and the
low-address pointer `bp` is returned. -/
theorem place_front_eq (st : AState) (bp asize S : Nat)
    (hhdr : GET st.mem (bp - 4) = PACK S 0)
    (hS8 : S % 8 = 0) (hSlt : S < 4294967296)
    (ha8 : asize % 8 = 0) (ha16 : 16 ≤ asize) (hle : asize ≤ S)
    (hrem : 48 ≤ S - asize)
    (hcmp : GET_SIZE (GET st.mem (HDRP (NEXT_BLKP st.mem bp))) >
      GET_SIZE (GET st.mem (HDRP (PREV_BLKP st.mem bp)))) :
    place st bp asize = (bp,
      { st with
        mem := PUT (PUT (PUT (PUT st.mem (bp - 4) (PACK asize 1))
          (bp + asize - 8) (PACK asize 1)) (bp + asize - 4) (PACK (S - asize) 0))
          (bp + S - 8) (PACK (S - asize) 0),
        tree_root := mm_insert st.tree_root (bp + asize, S - asize) },
      [bp - 4, bp + asize - 8, bp + asize - 4, bp + S - 8] ++
        insertWrites st.tree_root (bp + asize, S - asize)) := by
  have hcs : GET_SIZE (GET st.mem (bp - 4)) = S := by
    rw [hhdr, GET_SIZE_PACK hS8 (by omega)]
  have hcond : 48 ≤ sub32 (GET_SIZE (GET st.mem (bp - 4))) asize := by
    rw [hcs, sub32_eq hle hSlt]
    omega
  have hftr1 : FTRP (PUT st.mem (bp - 4) (PACK asize 1)) bp = bp + asize - 8 := by
    rw [FTRP, HDRP, GET_PUT_same_of_lt _ _ (by simp only [PACK]; omega),
      GET_SIZE_PACK ha8 (by omega)]
  have hnext2 : NEXT_BLKP (PUT (PUT st.mem (bp - 4) (PACK asize 1))
      (bp + asize - 8) (PACK asize 1)) bp = bp + asize := by
    rw [NEXT_BLKP, GET_PUT_ne _ _ _ (by omega),
      GET_PUT_same_of_lt _ _ (by simp only [PACK]; omega),
      GET_SIZE_PACK ha8 (by omega)]
  have hftr3 : FTRP (PUT (PUT (PUT st.mem (bp - 4) (PACK asize 1))
      (bp + asize - 8) (PACK asize 1)) (bp + asize - 4) (PACK (S - asize) 0))
      (bp + asize) = bp + S - 8 := by
    rw [FTRP, HDRP, GET_PUT_same_of_lt _ _ (by simp only [PACK]; omega),
      GET_SIZE_PACK (by omega) (by omega)]
    omega
  have hkey : GET (PUT (PUT (PUT (PUT st.mem (bp - 4) (PACK asize 1))
      (bp + asize - 8) (PACK asize 1)) (bp + asize - 4) (PACK (S - asize) 0))
      (bp + S - 8) (PACK (S - asize) 0)) (bp + asize - 4) = PACK (S - asize) 0 := by
    rw [GET_PUT_ne _ _ _ (by omega),
      GET_PUT_same_of_lt _ _ (by simp only [PACK]; omega)]
  simp only [place, HDRP]
  simp only [HDRP] at hcmp
  rw [if_pos hcond, if_pos hcmp, hcs, sub32_eq hle hSlt, hftr1, hnext2, hftr3, hkey,
    GET_SIZE_PACK (by omega) (by omega)]

/-- `place` with a split, allocation at the tail (all other neighbor
comparisons): the remainder becomes a free block at the front (`bp`, size
`S - asize`) and is inserted into the index; the allocation sits at
`bp + (S - asize)` and that high-address pointer is returned. -/
theorem place_tail_eq (st : AState) (bp asize S : Nat)
    (hhdr : GET st.mem (bp - 4) = PACK S 0)
    (hS8 : S % 8 = 0) (hSlt : S < 4294967296)
    (ha8 : asize % 8 = 0) (ha16 : 16 ≤ asize) (hle : asize ≤ S)
    (hrem : 48 ≤ S - asize)
    (hcmp : ¬ (GET_SIZE (GET st.mem (HDRP (NEXT_BLKP st.mem bp))) >
      GET_SIZE (GET st.mem (HDRP (PREV_BLKP st.mem bp))))) :
    place st bp asize = (bp + (S - asize),
      { st with
        mem := PUT (PUT (PUT (PUT st.mem (bp - 4) (PACK (S - asize) 0))
          (bp + (S - asize) - 8) (PACK (S - asize) 0))
          (bp + (S - asize) - 4) (PACK asize 1))
          (bp + S - 8) (PACK asize 1),
        tree_root := mm_insert st.tree_root (bp, S - asize) },
      [bp - 4, bp + (S - asize) - 8, bp + (S - asize) - 4, bp + S - 8] ++
        insertWrites st.tree_root (bp, S - asize)) := by
  have hcs : GET_SIZE (GET st.mem (bp - 4)) = S := by
    rw [hhdr, GET_SIZE_PACK hS8 (by omega)]
  have hcond : 48 ≤ sub32 (GET_SIZE (GET st.mem (bp - 4))) asize := by
    rw [hcs, sub32_eq hle hSlt]
    omega
  have hftr1 : FTRP (PUT st.mem (bp - 4) (PACK (S - asize) 0)) bp
      = bp + (S - asize) - 8 := by
    rw [FTRP, HDRP, GET_PUT_same_of_lt _ _ (by simp only [PACK]; omega),
      GET_SIZE_PACK (by omega) (by omega)]
  have hnext2 : NEXT_BLKP (PUT (PUT st.mem (bp - 4) (PACK (S - asize) 0))
      (bp + (S - asize) - 8) (PACK (S - asize) 0)) bp = bp + (S - asize) := by
    rw [NEXT_BLKP, GET_PUT_ne _ _ _ (by omega),
      GET_PUT_same_of_lt _ _ (by simp only [PACK]; omega),
      GET_SIZE_PACK (by omega) (by omega)]
  have hftr3 : FTRP (PUT (PUT (PUT st.mem (bp - 4) (PACK (S - asize) 0))
      (bp + (S - asize) - 8) (PACK (S - asize) 0))
      (bp + (S - asize) - 4) (PACK asize 1)) (bp + (S - asize)) = bp + S - 8 := by
    rw [FTRP, HDRP, GET_PUT_same_of_lt _ _ (by simp only [PACK]; omega),
      GET_SIZE_PACK ha8 (by omega)]
    omega
  have hkey : GET (PUT (PUT (PUT (PUT st.mem (bp - 4) (PACK (S - asize) 0))
      (bp + (S - asize) - 8) (PACK (S - asize) 0))
      (bp + (S - asize) - 4) (PACK asize 1))
      (bp + S - 8) (PACK asize 1)) (bp - 4) = PACK (S - asize) 0 := by
    rw [GET_PUT_ne _ _ _ (by omega), GET_PUT_ne _ _ _ (by omega),
      GET_PUT_ne _ _ _ (by omega),
      GET_PUT_same_of_lt _ _ (by simp only [PACK]; omega)]
  simp only [place, HDRP]
  simp only [HDRP] at hcmp
  rw [if_pos hcond, if_neg hcmp, hcs, sub32_eq hle hSlt, hftr1, hnext2, hftr3, hkey,
    GET_SIZE_PACK (by omega) (by omega)]

/-- C6: the `place(bp, asize)` policy on a free block of size `S = bp.size`
with `asize ≤ S`, as implemented: when `S - asize < 48` (six times
`OVERHEAD`) the whole block is marked allocated (header and footer become
`PACK S 1`) and `bp` is returned, with the index untouched; otherwise the
block splits — when the physically following neighbor is strictly larger
than the preceding one the allocation goes to the low-address front
(tags `PACK asize 1`), the tail remainder of size `S - asize` becomes free
(tags `PACK (S-asize) 0`) and is inserted into the index, and the low
pointer `bp` is returned; in all other cases the free remainder sits at the
front, is inserted, and the high-address tail pointer `bp + (S - asize)` is
returned. -/
theorem c6_place_split_policy (st : AState) (bp asize S : Nat)
    (hhdr : GET st.mem (bp - 4) = PACK S 0)
    (hS8 : S % 8 = 0) (hS16 : 16 ≤ S) (hSlt : S < 4294967296)
    (ha8 : asize % 8 = 0) (ha16 : 16 ≤ asize) (hle : asize ≤ S) :
    (S - asize < 48 →
      (place st bp asize).1 = bp ∧
      GET (place st bp asize).2.1.mem (bp - 4) = PACK S 1 ∧
      GET (place st bp asize).2.1.mem (bp + S - 8) = PACK S 1 ∧
      (place st bp asize).2.1.tree_root = st.tree_root) ∧
    (48 ≤ S - asize →
      GET_SIZE (GET st.mem (HDRP (NEXT_BLKP st.mem bp))) >
        GET_SIZE (GET st.mem (HDRP (PREV_BLKP st.mem bp))) →
      (place st bp asize).1 = bp ∧
      GET (place st bp asize).2.1.mem (bp - 4) = PACK asize 1 ∧
      GET (place st bp asize).2.1.mem (bp + asize - 8) = PACK asize 1 ∧
      GET (place st bp asize).2.1.mem (bp + asize - 4) = PACK (S - asize) 0 ∧
      GET (place st bp asize).2.1.mem (bp + S - 8) = PACK (S - asize) 0 ∧
      (place st bp asize).2.1.tree_root =
        mm_insert st.tree_root (bp + asize, S - asize)) ∧
    (48 ≤ S - asize →
      ¬ (GET_SIZE (GET st.mem (HDRP (NEXT_BLKP st.mem bp))) >
        GET_SIZE (GET st.mem (HDRP (PREV_BLKP st.mem bp)))) →
      (place st bp asize).1 = bp + (S - asize) ∧
      GET (place st bp asize).2.1.mem (bp - 4) = PACK (S - asize) 0 ∧
      GET (place st bp asize).2.1.mem (bp + (S - asize) - 8) = PACK (S - asize) 0 ∧
      GET (place st bp asize).2.1.mem (bp + (S - asize) - 4) = PACK asize 1 ∧
      GET (place st bp asize).2.1.mem (bp + S - 8) = PACK asize 1 ∧
      (place st bp asize).2.1.tree_root = mm_insert st.tree_root (bp, S - asize)) := by
  refine ⟨?_, ?_, ?_⟩
  · intro hrem
    rw [place_nosplit_eq st bp asize S hhdr hS8 hSlt hle hrem]
    refine ⟨rfl, ?_, ?_, rfl⟩
    · show GET (PUT (PUT st.mem (bp - 4) (PACK S 1)) (bp + S - 8) (PACK S 1)) (bp - 4)
        = PACK S 1
      rw [GET_PUT_ne _ _ _ (by omega),
        GET_PUT_same_of_lt _ _ (by simp only [PACK]; omega)]
    · show GET (PUT (PUT st.mem (bp - 4) (PACK S 1)) (bp + S - 8) (PACK S 1))
        (bp + S - 8) = PACK S 1
      rw [GET_PUT_same_of_lt _ _ (by simp only [PACK]; omega)]
  · intro hrem hcmp
    rw [place_front_eq st bp asize S hhdr hS8 hSlt ha8 ha16 hle hrem hcmp]
    refine ⟨rfl, ?_, ?_, ?_, ?_, rfl⟩
    · show GET (PUT (PUT (PUT (PUT st.mem (bp - 4) (PACK asize 1))
        (bp + asize - 8) (PACK asize 1)) (bp + asize - 4) (PACK (S - asize) 0))
        (bp + S - 8) (PACK (S - asize) 0)) (bp - 4) = PACK asize 1
      rw [GET_PUT_ne _ _ _ (by omega), GET_PUT_ne _ _ _ (by omega),
        GET_PUT_ne _ _ _ (by omega),
        GET_PUT_same_of_lt _ _ (by simp only [PACK]; omega)]
    · show GET (PUT (PUT (PUT (PUT st.mem (bp - 4) (PACK asize 1))
        (bp + asize - 8) (PACK asize 1)) (bp + asize - 4) (PACK (S - asize) 0))
        (bp + S - 8) (PACK (S - asize) 0)) (bp + asize - 8) = PACK asize 1
      rw [GET_PUT_ne _ _ _ (by omega), GET_PUT_ne _ _ _ (by omega),
        GET_PUT_same_of_lt _ _ (by simp only [PACK]; omega)]
    · show GET (PUT (PUT (PUT (PUT st.mem (bp - 4) (PACK asize 1))
        (bp + asize - 8) (PACK asize 1)) (bp + asize - 4) (PACK (S - asize) 0))
        (bp + S - 8) (PACK (S - asize) 0)) (bp + asize - 4) = PACK (S - asize) 0
      rw [GET_PUT_ne _ _ _ (by omega),
        GET_PUT_same_of_lt _ _ (by simp only [PACK]; omega)]
    · show GET (PUT (PUT (PUT (PUT st.mem (bp - 4) (PACK asize 1))
        (bp + asize - 8) (PACK asize 1)) (bp + asize - 4) (PACK (S - asize) 0))
        (bp + S - 8) (PACK (S - asize) 0)) (bp + S - 8) = PACK (S - asize) 0
      rw [GET_PUT_same_of_lt _ _ (by simp only [PACK]; omega)]
  · intro hrem hcmp
    rw [place_tail_eq st bp asize S hhdr hS8 hSlt ha8 ha16 hle hrem hcmp]
    refine ⟨rfl, ?_, ?_, ?_, ?_, rfl⟩
    · show GET (PUT (PUT (PUT (PUT st.mem (bp - 4) (PACK (S - asize) 0))
        (bp + (S - asize) - 8) (PACK (S - asize) 0))
        (bp + (S - asize) - 4) (PACK asize 1))
        (bp + S - 8) (PACK asize 1)) (bp - 4) = PACK (S - asize) 0
      rw [GET_PUT_ne _ _ _ (by omega), GET_PUT_ne _ _ _ (by omega),
        GET_PUT_ne _ _ _ (by omega),
        GET_PUT_same_of_lt _ _ (by simp only [PACK]; omega)]
    · show GET (PUT (PUT (PUT (PUT st.mem (bp - 4) (PACK (S - asize) 0))
        (bp + (S - asize) - 8) (PACK (S - asize) 0))
        (bp + (S - asize) - 4) (PACK asize 1))
        (bp + S - 8) (PACK asize 1)) (bp + (S - asize) - 8) = PACK (S - asize) 0
      rw [GET_PUT_ne _ _ _ (by omega), GET_PUT_ne _ _ _ (by omega),
        GET_PUT_same_of_lt _ _ (by simp only [PACK]; omega)]
    · show GET (PUT (PUT (PUT (PUT st.mem (bp - 4) (PACK (S - asize) 0))
        (bp + (S - asize) - 8) (PACK (S - asize) 0))
        (bp + (S - asize) - 4) (PACK asize 1))
        (bp + S - 8) (PACK asize 1)) (bp + (S - asize) - 4) = PACK asize 1
      rw [GET_PUT_ne _ _ _ (by omega),
        GET_PUT_same_of_lt _ _ (by simp only [PACK]; omega)]
    · show GET (PUT (PUT (PUT (PUT st.mem (bp - 4) (PACK (S - asize) 0))
        (bp + (S - asize) - 8) (PACK (S - asize) 0))
        (bp + (S - asize) - 4) (PACK asize 1))
        (bp + S - 8) (PACK asize 1)) (bp + S - 8) = PACK asize 1
      rw [GET_PUT_same_of_lt _ _ (by simp only [PACK]; omega)]

theorem c6_place_split_policy_witness :
    (48 - 16 < 48 →
      (place stW 32 16).1 = 32 ∧
      GET (place stW 32 16).2.1.mem (32 - 4) = PACK 48 1 ∧
      GET (place stW 32 16).2.1.mem (32 + 48 - 8) = PACK 48 1 ∧
      (place stW 32 16).2.1.tree_root = stW.tree_root) ∧
    (48 ≤ 48 - 16 →
      GET_SIZE (GET stW.mem (HDRP (NEXT_BLKP stW.mem 32))) >
        GET_SIZE (GET stW.mem (HDRP (PREV_BLKP stW.mem 32))) →
      (place stW 32 16).1 = 32 ∧
      GET (place stW 32 16).2.1.mem (32 - 4) = PACK 16 1 ∧
      GET (place stW 32 16).2.1.mem (32 + 16 - 8) = PACK 16 1 ∧
      GET (place stW 32 16).2.1.mem (32 + 16 - 4) = PACK (48 - 16) 0 ∧
      GET (place stW 32 16).2.1.mem (32 + 48 - 8) = PACK (48 - 16) 0 ∧
      (place stW 32 16).2.1.tree_root =
        mm_insert stW.tree_root (32 + 16, 48 - 16)) ∧
    (48 ≤ 48 - 16 →
      ¬ (GET_SIZE (GET stW.mem (HDRP (NEXT_BLKP stW.mem 32))) >
        GET_SIZE (GET stW.mem (HDRP (PREV_BLKP stW.mem 32)))) →
      (place stW 32 16).1 = 32 + (48 - 16) ∧
      GET (place stW 32 16).2.1.mem (32 - 4) = PACK (48 - 16) 0 ∧
      GET (place stW 32 16).2.1.mem (32 + (48 - 16) - 8) = PACK (48 - 16) 0 ∧
      GET (place stW 32 16).2.1.mem (32 + (48 - 16) - 4) = PACK 16 1 ∧
      GET (place stW 32 16).2.1.mem (32 + 48 - 8) = PACK 16 1 ∧
      (place stW 32 16).2.1.tree_root = mm_insert stW.tree_root (32, 48 - 16)) :=
  c6_place_split_policy stW 32 16 48 rfl (by decide) (by decide) (by decide)
    (by decide) (by decide) (by decide)

/-! ## C5: coalescing -/

theorem mem_cons_nodes_rev {a : Nat × Nat} {u t : Tree}
    (h : a ::ₘ (nodes u : Multiset (Nat × Nat)) = (nodes t : Multiset (Nat × Nat)))
    {x : Nat × Nat} (hx : x ∈ nodes t) (hne : x ≠ a) : x ∈ nodes u := by
  have h2 : x ∈ a ::ₘ (nodes u : Multiset (Nat × Nat)) := by
    rw [h]
    exact Multiset.mem_coe.2 hx
  rcases Multiset.mem_cons.1 h2 with h3 | h3
  · exact absurd h3 hne
  · exact Multiset.mem_coe.1 h3

theorem not_mem_addrs_of_cons {a : Nat × Nat} {u t : Tree}
    (h : a ::ₘ (nodes u : Multiset (Nat × Nat)) = (nodes t : Multiset (Nat × Nat)))
    (hnd : (addrs t).Nodup) : a.1 ∉ addrs u := by
  have hperm : (nodes t).Perm (a :: nodes u) := by
    rw [Multiset.cons_coe] at h
    exact (Multiset.coe_eq_coe.1 h).symm
  have haddr : (addrs t).Perm (a.1 :: addrs u) := hperm.map Prod.fst
  have := (haddr.nodup_iff).1 hnd
  exact (List.nodup_cons.1 this).1

/-- `coalesce` case 1 (both physical neighbors allocated): no merge, no
write, `bp` itself is returned. -/
theorem coalesce_case1_eq (st : AState) (bp S PS NS : Nat)
    (hhdr : GET st.mem (bp - 4) = PACK S 0)
    (hpftr : GET st.mem (bp - 8) = PACK PS 1)
    (hphdr : GET st.mem (bp - PS - 4) = PACK PS 1)
    (hnhdr : GET st.mem (bp + S - 4) = PACK NS 1)
    (hS8 : S % 8 = 0) (hPS8 : PS % 8 = 0) (hNS8 : NS % 8 = 0)
    (hPS : 8 ≤ PS) (hbp : PS + 8 ≤ bp) :
    coalesce st bp = some (bp, st, []) := by
  have hprevp : PREV_BLKP st.mem bp = bp - PS := by
    rw [PREV_BLKP, hpftr, GET_SIZE_PACK hPS8 (by omega)]
  have hfp : FTRP st.mem (bp - PS) = bp - 8 := by
    rw [FTRP, HDRP, hphdr, GET_SIZE_PACK hPS8 (by omega)]
    omega
  have hpa : GET_ALLOC (GET st.mem (FTRP st.mem (PREV_BLKP st.mem bp))) = 1 := by
    rw [hprevp, hfp, hpftr, GET_ALLOC_PACK hPS8 (by omega)]
  have hnextp : NEXT_BLKP st.mem bp = bp + S := by
    rw [NEXT_BLKP, hhdr, GET_SIZE_PACK hS8 (by omega)]
  have hna : GET_ALLOC (GET st.mem (HDRP (NEXT_BLKP st.mem bp))) = 1 := by
    rw [hnextp, HDRP, hnhdr, GET_ALLOC_PACK hNS8 (by omega)]
  have hc1 : ((1:Nat) ≠ 0 ∧ (1:Nat) ≠ 0) := by decide
  simp only [coalesce]
  rw [hpa, hna, if_pos hc1]

/-- `coalesce` case 2 (previous allocated, next free): the next block is
removed from the index, `bp`'s header and the next block's footer are
rewritten with the summed size, and `bp` is returned. -/
theorem coalesce_case2_eq (st : AState) (bp S PS NS : Nat)
    (hhdr : GET st.mem (bp - 4) = PACK S 0)
    (hpftr : GET st.mem (bp - 8) = PACK PS 1)
    (hphdr : GET st.mem (bp - PS - 4) = PACK PS 1)
    (hnhdr : GET st.mem (bp + S - 4) = PACK NS 0)
    (hS8 : S % 8 = 0) (hPS8 : PS % 8 = 0) (hNS8 : NS % 8 = 0)
    (hS16 : 16 ≤ S) (hPS : 8 ≤ PS) (hbp : PS + 8 ≤ bp)
    (hlt : S + NS < 4294967296)
    (hbst : bst st.tree_root = true) (hnd : (addrs st.tree_root).Nodup)
    (hmem : (bp + S, NS) ∈ nodes st.tree_root) :
    ∃ tr, mm_remove st.tree_root (bp + S) = some tr ∧
      (bp + S, NS) ::ₘ (nodes tr : Multiset (Nat × Nat)) =
        (nodes st.tree_root : Multiset (Nat × Nat)) ∧
      bst tr = true ∧
      coalesce st bp = some (bp,
        { st with
          mem := PUT (PUT st.mem (bp - 4) (PACK (S + NS) 0))
            (bp + (S + NS) - 8) (PACK (S + NS) 0),
          tree_root := tr },
        [bp - 4, bp + (S + NS) - 8] ++ removeWrites st.tree_root (bp + S)) := by
  obtain ⟨tr, hrem, hcons, hbstr⟩ := mm_remove_ok hbst hnd hmem
  refine ⟨tr, hrem, hcons, hbstr, ?_⟩
  have hprevp : PREV_BLKP st.mem bp = bp - PS := by
    rw [PREV_BLKP, hpftr, GET_SIZE_PACK hPS8 (by omega)]
  have hfp : FTRP st.mem (bp - PS) = bp - 8 := by
    rw [FTRP, HDRP, hphdr, GET_SIZE_PACK hPS8 (by omega)]
    omega
  have hpa : GET_ALLOC (GET st.mem (FTRP st.mem (PREV_BLKP st.mem bp))) = 1 := by
    rw [hprevp, hfp, hpftr, GET_ALLOC_PACK hPS8 (by omega)]
  have hnextp : NEXT_BLKP st.mem bp = bp + S := by
    rw [NEXT_BLKP, hhdr, GET_SIZE_PACK hS8 (by omega)]
  have hna : GET_ALLOC (GET st.mem (HDRP (NEXT_BLKP st.mem bp))) = 0 := by
    rw [hnextp, HDRP, hnhdr, GET_ALLOC_PACK hNS8 (by omega)]
  have hsz : GET_SIZE (GET st.mem (HDRP bp)) = S := by
    rw [HDRP, hhdr, GET_SIZE_PACK hS8 (by omega)]
  have hc1 : ¬ ((1:Nat) ≠ 0 ∧ (0:Nat) ≠ 0) := by decide
  have hc2 : ((1:Nat) ≠ 0 ∧ (0:Nat) = 0) := by decide
  have hftr1 : FTRP (PUT st.mem (bp - 4) (PACK (S + NS) 0)) bp
      = bp + (S + NS) - 8 := by
    rw [FTRP, HDRP, GET_PUT_same_of_lt _ _ (by simp only [PACK]; omega),
      GET_SIZE_PACK (by omega) (by omega)]
  simp only [coalesce]
  rw [hpa, hna, if_neg hc1, if_pos hc2, hsz, hnextp]
  simp only [HDRP]
  rw [hnhdr, GET_SIZE_PACK hNS8 (by omega), hrem]
  dsimp only
  rw [hftr1]

/-- `coalesce` case 3 (previous free, next allocated): the previous block is
removed from the index, `bp`'s footer and the previous block's header are
rewritten with the summed size, and the previous block is returned. -/
theorem coalesce_case3_eq (st : AState) (bp S PS NS : Nat)
    (hhdr : GET st.mem (bp - 4) = PACK S 0)
    (hpftr : GET st.mem (bp - 8) = PACK PS 0)
    (hphdr : GET st.mem (bp - PS - 4) = PACK PS 0)
    (hnhdr : GET st.mem (bp + S - 4) = PACK NS 1)
    (hS8 : S % 8 = 0) (hPS8 : PS % 8 = 0) (hNS8 : NS % 8 = 0)
    (hS16 : 16 ≤ S) (hPS : 8 ≤ PS) (hbp : PS + 8 ≤ bp)
    (hlt : S + PS < 4294967296)
    (hbst : bst st.tree_root = true) (hnd : (addrs st.tree_root).Nodup)
    (hmem : (bp - PS, PS) ∈ nodes st.tree_root) :
    ∃ tr, mm_remove st.tree_root (bp - PS) = some tr ∧
      (bp - PS, PS) ::ₘ (nodes tr : Multiset (Nat × Nat)) =
        (nodes st.tree_root : Multiset (Nat × Nat)) ∧
      bst tr = true ∧
      coalesce st bp = some (bp - PS,
        { st with
          mem := PUT (PUT st.mem (bp + S - 8) (PACK (S + PS) 0))
            (bp - PS - 4) (PACK (S + PS) 0),
          tree_root := tr },
        [bp + S - 8, bp - PS - 4] ++ removeWrites st.tree_root (bp - PS)) := by
  obtain ⟨tr, hrem, hcons, hbstr⟩ := mm_remove_ok hbst hnd hmem
  refine ⟨tr, hrem, hcons, hbstr, ?_⟩
  have hprevp : PREV_BLKP st.mem bp = bp - PS := by
    rw [PREV_BLKP, hpftr, GET_SIZE_PACK hPS8 (by omega)]
  have hfp : FTRP st.mem (bp - PS) = bp - 8 := by
    rw [FTRP, HDRP, hphdr, GET_SIZE_PACK hPS8 (by omega)]
    omega
  have hpa : GET_ALLOC (GET st.mem (FTRP st.mem (PREV_BLKP st.mem bp))) = 0 := by
    rw [hprevp, hfp, hpftr, GET_ALLOC_PACK hPS8 (by omega)]
  have hnextp : NEXT_BLKP st.mem bp = bp + S := by
    rw [NEXT_BLKP, hhdr, GET_SIZE_PACK hS8 (by omega)]
  have hna : GET_ALLOC (GET st.mem (HDRP (NEXT_BLKP st.mem bp))) = 1 := by
    rw [hnextp, HDRP, hnhdr, GET_ALLOC_PACK hNS8 (by omega)]
  have hsz : GET_SIZE (GET st.mem (HDRP bp)) = S := by
    rw [HDRP, hhdr, GET_SIZE_PACK hS8 (by omega)]
  have hc1 : ¬ ((0:Nat) ≠ 0 ∧ (1:Nat) ≠ 0) := by decide
  have hc2 : ¬ ((0:Nat) ≠ 0 ∧ (1:Nat) = 0) := by decide
  have hc3 : ((0:Nat) = 0 ∧ (1:Nat) ≠ 0) := by decide
  have hftrbp : FTRP st.mem bp = bp + S - 8 := by
    rw [FTRP, HDRP, hhdr, GET_SIZE_PACK hS8 (by omega)]
  have hprev1 : PREV_BLKP (PUT st.mem (bp + S - 8) (PACK (S + PS) 0)) bp
      = bp - PS := by
    rw [PREV_BLKP, GET_PUT_ne _ _ _ (by omega), hpftr,
      GET_SIZE_PACK hPS8 (by omega)]
  have hprev2 : PREV_BLKP (PUT (PUT st.mem (bp + S - 8) (PACK (S + PS) 0))
      (bp - PS - 4) (PACK (S + PS) 0)) bp = bp - PS := by
    rw [PREV_BLKP, GET_PUT_ne _ _ _ (by omega), GET_PUT_ne _ _ _ (by omega),
      hpftr, GET_SIZE_PACK hPS8 (by omega)]
  simp only [coalesce]
  rw [hpa, hna, if_neg hc1, if_neg hc2, if_pos hc3, hsz, hprevp]
  simp only [HDRP]
  rw [hphdr, GET_SIZE_PACK hPS8 (by omega), hftrbp, hrem]
  dsimp only
  rw [hprev1, hprev2]

/-- `coalesce` case 4 (both neighbors free): both neighbors are removed from
the index, the previous block's header and the next block's footer are
rewritten with the sum of all three sizes, and the previous block is
returned. -/
theorem coalesce_case4_eq (st : AState) (bp S PS NS : Nat)
    (hhdr : GET st.mem (bp - 4) = PACK S 0)
    (hpftr : GET st.mem (bp - 8) = PACK PS 0)
    (hphdr : GET st.mem (bp - PS - 4) = PACK PS 0)
    (hnhdr : GET st.mem (bp + S - 4) = PACK NS 0)
    (hnftr : GET st.mem (bp + S + NS - 8) = PACK NS 0)
    (hS8 : S % 8 = 0) (hPS8 : PS % 8 = 0) (hNS8 : NS % 8 = 0)
    (hS16 : 16 ≤ S) (hPS : 8 ≤ PS) (hNS16 : 16 ≤ NS) (hbp : PS + 8 ≤ bp)
    (hlt : S + PS + NS < 4294967296)
    (hbst : bst st.tree_root = true) (hnd : (addrs st.tree_root).Nodup)
    (hmemN : (bp + S, NS) ∈ nodes st.tree_root)
    (hmemP : (bp - PS, PS) ∈ nodes st.tree_root) :
    ∃ tr1 tr2, mm_remove st.tree_root (bp + S) = some tr1 ∧
      (bp + S, NS) ::ₘ (nodes tr1 : Multiset (Nat × Nat)) =
        (nodes st.tree_root : Multiset (Nat × Nat)) ∧
      mm_remove tr1 (bp - PS) = some tr2 ∧
      (bp - PS, PS) ::ₘ (nodes tr2 : Multiset (Nat × Nat)) =
        (nodes tr1 : Multiset (Nat × Nat)) ∧
      bst tr2 = true ∧
      coalesce st bp = some (bp - PS,
        { st with
          mem := PUT (PUT st.mem (bp - PS - 4) (PACK (S + PS + NS) 0))
            (bp + S + NS - 8) (PACK (S + PS + NS) 0),
          tree_root := tr2 },
        [bp - PS - 4, bp + S + NS - 8] ++ removeWrites st.tree_root (bp + S) ++
          removeWrites tr1 (bp - PS)) := by
  obtain ⟨tr1, hrem1, hcons1, hbst1⟩ := mm_remove_ok hbst hnd hmemN
  have hnd1 : (addrs tr1).Nodup := nodup_of_cons_nodes hcons1 hnd
  have hmemP1 : (bp - PS, PS) ∈ nodes tr1 := by
    refine mem_cons_nodes_rev hcons1 hmemP ?_
    intro h
    have := congrArg Prod.fst h
    simp only at this
    omega
  obtain ⟨tr2, hrem2, hcons2, hbst2⟩ := mm_remove_ok hbst1 hnd1 hmemP1
  refine ⟨tr1, tr2, hrem1, hcons1, hrem2, hcons2, hbst2, ?_⟩
  have hprevp : PREV_BLKP st.mem bp = bp - PS := by
    rw [PREV_BLKP, hpftr, GET_SIZE_PACK hPS8 (by omega)]
  have hfp : FTRP st.mem (bp - PS) = bp - 8 := by
    rw [FTRP, HDRP, hphdr, GET_SIZE_PACK hPS8 (by omega)]
    omega
  have hpa : GET_ALLOC (GET st.mem (FTRP st.mem (PREV_BLKP st.mem bp))) = 0 := by
    rw [hprevp, hfp, hpftr, GET_ALLOC_PACK hPS8 (by omega)]
  have hnextp : NEXT_BLKP st.mem bp = bp + S := by
    rw [NEXT_BLKP, hhdr, GET_SIZE_PACK hS8 (by omega)]
  have hna : GET_ALLOC (GET st.mem (HDRP (NEXT_BLKP st.mem bp))) = 0 := by
    rw [hnextp, HDRP, hnhdr, GET_ALLOC_PACK hNS8 (by omega)]
  have hsz : GET_SIZE (GET st.mem (HDRP bp)) = S := by
    rw [HDRP, hhdr, GET_SIZE_PACK hS8 (by omega)]
  have hc1 : ¬ ((0:Nat) ≠ 0 ∧ (0:Nat) ≠ 0) := by decide
  have hc2 : ¬ ((0:Nat) ≠ 0 ∧ (0:Nat) = 0) := by decide
  have hc3 : ¬ ((0:Nat) = 0 ∧ (0:Nat) ≠ 0) := by decide
  have hftrn : FTRP st.mem (bp + S) = bp + S + NS - 8 := by
    rw [FTRP, HDRP, hnhdr, GET_SIZE_PACK hNS8 (by omega)]
  have hnext1 : NEXT_BLKP (PUT st.mem (bp - PS - 4) (PACK (S + PS + NS) 0)) bp
      = bp + S := by
    rw [NEXT_BLKP, GET_PUT_ne _ _ _ (by omega), hhdr,
      GET_SIZE_PACK hS8 (by omega)]
  have hftr1n : FTRP (PUT st.mem (bp - PS - 4) (PACK (S + PS + NS) 0)) (bp + S)
      = bp + S + NS - 8 := by
    rw [FTRP, HDRP, GET_PUT_ne _ _ _ (by omega), hnhdr,
      GET_SIZE_PACK hNS8 (by omega)]
  have hprev2 : PREV_BLKP (PUT (PUT st.mem (bp - PS - 4) (PACK (S + PS + NS) 0))
      (bp + S + NS - 8) (PACK (S + PS + NS) 0)) bp = bp - PS := by
    rw [PREV_BLKP, GET_PUT_ne _ _ _ (by omega), GET_PUT_ne _ _ _ (by omega),
      hpftr, GET_SIZE_PACK hPS8 (by omega)]
  simp only [coalesce]
  rw [hpa, hna, if_neg hc1, if_neg hc2, if_neg hc3, hsz, hprevp, hnextp]
  simp only [HDRP]
  rw [hphdr, GET_SIZE_PACK hPS8 (by omega), hftrn, hnftr,
    GET_SIZE_PACK hNS8 (by omega), hrem1]
  dsimp only
  rw [hrem2]
  dsimp only
  rw [hnext1, hftr1n, hprev2]

/-- C5: `coalesce(bp)` on a free block `bp` (header and footer `PACK S 0`)
not in the index, with well-formed physical neighbors (previous block of
size `PS`, allocation bit `pa`; next block of size `NS`, allocation bit
`na`; free neighbors are in the index, and the blocks beyond a free
neighbor are allocated): it follows the four-case table on `(pa, na)` —
no action, absorb next, absorb into previous, absorb both — removing each
free neighbor from the index and summing the sizes; the returned block
`cp` of size `CS` is free with matching header and footer `PACK CS 0`
where `CS` is the sum of all merged sizes, it is not in the index (which
stays a search tree), and it is maximally merged: the footer before `cp`
and the header after `cp + CS` both carry allocation bit 1. -/
theorem c5_coalesce_correct (st : AState) (bp S PS NS pa na : Nat)
    (hhdr : GET st.mem (bp - 4) = PACK S 0)
    (hftr : GET st.mem (bp + S - 8) = PACK S 0)
    (hnotin : bp ∉ addrs st.tree_root)
    (hpftr : GET st.mem (bp - 8) = PACK PS pa)
    (hphdr : GET st.mem (bp - PS - 4) = PACK PS pa)
    (hnhdr : GET st.mem (bp + S - 4) = PACK NS na)
    (hnftr : na = 0 → GET st.mem (bp + S + NS - 8) = PACK NS 0)
    (hpa2 : pa < 2) (hna2 : na < 2)
    (hS8 : S % 8 = 0) (hPS8 : PS % 8 = 0) (hNS8 : NS % 8 = 0)
    (hS16 : 16 ≤ S) (hPS : 8 ≤ PS) (hbp : PS + 8 ≤ bp)
    (hNSfree : na = 0 → 16 ≤ NS)
    (hlt : S + PS + NS < 4294967296)
    (hbst : bst st.tree_root = true) (hnd : (addrs st.tree_root).Nodup)
    (hmemN : na = 0 → (bp + S, NS) ∈ nodes st.tree_root)
    (hmemP : pa = 0 → (bp - PS, PS) ∈ nodes st.tree_root)
    (houtP : pa = 0 → GET_ALLOC (GET st.mem (bp - PS - 8)) = 1)
    (houtN : na = 0 → GET_ALLOC (GET st.mem (bp + S + NS - 4)) = 1) :
    ∃ cp CS st1 lg, coalesce st bp = some (cp, st1, lg) ∧
      (pa = 1 → na = 1 → cp = bp ∧ CS = S ∧ st1 = st) ∧
      (pa = 1 → na = 0 → cp = bp ∧ CS = S + NS ∧
        (bp + S, NS) ::ₘ (nodes st1.tree_root : Multiset (Nat × Nat)) =
          (nodes st.tree_root : Multiset (Nat × Nat))) ∧
      (pa = 0 → na = 1 → cp = bp - PS ∧ CS = S + PS ∧
        (bp - PS, PS) ::ₘ (nodes st1.tree_root : Multiset (Nat × Nat)) =
          (nodes st.tree_root : Multiset (Nat × Nat))) ∧
      (pa = 0 → na = 0 → cp = bp - PS ∧ CS = S + PS + NS ∧
        (bp + S, NS) ::ₘ (bp - PS, PS) ::ₘ
            (nodes st1.tree_root : Multiset (Nat × Nat)) =
          (nodes st.tree_root : Multiset (Nat × Nat))) ∧
      GET st1.mem (cp - 4) = PACK CS 0 ∧
      GET st1.mem (cp + CS - 8) = PACK CS 0 ∧
      cp ∉ addrs st1.tree_root ∧ bst st1.tree_root = true ∧
      GET_ALLOC (GET st1.mem (cp - 8)) = 1 ∧
      GET_ALLOC (GET st1.mem (cp + CS - 4)) = 1 := by
  have hpa01 : pa = 0 ∨ pa = 1 := by omega
  have hna01 : na = 0 ∨ na = 1 := by omega
  rcases hpa01 with hpa0 | hpa1 <;> rcases hna01 with hna0 | hna1
  · -- both neighbors free
    subst hpa0 hna0
    obtain ⟨tr1, tr2, hrem1, hcons1, hrem2, hcons2, hbst2, heq⟩ :=
      coalesce_case4_eq st bp S PS NS hhdr hpftr hphdr hnhdr (hnftr rfl)
        hS8 hPS8 hNS8 hS16 hPS (hNSfree rfl) hbp hlt hbst hnd
        (hmemN rfl) (hmemP rfl)
    have hnd1 : (addrs tr1).Nodup := nodup_of_cons_nodes hcons1 hnd
    refine ⟨bp - PS, S + PS + NS, _, _, heq, ?_, ?_, ?_, ?_, ?_, ?_, ?_, ?_,
      ?_, ?_⟩
    · intro h
      exact absurd h (by decide)
    · intro h
      exact absurd h (by decide)
    · intro _ h
      exact absurd h (by decide)
    · intro _ _
      refine ⟨rfl, rfl, ?_⟩
      dsimp only
      rw [hcons2, hcons1]
    · dsimp only
      rw [GET_PUT_ne _ _ _ (by omega),
        GET_PUT_same_of_lt _ _ (by simp only [PACK]; omega)]
    · dsimp only
      have e : bp - PS + (S + PS + NS) - 8 = bp + S + NS - 8 := by omega
      rw [e, GET_PUT_same_of_lt _ _ (by simp only [PACK]; omega)]
    · dsimp only
      exact not_mem_addrs_of_cons hcons2 hnd1
    · exact hbst2
    · dsimp only
      rw [GET_PUT_ne _ _ _ (by omega), GET_PUT_ne _ _ _ (by omega)]
      exact houtP rfl
    · dsimp only
      have e : bp - PS + (S + PS + NS) - 4 = bp + S + NS - 4 := by omega
      rw [e, GET_PUT_ne _ _ _ (by omega), GET_PUT_ne _ _ _ (by omega)]
      exact houtN rfl
  · -- previous free, next allocated
    subst hpa0 hna1
    obtain ⟨tr, hrem, hcons, hbstr, heq⟩ :=
      coalesce_case3_eq st bp S PS NS hhdr hpftr hphdr hnhdr
        hS8 hPS8 hNS8 hS16 hPS hbp (by omega) hbst hnd (hmemP rfl)
    refine ⟨bp - PS, S + PS, _, _, heq, ?_, ?_, ?_, ?_, ?_, ?_, ?_, ?_,
      ?_, ?_⟩
    · intro h
      exact absurd h (by decide)
    · intro h
      exact absurd h (by decide)
    · intro _ _
      exact ⟨rfl, rfl, hcons⟩
    · intro _ h
      exact absurd h (by decide)
    · dsimp only
      rw [GET_PUT_same_of_lt _ _ (by simp only [PACK]; omega)]
    · dsimp only
      have e : bp - PS + (S + PS) - 8 = bp + S - 8 := by omega
      rw [e, GET_PUT_ne _ _ _ (by omega),
        GET_PUT_same_of_lt _ _ (by simp only [PACK]; omega)]
    · dsimp only
      exact not_mem_addrs_of_cons hcons hnd
    · exact hbstr
    · dsimp only
      rw [GET_PUT_ne _ _ _ (by omega), GET_PUT_ne _ _ _ (by omega)]
      exact houtP rfl
    · dsimp only
      have e : bp - PS + (S + PS) - 4 = bp + S - 4 := by omega
      rw [e, GET_PUT_ne _ _ _ (by omega), GET_PUT_ne _ _ _ (by omega),
        hnhdr, GET_ALLOC_PACK hNS8 (by omega)]
  · -- previous allocated, next free
    subst hpa1 hna0
    obtain ⟨tr, hrem, hcons, hbstr, heq⟩ :=
      coalesce_case2_eq st bp S PS NS hhdr hpftr hphdr hnhdr
        hS8 hPS8 hNS8 hS16 hPS hbp (by omega) hbst hnd (hmemN rfl)
    refine ⟨bp, S + NS, _, _, heq, ?_, ?_, ?_, ?_, ?_, ?_, ?_, ?_, ?_, ?_⟩
    · intro _ h
      exact absurd h (by decide)
    · intro _ _
      exact ⟨rfl, rfl, hcons⟩
    · intro h
      exact absurd h (by decide)
    · intro h
      exact absurd h (by decide)
    · dsimp only
      rw [GET_PUT_ne _ _ _ (by omega),
        GET_PUT_same_of_lt _ _ (by simp only [PACK]; omega)]
    · dsimp only
      rw [GET_PUT_same_of_lt _ _ (by simp only [PACK]; omega)]
    · dsimp only
      intro hmem2
      rcases mem_addrs.1 hmem2 with ⟨s, hs⟩
      exact hnotin (mem_addrs.2 ⟨s, mem_of_cons_nodes hcons hs⟩)
    · exact hbstr
    · dsimp only
      rw [GET_PUT_ne _ _ _ (by omega), GET_PUT_ne _ _ _ (by omega),
        hpftr, GET_ALLOC_PACK hPS8 (by omega)]
    · dsimp only
      have e : bp + (S + NS) - 4 = bp + S + NS - 4 := by omega
      rw [e, GET_PUT_ne _ _ _ (by omega), GET_PUT_ne _ _ _ (by omega)]
      exact houtN rfl
  · -- both neighbors allocated
    subst hpa1 hna1
    have heq := coalesce_case1_eq st bp S PS NS hhdr hpftr hphdr hnhdr
      hS8 hPS8 hNS8 hPS hbp
    refine ⟨bp, S, st, [], heq, ?_, ?_, ?_, ?_, hhdr, hftr, hnotin, hbst,
      ?_, ?_⟩
    · intro _ _
      exact ⟨rfl, rfl, rfl⟩
    · intro _ h
      exact absurd h (by decide)
    · intro h
      exact absurd h (by decide)
    · intro h
      exact absurd h (by decide)
    · rw [hpftr, GET_ALLOC_PACK hPS8 (by omega)]
    · rw [hnhdr, GET_ALLOC_PACK hNS8 (by omega)]

/-- A concrete heap for exercising `coalesce`: pad + prologue at 8, a free
16-byte block at 16 (not indexed, as after `mm_free`'s tag writes), a free
16-byte block at 32 (indexed), epilogue header at 44, break 48. -/
def stC : AState :=
  { mem := PUT (PUT (PUT (PUT (PUT (PUT (PUT (PUT
      (fun _ => 0) 0 0) 4 9) 8 9) 12 16) 24 16) 28 16) 40 16) 44 1,
    brk := 48, limit := 48, heap_listp := 8,
    tree_root := .node 32 16 .leaf .leaf }

theorem c5_coalesce_correct_witness :
    ∃ cp CS st1 lg, coalesce stC 16 = some (cp, st1, lg) ∧
      (1 = 1 → 0 = 1 → cp = 16 ∧ CS = 16 ∧ st1 = stC) ∧
      (1 = 1 → 0 = 0 → cp = 16 ∧ CS = 16 + 16 ∧
        (16 + 16, 16) ::ₘ (nodes st1.tree_root : Multiset (Nat × Nat)) =
          (nodes stC.tree_root : Multiset (Nat × Nat))) ∧
      (1 = 0 → 0 = 1 → cp = 16 - 8 ∧ CS = 16 + 8 ∧
        (16 - 8, 8) ::ₘ (nodes st1.tree_root : Multiset (Nat × Nat)) =
          (nodes stC.tree_root : Multiset (Nat × Nat))) ∧
      (1 = 0 → 0 = 0 → cp = 16 - 8 ∧ CS = 16 + 8 + 16 ∧
        (16 + 16, 16) ::ₘ (16 - 8, 8) ::ₘ
            (nodes st1.tree_root : Multiset (Nat × Nat)) =
          (nodes stC.tree_root : Multiset (Nat × Nat))) ∧
      GET st1.mem (cp - 4) = PACK CS 0 ∧
      GET st1.mem (cp + CS - 8) = PACK CS 0 ∧
      cp ∉ addrs st1.tree_root ∧ bst st1.tree_root = true ∧
      GET_ALLOC (GET st1.mem (cp - 8)) = 1 ∧
      GET_ALLOC (GET st1.mem (cp + CS - 4)) = 1 :=
  c5_coalesce_correct stC 16 16 8 16 1 0 rfl rfl (by decide) rfl rfl rfl
    (fun _ => rfl) (by decide) (by decide) (by decide) (by decide)
    (by decide) (by decide) (by decide) (by decide) (fun _ => by decide)
    (by decide) rfl (by decide) (fun _ => by decide)
    (fun h => absurd h (by decide)) (fun h => absurd h (by decide))
    (fun _ => rfl)

/-! ## C7/C8/C9: the global heap shape

A heap between the prologue and the epilogue parses into a list of
boundary-tagged blocks `(addr, size, alloc)`: each block's header and
footer agree, sizes are positive multiples of 8, and the blocks tile the
address range exactly. -/

inductive Blocks (m : Mem) : Nat → List (Nat × Nat × Nat) → Nat → Prop where
  | nil (a : Nat) : Blocks m a [] a
  | cons (a s al e : Nat) (rest : List (Nat × Nat × Nat))
      (hh : GET m (a - 4) = PACK s al)
      (hf : GET m (a + s - 8) = PACK s al)
      (h8 : s % 8 = 0) (h16 : 16 ≤ s) (hal : al < 2)
      (htail : Blocks m (a + s) rest e) :
      Blocks m a ((a, s, al) :: rest) e

theorem Blocks_le {m : Mem} {a : Nat} {bl : List (Nat × Nat × Nat)} {e : Nat}
    (h : Blocks m a bl e) : a ≤ e := by
  induction h with
  | nil => exact Nat.le_refl _
  | cons a s al e rest hh hf h8 h16 hal htail ih => omega

theorem Blocks_mem_bounds {m : Mem} {a : Nat} {bl : List (Nat × Nat × Nat)}
    {e : Nat} (h : Blocks m a bl e) :
    ∀ b ∈ bl, a ≤ b.1 ∧ b.1 + b.2.1 ≤ e := by
  induction h with
  | nil => intro b hb; cases hb
  | cons a s al e rest hh hf h8 h16 hal htail ih =>
    intro b hb
    rcases List.mem_cons.1 hb with rfl | hb2
    · exact ⟨Nat.le_refl _, Blocks_le htail⟩
    · have := ih b hb2
      omega

theorem Blocks_mem_facts {m : Mem} {a : Nat} {bl : List (Nat × Nat × Nat)}
    {e : Nat} (h : Blocks m a bl e) :
    ∀ b ∈ bl, GET m (b.1 - 4) = PACK b.2.1 b.2.2 ∧
      GET m (b.1 + b.2.1 - 8) = PACK b.2.1 b.2.2 ∧
      b.2.1 % 8 = 0 ∧ 16 ≤ b.2.1 ∧ b.2.2 < 2 := by
  induction h with
  | nil => intro b hb; cases hb
  | cons a s al e rest hh hf h8 h16 hal htail ih =>
    intro b hb
    rcases List.mem_cons.1 hb with rfl | hb2
    · exact ⟨hh, hf, h8, h16, hal⟩
    · exact ih b hb2

theorem Blocks_align {m : Mem} {a : Nat} {bl : List (Nat × Nat × Nat)}
    {e : Nat} (h : Blocks m a bl e) (ha : a % 8 = 0) :
    ∀ b ∈ bl, b.1 % 8 = 0 := by
  induction h with
  | nil => intro b hb; cases hb
  | cons a s al e rest hh hf h8 h16 hal htail ih =>
    intro b hb
    rcases List.mem_cons.1 hb with rfl | hb2
    · exact ha
    · exact ih (by omega) b hb2

theorem Blocks_append {m : Mem} {a b : Nat} {l r : List (Nat × Nat × Nat)}
    {e : Nat} (hl : Blocks m a l b) (hr : Blocks m b r e) :
    Blocks m a (l ++ r) e := by
  induction hl with
  | nil => exact hr
  | cons a s al e2 rest hh hf h8 h16 hal htail ih =>
    exact Blocks.cons a s al e (rest ++ r) hh hf h8 h16 hal (ih hr)

theorem Blocks_split {m : Mem} {a : Nat} {bl : List (Nat × Nat × Nat)}
    {e : Nat} (h : Blocks m a bl e) {x : Nat × Nat × Nat} (hx : x ∈ bl) :
    ∃ l r, bl = l ++ x :: r ∧ Blocks m a l x.1 ∧ Blocks m x.1 (x :: r) e := by
  induction h with
  | nil => cases hx
  | cons a s al e rest hh hf h8 h16 hal htail ih =>
    rcases List.mem_cons.1 hx with rfl | hx2
    · exact ⟨[], rest, rfl, Blocks.nil a,
        Blocks.cons a s al e rest hh hf h8 h16 hal htail⟩
    · obtain ⟨l, r, heq, hleft, hright⟩ := ih hx2
      exact ⟨(a, s, al) :: l, r, by simp [heq],
        Blocks.cons a s al x.1 l hh hf h8 h16 hal hleft, hright⟩

theorem Blocks_frame {m m2 : Mem} {a : Nat} {bl : List (Nat × Nat × Nat)}
    {e : Nat} (h : Blocks m a bl e)
    (hagree : ∀ x, a ≤ x + 4 → x < e - 4 → m2 x = m x) :
    Blocks m2 a bl e := by
  induction h with
  | nil => exact Blocks.nil _
  | cons a s al e rest hh hf h8 h16 hal htail ih =>
    have hend : a + s ≤ e := Blocks_le htail
    refine Blocks.cons a s al e rest ?_ ?_ h8 h16 hal
      (ih fun x h1 h2 => hagree x (by omega) h2)
    · rw [← hh]
      exact GET_congr _ fun x h1 h2 => hagree x (by omega) (by omega)
    · rw [← hf]
      exact GET_congr _ fun x h1 h2 => hagree x (by omega) (by omega)

theorem Blocks_unique {m : Mem} {a : Nat} {bl : List (Nat × Nat × Nat)}
    {e : Nat} (h : Blocks m a bl e) :
    ∀ {bl2 : List (Nat × Nat × Nat)}, Blocks m a bl2 e → bl = bl2 := by
  induction h with
  | nil =>
    intro bl2 h2
    cases h2 with
    | nil => rfl
    | cons a s al e rest hh hf h8 h16 hal htail =>
      have := Blocks_le htail
      omega
  | cons a s al e rest hh hf h8 h16 hal htail ih =>
    intro bl2 h2
    cases h2 with
    | nil =>
      have := Blocks_le htail
      omega
    | cons a s2 al2 e rest2 hh2 hf2 h82 h162 hal2 htail2 =>
      have hv : PACK s al = PACK s2 al2 := by rw [← hh, hh2]
      simp only [PACK] at hv
      have hs : s = s2 := by omega
      have hA : al = al2 := by omega
      subst hs hA
      rw [ih htail2]

theorem Blocks_sorted {m : Mem} {a : Nat} {bl : List (Nat × Nat × Nat)}
    {e : Nat} (h : Blocks m a bl e) :
    List.Pairwise (fun x y : Nat × Nat × Nat => x.1 + x.2.1 ≤ y.1) bl := by
  induction h with
  | nil => exact List.Pairwise.nil
  | cons a s al e rest hh hf h8 h16 hal htail ih =>
    exact List.Pairwise.cons (fun y hy => (Blocks_mem_bounds htail y hy).1) ih

theorem Blocks_last {m : Mem} {a : Nat} {bl : List (Nat × Nat × Nat)}
    {e : Nat} (h : Blocks m a bl e) (hne : bl ≠ []) :
    ∃ l b, bl = l ++ [b] ∧ b.1 + b.2.1 = e ∧ Blocks m a l b.1 := by
  induction h with
  | nil => exact absurd rfl hne
  | cons a s al e rest hh hf h8 h16 hal htail ih =>
    by_cases hr : rest = []
    · subst hr
      cases htail
      exact ⟨[], (a, s, al), rfl, rfl, Blocks.nil a⟩
    · obtain ⟨l, b, heq, hend, hleft⟩ := ih hr
      exact ⟨(a, s, al) :: l, b, by simp [heq], hend,
        Blocks.cons a s al b.1 l hh hf h8 h16 hal hleft⟩

/-- The spec's "no two adjacent free blocks": in the parsed block list no
two consecutive blocks both carry allocation flag 0. -/
def noAdjFree (bl : List (Nat × Nat × Nat)) : Prop :=
  List.Chain' (fun b c => b.2.2 = 1 ∨ c.2.2 = 1) bl

/-- The `(addr, size)` pairs of the free blocks of a parsed heap, in
address order. -/
def freeList (bl : List (Nat × Nat × Nat)) : List (Nat × Nat) :=
  (bl.filter fun b => b.2.2 == 0).map fun b => (b.1, b.2.1)

/-- The free blocks of a parsed heap as a multiset (the index stores them
in some tree order). -/
def freeMS (bl : List (Nat × Nat × Nat)) : Multiset (Nat × Nat) :=
  (freeList bl : List (Nat × Nat))

theorem freeList_append (l r : List (Nat × Nat × Nat)) :
    freeList (l ++ r) = freeList l ++ freeList r := by
  simp [freeList]

theorem freeMS_append (l r : List (Nat × Nat × Nat)) :
    freeMS (l ++ r) = freeMS l + freeMS r := by
  simp only [freeMS, freeList_append]
  exact (Multiset.coe_add _ _).symm

theorem freeMS_cons_alloc (a s : Nat) (r : List (Nat × Nat × Nat)) :
    freeMS ((a, s, 1) :: r) = freeMS r := by
  simp [freeMS, freeList]

theorem freeMS_cons_free (a s : Nat) (r : List (Nat × Nat × Nat)) :
    freeMS ((a, s, 0) :: r) = (a, s) ::ₘ freeMS r := by
  simp only [freeMS, freeList, List.filter_cons]
  norm_num

theorem freeList_mem {bl : List (Nat × Nat × Nat)} {a s : Nat} :
    (a, s) ∈ freeList bl ↔ (a, s, 0) ∈ bl := by
  simp only [freeList, List.mem_map, List.mem_filter]
  constructor
  · rintro ⟨⟨b1, b2, b3⟩, ⟨hb, h0⟩, heq⟩
    simp only [Prod.mk.injEq] at heq
    simp only [beq_iff_eq] at h0
    obtain ⟨rfl, rfl⟩ := heq
    rw [show b3 = 0 from h0] at hb
    exact hb
  · intro hb
    exact ⟨(a, s, 0), ⟨hb, rfl⟩, rfl⟩

/-- The allocator's invariant, relative to a parse `bl` of the heap:
`heap_listp` sits after the pad word, the break is 8-aligned and within
the sink capacity, prologue and epilogue tags are in place, the blocks
tile `[16, brk)`, no two adjacent blocks are both free, and the index is
a search tree holding exactly the free blocks. -/
structure InvP (st : AState) (bl : List (Nat × Nat × Nat)) : Prop where
  hlp : st.heap_listp = 8
  brk8 : st.brk % 8 = 0
  brklo : 24 ≤ st.brk
  brkhi : st.brk ≤ st.limit
  limhi : st.limit ≤ 2147483648
  prohdr : GET st.mem 4 = PACK 8 1
  proftr : GET st.mem 8 = PACK 8 1
  epi : GET st.mem (st.brk - 4) = PACK 0 1
  parse : Blocks st.mem 16 bl st.brk
  adj : noAdjFree bl
  coup : (nodes st.tree_root : Multiset (Nat × Nat)) = freeMS bl
  tbst : bst st.tree_root = true

theorem InvP_nodup {st : AState} {bl : List (Nat × Nat × Nat)}
    (h : InvP st bl) : (addrs st.tree_root).Nodup := by
  have hfacts := Blocks_mem_facts h.parse
  have h1 : List.Pairwise (fun x y : Nat × Nat × Nat => x.1 < y.1) bl := by
    refine (Blocks_sorted h.parse).imp_of_mem ?_
    intro x y hx hy hxy
    have := (hfacts x hx).2.2.2.1
    omega
  have h2 : ((freeList bl).map Prod.fst).Nodup := by
    have h3 : List.Pairwise (fun x y : Nat => x < y)
        ((freeList bl).map Prod.fst) := by
      simp only [freeList, List.map_map]
      exact List.Pairwise.map _ (fun a b hab => hab) (h1.filter _)
    exact h3.imp fun hlt => Nat.ne_of_lt hlt
  have hms : (addrs st.tree_root : Multiset Nat)
      = (((freeList bl).map Prod.fst : List Nat) : Multiset Nat) := by
    have ha : (addrs st.tree_root : Multiset Nat)
        = Multiset.map Prod.fst (nodes st.tree_root : Multiset (Nat × Nat)) := by
      simp [addrs]
    rw [ha, h.coup]
    simp [freeMS]
  have hnd : ((addrs st.tree_root : List Nat) : Multiset Nat).Nodup := by
    rw [hms]
    exact Multiset.coe_nodup.2 h2
  exact Multiset.coe_nodup.1 hnd

theorem InvP_free_mem {st : AState} {bl : List (Nat × Nat × Nat)}
    (h : InvP st bl) {a s : Nat} :
    (a, s) ∈ nodes st.tree_root ↔ (a, s, 0) ∈ bl := by
  constructor
  · intro hm
    have : (a, s) ∈ (nodes st.tree_root : Multiset (Nat × Nat)) :=
      Multiset.mem_coe.2 hm
    rw [h.coup] at this
    exact freeList_mem.1 (Multiset.mem_coe.1 this)
  · intro hm
    have : (a, s) ∈ freeMS bl := Multiset.mem_coe.2 (freeList_mem.2 hm)
    rw [← h.coup] at this
    exact Multiset.mem_coe.1 this

theorem adjustSize_facts {size : Nat} (h0 : size ≠ 0)
    (hb : size + 16 ≤ 2147483648) :
    16 ≤ adjustSize size ∧ adjustSize size % 8 = 0 ∧
      size + 8 ≤ adjustSize size ∧ adjustSize size ≤ size + 15 := by
  rw [adjustSize]
  split
  · omega
  · have he : (size + 8 + 7) % 4294967296 = size + 15 := by omega
    rw [he]
    omega

/-! ### The link words touched by the index operations

Every pointer write of `mm_insert` and `mm_remove` lands on the first or
second word of some node already in the tree (or, for `mm_insert`, of the
newly inserted block); `mm_remove` never writes into the payload of the
node being removed. -/

theorem nodes_coe_node (ra rs : Nat) (l r : Tree) :
    (nodes (.node ra rs l r) : Multiset (Nat × Nat))
      = (ra, rs) ::ₘ ((nodes l : Multiset (Nat × Nat)) +
          (nodes r : Multiset (Nat × Nat))) := by
  rw [nodes_node]
  rw [← Multiset.cons_coe]
  rw [← Multiset.coe_add]

theorem insertWrites_subset (bp : Nat × Nat) : ∀ (t : Tree),
    ∀ w ∈ insertWrites t bp,
      (∃ x ∈ addrs t, w = x ∨ w = x + 4) ∨ w = bp.1 ∨ w = bp.1 + 4 := by
  intro t
  induction t with
  | leaf =>
    intro w hw
    simp only [insertWrites, List.mem_cons, List.mem_singleton] at hw
    rcases hw with rfl | rfl | h
    · exact Or.inr (Or.inl rfl)
    · exact Or.inr (Or.inr rfl)
    · cases h
  | node ra rs l r ihl ihr =>
    intro w hw
    simp only [insertWrites] at hw
    split at hw
    · rcases List.mem_cons.1 hw with rfl | hw2
      · exact Or.inl ⟨w, by simp [nodes_addrs_node], Or.inl rfl⟩
      · rcases ihl w hw2 with ⟨x, hx, hor⟩ | hor
        · exact Or.inl ⟨x, by simp [nodes_addrs_node, hx], hor⟩
        · exact Or.inr hor
    · rcases List.mem_cons.1 hw with rfl | hw2
      · exact Or.inl ⟨ra, by simp [nodes_addrs_node], Or.inr rfl⟩
      · rcases ihr w hw2 with ⟨x, hx, hor⟩ | hor
        · exact Or.inl ⟨x, by simp [nodes_addrs_node, hx], hor⟩
        · exact Or.inr hor

theorem lookupN_le {t : Tree} {a : Nat} {s : Tree} (h : lookupN t a = some s) :
    (nodes s : Multiset (Nat × Nat)) ≤ (nodes t : Multiset (Nat × Nat)) := by
  induction t with
  | leaf => cases h
  | node ra rs l r ihl ihr =>
    by_cases ha : a = ra
    · simp only [lookupN, if_pos ha, Option.some.injEq] at h
      rw [← h]
    · simp only [lookupN, if_neg ha] at h
      cases hl : lookupN l a with
      | some s2 =>
        rw [hl] at h
        cases h
        refine (ihl hl).trans ?_
        rw [nodes_coe_node]
        exact ((Multiset.le_add_right _ _).trans (Multiset.le_cons_self _ _))
      | none =>
        rw [hl] at h
        refine (ihr h).trans ?_
        rw [nodes_coe_node]
        exact ((Multiset.le_add_left _ _).trans (Multiset.le_cons_self _ _))

theorem mm_parent_child {t : Tree} {a sa pa ps : Nat} {pl pr : Tree}
    (h : mm_parent t a sa = some (.node pa ps pl pr)) :
    addrOf pl = some a ∨ addrOf pr = some a := by
  induction t with
  | leaf => cases h
  | node ra rs l r ihl ihr =>
    by_cases ha : a = ra
    · simp only [mm_parent, if_pos ha] at h
      cases h
    · by_cases hle : sa ≤ rs
      · by_cases hc : addrOf l = some a
        · simp only [mm_parent, if_neg ha, if_pos hle, if_pos hc,
            Option.some.injEq, Tree.node.injEq] at h
          obtain ⟨_, _, h3, _⟩ := h
          exact Or.inl (by rw [← h3]; exact hc)
        · simp only [mm_parent, if_neg ha, if_pos hle, if_neg hc] at h
          exact ihl h
      · by_cases hc : addrOf r = some a
        · simp only [mm_parent, if_neg ha, if_neg hle, if_pos hc,
            Option.some.injEq, Tree.node.injEq] at h
          obtain ⟨_, _, _, h4⟩ := h
          exact Or.inr (by rw [← h4]; exact hc)
        · simp only [mm_parent, if_neg ha, if_neg hle, if_neg hc] at h
          exact ihr h

theorem mm_parent_le {t : Tree} {a sa pa ps : Nat} {pl pr : Tree}
    (h : mm_parent t a sa = some (.node pa ps pl pr)) :
    (nodes (.node pa ps pl pr) : Multiset (Nat × Nat))
      ≤ (nodes t : Multiset (Nat × Nat)) := by
  induction t with
  | leaf => cases h
  | node ra rs l r ihl ihr =>
    by_cases ha : a = ra
    · simp only [mm_parent, if_pos ha] at h
      cases h
    · by_cases hle : sa ≤ rs
      · by_cases hc : addrOf l = some a
        · simp only [mm_parent, if_neg ha, if_pos hle, if_pos hc,
            Option.some.injEq] at h
          rw [h]
        · simp only [mm_parent, if_neg ha, if_pos hle, if_neg hc] at h
          refine (ihl h).trans ?_
          rw [nodes_coe_node ra rs l r]
          exact ((Multiset.le_add_right _ _).trans (Multiset.le_cons_self _ _))
      · by_cases hc : addrOf r = some a
        · simp only [mm_parent, if_neg ha, if_neg hle, if_pos hc,
            Option.some.injEq] at h
          rw [h]
        · simp only [mm_parent, if_neg ha, if_neg hle, if_neg hc] at h
          refine (ihr h).trans ?_
          rw [nodes_coe_node ra rs l r]
          exact ((Multiset.le_add_left _ _).trans (Multiset.le_cons_self _ _))

theorem nodup_addrs_of_le {t u : Tree}
    (h : (nodes t : Multiset (Nat × Nat)) ≤ (nodes u : Multiset (Nat × Nat)))
    (hnd : (addrs u).Nodup) : (addrs t).Nodup := by
  have hmap : Multiset.map Prod.fst (nodes t : Multiset (Nat × Nat))
      ≤ Multiset.map Prod.fst (nodes u : Multiset (Nat × Nat)) :=
    Multiset.map_le_map h
  have hcu : ((addrs u : List Nat) : Multiset Nat)
      = Multiset.map Prod.fst (nodes u : Multiset (Nat × Nat)) := by
    simp [addrs]
  have hct : ((addrs t : List Nat) : Multiset Nat)
      = Multiset.map Prod.fst (nodes t : Multiset (Nat × Nat)) := by
    simp [addrs]
  have h2 : (((addrs t : List Nat) : Multiset Nat)).Nodup := by
    rw [hct]
    refine Multiset.nodup_of_le hmap ?_
    rw [← hcu]
    exact Multiset.coe_nodup.2 hnd
  exact Multiset.coe_nodup.1 h2

theorem removeWritesF_subset : ∀ (f : Nat) (root : Tree) (bpa : Nat),
    (addrs root).Nodup →
    ∀ w ∈ removeWritesF f root bpa,
      ∃ x, x ∈ addrs root ∧ x ≠ bpa ∧ (w = x ∨ w = x + 4) := by
  intro f
  induction f with
  | zero =>
    intro root bpa hnd w hw
    simp [removeWritesF] at hw
  | succ f ih =>
    intro root bpa hnd w hw
    cases hlk : lookupN root bpa with
    | none => simp [removeWritesF, hlk] at hw
    | some s =>
      obtain ⟨bs, bl, br, rfl, hmem, hsubL⟩ := lookupN_shape hlk
      have hleS : (nodes (Tree.node bpa bs bl br) : Multiset (Nat × Nat))
          ≤ (nodes root : Multiset (Nat × Nat)) := lookupN_le hlk
      have hndS : (addrs (Tree.node bpa bs bl br)).Nodup :=
        nodup_addrs_of_le hleS hnd
      rw [nodes_addrs_node] at hndS
      obtain ⟨hbpaNot, hndLR⟩ := List.nodup_cons.1 hndS
      obtain ⟨hndL, hndR, _⟩ := List.nodup_append.1 hndLR
      have hbpaL : bpa ∉ addrs bl := fun hc =>
        hbpaNot (List.mem_append_left _ hc)
      cases hp : mm_parent root bpa bs with
      | none => simp [removeWritesF, hlk, hp, mm_children] at hw
      | some p =>
        have hattach : ∀ w2 ∈ attachWrites bpa p,
            ∃ x, x ∈ addrs root ∧ x ≠ bpa ∧ (w2 = x ∨ w2 = x + 4) := by
          intro w2 hw2
          cases p with
          | leaf => simp [attachWrites] at hw2
          | node pa ps pl pr =>
            have hmemP : (pa, ps) ∈ nodes root := mm_parent_mem hp
            have hchild := mm_parent_child hp
            have hndP : (addrs (Tree.node pa ps pl pr)).Nodup :=
              nodup_addrs_of_le (mm_parent_le hp) hnd
            rw [nodes_addrs_node] at hndP
            obtain ⟨hpaNot, _⟩ := List.nodup_cons.1 hndP
            have hpane : pa ≠ bpa := by
              intro hE
              subst hE
              rcases hchild with hc | hc
              · exact hpaNot (List.mem_append_left _ (addrOf_mem hc))
              · exact hpaNot (List.mem_append_right _ (addrOf_mem hc))
            simp only [attachWrites] at hw2
            split at hw2
            · rcases List.mem_singleton.1 hw2
              exact ⟨w2, mem_addrs.2 ⟨ps, hmemP⟩, hpane, Or.inl rfl⟩
            · rcases List.mem_singleton.1 hw2
              exact ⟨pa, mem_addrs.2 ⟨ps, hmemP⟩, hpane, Or.inr rfl⟩
        have hup : ∀ x, x ∈ addrs bl → x ∈ addrs root := by
          intro x hx
          rcases mem_addrs.1 hx with ⟨sx, hsx⟩
          refine mem_addrs.2 ⟨sx, hsubL _ ?_⟩
          rw [nodes_node]
          exact List.mem_cons_of_mem _ (List.mem_append_left _ hsx)
        by_cases hbl : bl = Tree.leaf
        · have hch : mm_children (Tree.node bpa bs bl br)
              = some (if br = Tree.leaf then 0 else 1) := by
            by_cases hbr : br = Tree.leaf <;> simp [mm_children, hbl, hbr]
          have heqn : removeWritesF (f + 1) root bpa = attachWrites bpa p := by
            by_cases hbr : br = Tree.leaf
            · have hch0 : mm_children (Tree.node bpa bs bl br) = some 0 := by
                simp [mm_children, hbl, hbr]
              simp only [removeWritesF, hlk, hch0, hp]
              norm_num
            · have hch1 : mm_children (Tree.node bpa bs bl br) = some 1 := by
                simp [mm_children, hbl, hbr]
              simp only [removeWritesF, hlk, hch1, hp]
              norm_num
          rw [heqn] at hw
          exact hattach w hw
        · by_cases hbr : br = Tree.leaf
          · have hch : mm_children (Tree.node bpa bs bl br) = some 1 := by
              simp [mm_children, hbl, hbr]
            have heqn : removeWritesF (f + 1) root bpa = attachWrites bpa p := by
              simp only [removeWritesF, hlk, hch, hp]
              norm_num
            rw [heqn] at hw
            exact hattach w hw
          · have hch : mm_children (Tree.node bpa bs bl br) = some 2 := by
              simp [mm_children, hbl, hbr]
            obtain ⟨ma, ms, ml, hrep2, hmemMa, _⟩ := mm_replace_ok hbl
            have heqn : removeWritesF (f + 1) root bpa
                = removeWritesF f bl ma ++ [ma, ma + 4] ++ attachWrites bpa p := by
              simp only [removeWritesF, hlk, hch, hp, hrep2]
              norm_num
            rw [heqn] at hw
            rcases List.mem_append.1 hw with hw12 | hw3
            · rcases List.mem_append.1 hw12 with hw1 | hw2
              · obtain ⟨x, hxL, hxma, hor⟩ := ih bl ma hndL w hw1
                exact ⟨x, hup x hxL, fun hE => hbpaL (hE ▸ hxL), hor⟩
              · have hma : ma ∈ addrs bl := mem_addrs.2 ⟨ms, hmemMa⟩
                rcases List.mem_cons.1 hw2 with rfl | hw22
                · exact ⟨w, hup w hma, fun hE => hbpaL (hE ▸ hma), Or.inl rfl⟩
                · rcases List.mem_singleton.1 hw22 with rfl
                  exact ⟨ma, hup ma hma, fun hE => hbpaL (hE ▸ hma), Or.inr rfl⟩
            · exact hattach w hw3

theorem removeWrites_subset {root : Tree} {bpa : Nat}
    (hnd : (addrs root).Nodup) :
    ∀ w ∈ removeWrites root bpa,
      ∃ x, x ∈ addrs root ∧ x ≠ bpa ∧ (w = x ∨ w = x + 4) :=
  removeWritesF_subset (sizeT root) root bpa hnd

theorem Blocks_end_align {m : Mem} {a : Nat} {bl : List (Nat × Nat × Nat)}
    {e : Nat} (h : Blocks m a bl e) (ha : a % 8 = 0) : e % 8 = 0 := by
  induction h with
  | nil => exact ha
  | cons a s al e rest hh hf h8 h16 hal htail ih => exact ih (by omega)

theorem noAdjFree_decomp {l r : List (Nat × Nat × Nat)} {b : Nat × Nat × Nat}
    (h : noAdjFree (l ++ b :: r)) :
    List.Chain' (fun x y : Nat × Nat × Nat => x.2.2 = 1 ∨ y.2.2 = 1) l ∧
    List.Chain' (fun x y : Nat × Nat × Nat => x.2.2 = 1 ∨ y.2.2 = 1) r ∧
    (∀ x ∈ l.getLast?, x.2.2 = 1 ∨ b.2.2 = 1) ∧
    (∀ y ∈ r.head?, b.2.2 = 1 ∨ y.2.2 = 1) := by
  unfold noAdjFree at h
  rw [List.chain'_append] at h
  obtain ⟨h1, h2, h3⟩ := h
  have h2L := List.chain'_cons'.1 h2
  refine ⟨h1, h2L.2, ?_, h2L.1⟩
  intro x hx
  exact h3 x hx b (by simp)

theorem noAdjFree_build1 {l r : List (Nat × Nat × Nat)} {b : Nat × Nat × Nat}
    (hl : List.Chain' (fun x y : Nat × Nat × Nat => x.2.2 = 1 ∨ y.2.2 = 1) l)
    (hr : List.Chain' (fun x y : Nat × Nat × Nat => x.2.2 = 1 ∨ y.2.2 = 1) r)
    (hlb : ∀ x ∈ l.getLast?, x.2.2 = 1 ∨ b.2.2 = 1)
    (hbr : ∀ y ∈ r.head?, b.2.2 = 1 ∨ y.2.2 = 1) :
    noAdjFree (l ++ b :: r) := by
  unfold noAdjFree
  rw [List.chain'_append]
  refine ⟨hl, List.chain'_cons'.2 ⟨hbr, hr⟩, ?_⟩
  intro x hx y hy
  simp only [List.head?_cons, Option.mem_def, Option.some.injEq] at hy
  rw [← hy]
  exact hlb x hx

theorem noAdjFree_build2 {l r : List (Nat × Nat × Nat)} {b c : Nat × Nat × Nat}
    (hl : List.Chain' (fun x y : Nat × Nat × Nat => x.2.2 = 1 ∨ y.2.2 = 1) l)
    (hr : List.Chain' (fun x y : Nat × Nat × Nat => x.2.2 = 1 ∨ y.2.2 = 1) r)
    (hlb : ∀ x ∈ l.getLast?, x.2.2 = 1 ∨ b.2.2 = 1)
    (hbc : b.2.2 = 1 ∨ c.2.2 = 1)
    (hcr : ∀ y ∈ r.head?, c.2.2 = 1 ∨ y.2.2 = 1) :
    noAdjFree (l ++ b :: c :: r) := by
  refine noAdjFree_build1 hl (List.chain'_cons'.2 ⟨hcr, hr⟩) hlb ?_
  intro y hy
  simp only [List.head?_cons, Option.mem_def, Option.some.injEq] at hy
  rw [← hy]
  exact hbc

/-- `place` restores the invariant: the no-split branch. -/
theorem place_master_nosplit (st : AState) (l r : List (Nat × Nat × Nat))
    (ba S asize : Nat)
    (hL : Blocks st.mem 16 l ba)
    (hMid : Blocks st.mem ba ((ba, S, 0) :: r) st.brk)
    (hadj : noAdjFree (l ++ (ba, S, 0) :: r))
    (hcoup : (nodes st.tree_root : Multiset (Nat × Nat)) = freeMS l + freeMS r)
    (htbst : bst st.tree_root = true)
    (hlp : st.heap_listp = 8) (hbrk8 : st.brk % 8 = 0) (hbrklo : 24 ≤ st.brk)
    (hbrkhi : st.brk ≤ st.limit) (hlim : st.limit ≤ 2147483648)
    (hpro1 : GET st.mem 4 = PACK 8 1) (hpro2 : GET st.mem 8 = PACK 8 1)
    (hepi : GET st.mem (st.brk - 4) = PACK 0 1)
    (ha16 : 16 ≤ asize) (ha8 : asize % 8 = 0) (hle : asize ≤ S)
    (hrem : S - asize < 48) :
    ∃ p st2 lg, place st ba asize = (p, st2, lg) ∧ p % 8 = 0 ∧
      st2.brk = st.brk ∧ st2.limit = st.limit ∧
      st2.heap_listp = st.heap_listp ∧
      ∃ bl2, InvP st2 bl2 ∧ (∃ S1, (p, S1, 1) ∈ bl2 ∧ asize ≤ S1) ∧
        (∀ b ∈ l ++ r, b.2.2 = 1 → b ∈ bl2) ∧
        (∀ w ∈ lg, w + 4 ≤ p ∨ p + asize - 8 ≤ w) ∧
        (∀ x, p ≤ x → x < p + asize - 8 → st2.mem x = st.mem x) ∧
        ba ≤ p ∧ p + asize ≤ ba + S := by
  cases hMid with
  | cons _ _ _ _ _ hh hf h8 h16 hal htail =>
    have hend : ba + S ≤ st.brk := Blocks_le htail
    have hba16 : 16 ≤ ba := Blocks_le hL
    have hba8 : ba % 8 = 0 := Blocks_end_align hL (by norm_num)
    have hSlt : S < 4294967296 := by omega
    have heq := place_nosplit_eq st ba asize S hh h8 hSlt hle hrem
    refine ⟨ba, _, _, heq, by omega, rfl, rfl, rfl, ?_⟩
    dsimp only
    obtain ⟨hcl, hcr, hlb, hbr⟩ := noAdjFree_decomp hadj
    refine ⟨l ++ (ba, S, 1) :: r,
      { hlp := hlp, brk8 := hbrk8, brklo := hbrklo, brkhi := hbrkhi,
        limhi := hlim, prohdr := ?_, proftr := ?_, epi := ?_, parse := ?_,
        adj := ?_, coup := ?_, tbst := htbst },
      ⟨S, List.mem_append_right _ (List.mem_cons_self _ _), hle⟩, ?_, ?_, ?_⟩
    · rw [GET_PUT_ne _ _ _ (by omega), GET_PUT_ne _ _ _ (by omega), hpro1]
    · rw [GET_PUT_ne _ _ _ (by omega), GET_PUT_ne _ _ _ (by omega), hpro2]
    · show GET (PUT (PUT st.mem (ba - 4) (PACK S 1)) (ba + S - 8) (PACK S 1))
          (st.brk - 4) = PACK 0 1
      rw [GET_PUT_ne _ _ _ (by omega), GET_PUT_ne _ _ _ (by omega), hepi]
    · refine Blocks_append (Blocks_frame hL ?_) ?_
      · intro x hx1 hx2
        show PUT (PUT st.mem (ba - 4) (PACK S 1)) (ba + S - 8) (PACK S 1) x
          = st.mem x
        rw [PUT_outside _ _ (by omega), PUT_outside _ _ (by omega)]
      · refine Blocks.cons ba S 1 st.brk r ?_ ?_ h8 h16 (by omega) ?_
        · rw [GET_PUT_ne _ _ _ (by omega)]
          exact GET_PUT_same_of_lt _ _ (by simp only [PACK]; omega)
        · exact GET_PUT_same_of_lt _ _ (by simp only [PACK]; omega)
        · refine Blocks_frame htail ?_
          intro x hx1 hx2
          show PUT (PUT st.mem (ba - 4) (PACK S 1)) (ba + S - 8) (PACK S 1) x
            = st.mem x
          rw [PUT_outside _ _ (by omega), PUT_outside _ _ (by omega)]
    · exact noAdjFree_build1 hcl hcr (fun x hx => Or.inr rfl)
        (fun y hy => Or.inl rfl)
    · rw [hcoup, freeMS_append, freeMS_cons_alloc]
    · intro b hb hb1
      rcases List.mem_append.1 hb with hbL | hbR
      · exact List.mem_append_left _ hbL
      · exact List.mem_append_right _ (List.mem_cons_of_mem _ hbR)
    · intro w hw
      simp only [List.mem_cons, List.mem_singleton] at hw
      rcases hw with rfl | rfl | hF
      · omega
      · omega
      · cases hF
    · refine ⟨?_, by omega, by omega⟩
      intro x hx1 hx2
      show PUT _ _ _ x = st.mem x
      rw [PUT_outside _ _ (by omega), PUT_outside _ _ (by omega)]

/-- `place` restores the invariant: the split branch allocating at the
front. -/
theorem place_master_front (st : AState) (l r : List (Nat × Nat × Nat))
    (ba S asize : Nat)
    (hL : Blocks st.mem 16 l ba)
    (hMid : Blocks st.mem ba ((ba, S, 0) :: r) st.brk)
    (hadj : noAdjFree (l ++ (ba, S, 0) :: r))
    (hcoup : (nodes st.tree_root : Multiset (Nat × Nat)) = freeMS l + freeMS r)
    (htbst : bst st.tree_root = true)
    (hlp : st.heap_listp = 8) (hbrk8 : st.brk % 8 = 0) (hbrklo : 24 ≤ st.brk)
    (hbrkhi : st.brk ≤ st.limit) (hlim : st.limit ≤ 2147483648)
    (hpro1 : GET st.mem 4 = PACK 8 1) (hpro2 : GET st.mem 8 = PACK 8 1)
    (hepi : GET st.mem (st.brk - 4) = PACK 0 1)
    (ha16 : 16 ≤ asize) (ha8 : asize % 8 = 0) (hle : asize ≤ S)
    (hrem : 48 ≤ S - asize)
    (hcmp : GET_SIZE (GET st.mem (HDRP (NEXT_BLKP st.mem ba))) >
      GET_SIZE (GET st.mem (HDRP (PREV_BLKP st.mem ba)))) :
    ∃ p st2 lg, place st ba asize = (p, st2, lg) ∧ p % 8 = 0 ∧
      st2.brk = st.brk ∧ st2.limit = st.limit ∧
      st2.heap_listp = st.heap_listp ∧
      ∃ bl2, InvP st2 bl2 ∧ (∃ S1, (p, S1, 1) ∈ bl2 ∧ asize ≤ S1) ∧
        (∀ b ∈ l ++ r, b.2.2 = 1 → b ∈ bl2) ∧
        (∀ w ∈ lg, w + 4 ≤ p ∨ p + asize - 8 ≤ w) ∧
        (∀ x, p ≤ x → x < p + asize - 8 → st2.mem x = st.mem x) ∧
        ba ≤ p ∧ p + asize ≤ ba + S := by
  cases hMid with
  | cons _ _ _ _ _ hh hf h8 h16 hal htail =>
    have hend : ba + S ≤ st.brk := Blocks_le htail
    have hba16 : 16 ≤ ba := Blocks_le hL
    have hba8 : ba % 8 = 0 := Blocks_end_align hL (by norm_num)
    have hSlt : S < 4294967296 := by omega
    have heq := place_front_eq st ba asize S hh h8 hSlt ha8 ha16 hle hrem hcmp
    refine ⟨ba, _, _, heq, by omega, rfl, rfl, rfl, ?_⟩
    obtain ⟨hcl, hcr, hlb, hbr⟩ := noAdjFree_decomp hadj
    have hG1 : GET (PUT (PUT (PUT (PUT st.mem (ba - 4) (PACK asize 1))
        (ba + asize - 8) (PACK asize 1)) (ba + asize - 4) (PACK (S - asize) 0))
        (ba + S - 8) (PACK (S - asize) 0)) (ba - 4) = PACK asize 1 := by
      rw [GET_PUT_ne _ _ _ (by omega), GET_PUT_ne _ _ _ (by omega),
        GET_PUT_ne _ _ _ (by omega)]
      exact GET_PUT_same_of_lt _ _ (by simp only [PACK]; omega)
    have hG2 : GET (PUT (PUT (PUT (PUT st.mem (ba - 4) (PACK asize 1))
        (ba + asize - 8) (PACK asize 1)) (ba + asize - 4) (PACK (S - asize) 0))
        (ba + S - 8) (PACK (S - asize) 0)) (ba + asize - 8) = PACK asize 1 := by
      rw [GET_PUT_ne _ _ _ (by omega), GET_PUT_ne _ _ _ (by omega)]
      exact GET_PUT_same_of_lt _ _ (by simp only [PACK]; omega)
    have hG3 : GET (PUT (PUT (PUT (PUT st.mem (ba - 4) (PACK asize 1))
        (ba + asize - 8) (PACK asize 1)) (ba + asize - 4) (PACK (S - asize) 0))
        (ba + S - 8) (PACK (S - asize) 0)) (ba + asize - 4)
        = PACK (S - asize) 0 := by
      rw [GET_PUT_ne _ _ _ (by omega)]
      exact GET_PUT_same_of_lt _ _ (by simp only [PACK]; omega)
    have hG4 : GET (PUT (PUT (PUT (PUT st.mem (ba - 4) (PACK asize 1))
        (ba + asize - 8) (PACK asize 1)) (ba + asize - 4) (PACK (S - asize) 0))
        (ba + S - 8) (PACK (S - asize) 0)) (ba + S - 8) = PACK (S - asize) 0 :=
      GET_PUT_same_of_lt _ _ (by simp only [PACK]; omega)
    refine ⟨l ++ (ba, asize, 1) :: (ba + asize, S - asize, 0) :: r,
      { hlp := hlp, brk8 := hbrk8, brklo := hbrklo, brkhi := hbrkhi,
        limhi := hlim, prohdr := ?_, proftr := ?_, epi := ?_, parse := ?_,
        adj := ?_, coup := ?_, tbst := bst_mm_insert _ htbst },
      ⟨asize, List.mem_append_right _ (List.mem_cons_self _ _), Nat.le_refl _⟩,
      ?_, ?_, ?_⟩
    · rw [GET_PUT_ne _ _ _ (by omega), GET_PUT_ne _ _ _ (by omega),
        GET_PUT_ne _ _ _ (by omega), GET_PUT_ne _ _ _ (by omega), hpro1]
    · rw [GET_PUT_ne _ _ _ (by omega), GET_PUT_ne _ _ _ (by omega),
        GET_PUT_ne _ _ _ (by omega), GET_PUT_ne _ _ _ (by omega), hpro2]
    · show GET (PUT (PUT (PUT (PUT st.mem (ba - 4) (PACK asize 1))
          (ba + asize - 8) (PACK asize 1)) (ba + asize - 4) (PACK (S - asize) 0))
          (ba + S - 8) (PACK (S - asize) 0)) (st.brk - 4) = PACK 0 1
      rw [GET_PUT_ne _ _ _ (by omega), GET_PUT_ne _ _ _ (by omega),
        GET_PUT_ne _ _ _ (by omega), GET_PUT_ne _ _ _ (by omega), hepi]
    · refine Blocks_append (Blocks_frame hL ?_) ?_
      · intro x hx1 hx2
        show PUT (PUT (PUT (PUT st.mem (ba - 4) (PACK asize 1))
          (ba + asize - 8) (PACK asize 1)) (ba + asize - 4) (PACK (S - asize) 0))
          (ba + S - 8) (PACK (S - asize) 0) x = st.mem x
        rw [PUT_outside _ _ (by omega), PUT_outside _ _ (by omega),
          PUT_outside _ _ (by omega), PUT_outside _ _ (by omega)]
      · refine Blocks.cons ba asize 1 st.brk _ hG1 hG2 ha8 ha16 (by omega) ?_
        refine Blocks.cons (ba + asize) (S - asize) 0 st.brk r ?_ ?_
          (by omega) (by omega) (by omega) ?_
        · rw [show ba + asize - 4 = ba + asize - 4 from rfl]
          exact hG3
        · rw [show ba + asize + (S - asize) - 8 = ba + S - 8 from by omega]
          exact hG4
        · rw [show ba + asize + (S - asize) = ba + S from by omega]
          refine Blocks_frame htail ?_
          intro x hx1 hx2
          show PUT (PUT (PUT (PUT st.mem (ba - 4) (PACK asize 1))
            (ba + asize - 8) (PACK asize 1)) (ba + asize - 4)
            (PACK (S - asize) 0)) (ba + S - 8) (PACK (S - asize) 0) x
            = st.mem x
          rw [PUT_outside _ _ (by omega), PUT_outside _ _ (by omega),
            PUT_outside _ _ (by omega), PUT_outside _ _ (by omega)]
    · refine noAdjFree_build2 hcl hcr (fun x hx => Or.inr rfl) (Or.inl rfl) ?_
      intro y hy
      exact Or.inr (Or.resolve_left (hbr y hy) (by simp))
    · have h1 : (nodes (mm_insert st.tree_root (ba + asize, S - asize)) :
          Multiset (Nat × Nat))
          = (ba + asize, S - asize) ::ₘ
            (nodes st.tree_root : Multiset (Nat × Nat)) := by
        have h2 := Multiset.coe_eq_coe.2
          (nodes_mm_insert st.tree_root (ba + asize, S - asize))
        rw [h2, Multiset.cons_coe]
      rw [h1, hcoup, freeMS_append, freeMS_cons_alloc, freeMS_cons_free,
        ← Multiset.add_cons]
    · intro b hb hb1
      rcases List.mem_append.1 hb with hbL | hbR
      · exact List.mem_append_left _ hbL
      · exact List.mem_append_right _
          (List.mem_cons_of_mem _ (List.mem_cons_of_mem _ hbR))
    · intro w hw
      rcases List.mem_append.1 hw with hwT | hwI
      · simp only [List.mem_cons, List.mem_singleton] at hwT
        rcases hwT with rfl | rfl | rfl | rfl | hF
        · omega
        · omega
        · omega
        · omega
        · cases hF
      · rcases insertWrites_subset _ st.tree_root w hwI with ⟨x, hx, hor⟩ | hor
        · rcases mem_addrs.1 hx with ⟨sx, hsx⟩
          have hms : (x, sx) ∈ freeMS l + freeMS r := by
            rw [← hcoup]
            exact Multiset.mem_coe.2 hsx
          rcases Multiset.mem_add.1 hms with hml | hmr
          · have hxl : (x, sx, 0) ∈ l := freeList_mem.1 (Multiset.mem_coe.1 hml)
            have hb1 := Blocks_mem_bounds hL _ hxl
            have hb2 := (Blocks_mem_facts hL _ hxl).2.2.2.1
            simp only at hb1 hb2
            omega
          · have hxr : (x, sx, 0) ∈ r := freeList_mem.1 (Multiset.mem_coe.1 hmr)
            have hb1 := Blocks_mem_bounds htail _ hxr
            simp only at hb1
            omega
        · omega
    · refine ⟨?_, by omega, by omega⟩
      intro x hx1 hx2
      show PUT (PUT (PUT (PUT st.mem (ba - 4) (PACK asize 1))
        (ba + asize - 8) (PACK asize 1)) (ba + asize - 4) (PACK (S - asize) 0))
        (ba + S - 8) (PACK (S - asize) 0) x = st.mem x
      rw [PUT_outside _ _ (by omega), PUT_outside _ _ (by omega),
        PUT_outside _ _ (by omega), PUT_outside _ _ (by omega)]

/-- `place` restores the invariant: the split branch allocating at the
tail. -/
theorem place_master_tail (st : AState) (l r : List (Nat × Nat × Nat))
    (ba S asize : Nat)
    (hL : Blocks st.mem 16 l ba)
    (hMid : Blocks st.mem ba ((ba, S, 0) :: r) st.brk)
    (hadj : noAdjFree (l ++ (ba, S, 0) :: r))
    (hcoup : (nodes st.tree_root : Multiset (Nat × Nat)) = freeMS l + freeMS r)
    (htbst : bst st.tree_root = true)
    (hlp : st.heap_listp = 8) (hbrk8 : st.brk % 8 = 0) (hbrklo : 24 ≤ st.brk)
    (hbrkhi : st.brk ≤ st.limit) (hlim : st.limit ≤ 2147483648)
    (hpro1 : GET st.mem 4 = PACK 8 1) (hpro2 : GET st.mem 8 = PACK 8 1)
    (hepi : GET st.mem (st.brk - 4) = PACK 0 1)
    (ha16 : 16 ≤ asize) (ha8 : asize % 8 = 0) (hle : asize ≤ S)
    (hrem : 48 ≤ S - asize)
    (hcmp : ¬ (GET_SIZE (GET st.mem (HDRP (NEXT_BLKP st.mem ba))) >
      GET_SIZE (GET st.mem (HDRP (PREV_BLKP st.mem ba))))) :
    ∃ p st2 lg, place st ba asize = (p, st2, lg) ∧ p % 8 = 0 ∧
      st2.brk = st.brk ∧ st2.limit = st.limit ∧
      st2.heap_listp = st.heap_listp ∧
      ∃ bl2, InvP st2 bl2 ∧ (∃ S1, (p, S1, 1) ∈ bl2 ∧ asize ≤ S1) ∧
        (∀ b ∈ l ++ r, b.2.2 = 1 → b ∈ bl2) ∧
        (∀ w ∈ lg, w + 4 ≤ p ∨ p + asize - 8 ≤ w) ∧
        (∀ x, p ≤ x → x < p + asize - 8 → st2.mem x = st.mem x) ∧
        ba ≤ p ∧ p + asize ≤ ba + S := by
  cases hMid with
  | cons _ _ _ _ _ hh hf h8 h16 hal htail =>
    have hend : ba + S ≤ st.brk := Blocks_le htail
    have hba16 : 16 ≤ ba := Blocks_le hL
    have hba8 : ba % 8 = 0 := Blocks_end_align hL (by norm_num)
    have hSlt : S < 4294967296 := by omega
    have heq := place_tail_eq st ba asize S hh h8 hSlt ha8 ha16 hle hrem hcmp
    refine ⟨ba + (S - asize), _, _, heq, by omega, rfl, rfl, rfl, ?_⟩
    obtain ⟨hcl, hcr, hlb, hbr⟩ := noAdjFree_decomp hadj
    have hG1 : GET (PUT (PUT (PUT (PUT st.mem (ba - 4) (PACK (S - asize) 0))
        (ba + (S - asize) - 8) (PACK (S - asize) 0))
        (ba + (S - asize) - 4) (PACK asize 1)) (ba + S - 8) (PACK asize 1))
        (ba - 4) = PACK (S - asize) 0 := by
      rw [GET_PUT_ne _ _ _ (by omega), GET_PUT_ne _ _ _ (by omega),
        GET_PUT_ne _ _ _ (by omega)]
      exact GET_PUT_same_of_lt _ _ (by simp only [PACK]; omega)
    have hG2 : GET (PUT (PUT (PUT (PUT st.mem (ba - 4) (PACK (S - asize) 0))
        (ba + (S - asize) - 8) (PACK (S - asize) 0))
        (ba + (S - asize) - 4) (PACK asize 1)) (ba + S - 8) (PACK asize 1))
        (ba + (S - asize) - 8) = PACK (S - asize) 0 := by
      rw [GET_PUT_ne _ _ _ (by omega), GET_PUT_ne _ _ _ (by omega)]
      exact GET_PUT_same_of_lt _ _ (by simp only [PACK]; omega)
    have hG3 : GET (PUT (PUT (PUT (PUT st.mem (ba - 4) (PACK (S - asize) 0))
        (ba + (S - asize) - 8) (PACK (S - asize) 0))
        (ba + (S - asize) - 4) (PACK asize 1)) (ba + S - 8) (PACK asize 1))
        (ba + (S - asize) - 4) = PACK asize 1 := by
      rw [GET_PUT_ne _ _ _ (by omega)]
      exact GET_PUT_same_of_lt _ _ (by simp only [PACK]; omega)
    have hG4 : GET (PUT (PUT (PUT (PUT st.mem (ba - 4) (PACK (S - asize) 0))
        (ba + (S - asize) - 8) (PACK (S - asize) 0))
        (ba + (S - asize) - 4) (PACK asize 1)) (ba + S - 8) (PACK asize 1))
        (ba + S - 8) = PACK asize 1 :=
      GET_PUT_same_of_lt _ _ (by simp only [PACK]; omega)
    refine ⟨l ++ (ba, S - asize, 0) :: (ba + (S - asize), asize, 1) :: r,
      { hlp := hlp, brk8 := hbrk8, brklo := hbrklo, brkhi := hbrkhi,
        limhi := hlim, prohdr := ?_, proftr := ?_, epi := ?_, parse := ?_,
        adj := ?_, coup := ?_, tbst := bst_mm_insert _ htbst },
      ⟨asize, List.mem_append_right _
        (List.mem_cons_of_mem _ (List.mem_cons_self _ _)), Nat.le_refl _⟩,
      ?_, ?_, ?_⟩
    · rw [GET_PUT_ne _ _ _ (by omega), GET_PUT_ne _ _ _ (by omega),
        GET_PUT_ne _ _ _ (by omega), GET_PUT_ne _ _ _ (by omega), hpro1]
    · rw [GET_PUT_ne _ _ _ (by omega), GET_PUT_ne _ _ _ (by omega),
        GET_PUT_ne _ _ _ (by omega), GET_PUT_ne _ _ _ (by omega), hpro2]
    · show GET (PUT (PUT (PUT (PUT st.mem (ba - 4) (PACK (S - asize) 0))
          (ba + (S - asize) - 8) (PACK (S - asize) 0))
          (ba + (S - asize) - 4) (PACK asize 1)) (ba + S - 8) (PACK asize 1))
          (st.brk - 4) = PACK 0 1
      rw [GET_PUT_ne _ _ _ (by omega), GET_PUT_ne _ _ _ (by omega),
        GET_PUT_ne _ _ _ (by omega), GET_PUT_ne _ _ _ (by omega), hepi]
    · refine Blocks_append (Blocks_frame hL ?_) ?_
      · intro x hx1 hx2
        show PUT (PUT (PUT (PUT st.mem (ba - 4) (PACK (S - asize) 0))
          (ba + (S - asize) - 8) (PACK (S - asize) 0))
          (ba + (S - asize) - 4) (PACK asize 1)) (ba + S - 8) (PACK asize 1) x
          = st.mem x
        rw [PUT_outside _ _ (by omega), PUT_outside _ _ (by omega),
          PUT_outside _ _ (by omega), PUT_outside _ _ (by omega)]
      · refine Blocks.cons ba (S - asize) 0 st.brk _ hG1 hG2
          (by omega) (by omega) (by omega) ?_
        refine Blocks.cons (ba + (S - asize)) asize 1 st.brk r hG3 ?_
          ha8 ha16 (by omega) ?_
        · rw [show ba + (S - asize) + asize - 8 = ba + S - 8 from by omega]
          exact hG4
        · rw [show ba + (S - asize) + asize = ba + S from by omega]
          refine Blocks_frame htail ?_
          intro x hx1 hx2
          show PUT (PUT (PUT (PUT st.mem (ba - 4) (PACK (S - asize) 0))
            (ba + (S - asize) - 8) (PACK (S - asize) 0))
            (ba + (S - asize) - 4) (PACK asize 1)) (ba + S - 8) (PACK asize 1) x
            = st.mem x
          rw [PUT_outside _ _ (by omega), PUT_outside _ _ (by omega),
            PUT_outside _ _ (by omega), PUT_outside _ _ (by omega)]
    · refine noAdjFree_build2 hcl hcr ?_ (Or.inr rfl) (fun y hy => Or.inl rfl)
      intro x hx
      exact Or.inl (Or.resolve_right (hlb x hx) (by simp))
    · have h1 : (nodes (mm_insert st.tree_root (ba, S - asize)) :
          Multiset (Nat × Nat))
          = (ba, S - asize) ::ₘ (nodes st.tree_root : Multiset (Nat × Nat)) := by
        have h2 := Multiset.coe_eq_coe.2
          (nodes_mm_insert st.tree_root (ba, S - asize))
        rw [h2, Multiset.cons_coe]
      rw [h1, hcoup, freeMS_append, freeMS_cons_free, freeMS_cons_alloc,
        ← Multiset.add_cons]
    · intro b hb hb1
      rcases List.mem_append.1 hb with hbL | hbR
      · exact List.mem_append_left _ hbL
      · exact List.mem_append_right _
          (List.mem_cons_of_mem _ (List.mem_cons_of_mem _ hbR))
    · intro w hw
      rcases List.mem_append.1 hw with hwT | hwI
      · simp only [List.mem_cons, List.mem_singleton] at hwT
        rcases hwT with rfl | rfl | rfl | rfl | hF
        · omega
        · omega
        · omega
        · omega
        · cases hF
      · rcases insertWrites_subset _ st.tree_root w hwI with ⟨x, hx, hor⟩ | hor
        · rcases mem_addrs.1 hx with ⟨sx, hsx⟩
          have hms : (x, sx) ∈ freeMS l + freeMS r := by
            rw [← hcoup]
            exact Multiset.mem_coe.2 hsx
          rcases Multiset.mem_add.1 hms with hml | hmr
          · have hxl : (x, sx, 0) ∈ l := freeList_mem.1 (Multiset.mem_coe.1 hml)
            have hb1 := Blocks_mem_bounds hL _ hxl
            have hb2 := (Blocks_mem_facts hL _ hxl).2.2.2.1
            simp only at hb1 hb2
            omega
          · have hxr : (x, sx, 0) ∈ r := freeList_mem.1 (Multiset.mem_coe.1 hmr)
            have hb1 := Blocks_mem_bounds htail _ hxr
            simp only at hb1
            omega
        · omega
    · refine ⟨?_, by omega, by omega⟩
      intro x hx1 hx2
      show PUT (PUT (PUT (PUT st.mem (ba - 4) (PACK (S - asize) 0))
        (ba + (S - asize) - 8) (PACK (S - asize) 0))
        (ba + (S - asize) - 4) (PACK asize 1)) (ba + S - 8) (PACK asize 1) x
        = st.mem x
      rw [PUT_outside _ _ (by omega), PUT_outside _ _ (by omega),
        PUT_outside _ _ (by omega), PUT_outside _ _ (by omega)]

theorem freeMS_nil : freeMS [] = 0 := rfl

/-- `place(bp, asize)` on a free block `(ba, S)` of the parsed heap that has
already been taken out of the index restores the invariant; the returned
pointer is 8-aligned, heads an allocated block of size at least `asize` in
the new parse, every previously allocated block survives, and all words
written lie outside the payload `[p, p + asize - 8)`, which also keeps its
bytes. -/
theorem place_master (st : AState) (l r : List (Nat × Nat × Nat))
    (ba S asize : Nat)
    (hL : Blocks st.mem 16 l ba)
    (hMid : Blocks st.mem ba ((ba, S, 0) :: r) st.brk)
    (hadj : noAdjFree (l ++ (ba, S, 0) :: r))
    (hcoup : (nodes st.tree_root : Multiset (Nat × Nat)) = freeMS l + freeMS r)
    (htbst : bst st.tree_root = true)
    (hlp : st.heap_listp = 8) (hbrk8 : st.brk % 8 = 0) (hbrklo : 24 ≤ st.brk)
    (hbrkhi : st.brk ≤ st.limit) (hlim : st.limit ≤ 2147483648)
    (hpro1 : GET st.mem 4 = PACK 8 1) (hpro2 : GET st.mem 8 = PACK 8 1)
    (hepi : GET st.mem (st.brk - 4) = PACK 0 1)
    (ha16 : 16 ≤ asize) (ha8 : asize % 8 = 0) (hle : asize ≤ S) :
    ∃ p st2 lg, place st ba asize = (p, st2, lg) ∧ p % 8 = 0 ∧
      st2.brk = st.brk ∧ st2.limit = st.limit ∧
      st2.heap_listp = st.heap_listp ∧
      ∃ bl2, InvP st2 bl2 ∧ (∃ S1, (p, S1, 1) ∈ bl2 ∧ asize ≤ S1) ∧
        (∀ b ∈ l ++ r, b.2.2 = 1 → b ∈ bl2) ∧
        (∀ w ∈ lg, w + 4 ≤ p ∨ p + asize - 8 ≤ w) ∧
        (∀ x, p ≤ x → x < p + asize - 8 → st2.mem x = st.mem x) ∧
        ba ≤ p ∧ p + asize ≤ ba + S := by
  by_cases hrem : 48 ≤ S - asize
  · by_cases hcmp : GET_SIZE (GET st.mem (HDRP (NEXT_BLKP st.mem ba))) >
        GET_SIZE (GET st.mem (HDRP (PREV_BLKP st.mem ba)))
    · exact place_master_front st l r ba S asize hL hMid hadj hcoup htbst hlp
        hbrk8 hbrklo hbrkhi hlim hpro1 hpro2 hepi ha16 ha8 hle hrem hcmp
    · exact place_master_tail st l r ba S asize hL hMid hadj hcoup htbst hlp
        hbrk8 hbrklo hbrkhi hlim hpro1 hpro2 hepi ha16 ha8 hle hrem hcmp
  · exact place_master_nosplit st l r ba S asize hL hMid hadj hcoup htbst hlp
      hbrk8 hbrklo hbrkhi hlim hpro1 hpro2 hepi ha16 ha8 hle (by omega)

theorem Blocks_nil_end {m : Mem} {a e : Nat} (h : Blocks m a [] e) : a = e := by
  cases h
  rfl

/-- `extend_heap` under the invariant: either the sink refuses, or the heap
grows by `xsize` bytes and the returned pointer heads a free block (the new
space, coalesced with a trailing free block if there was one) that ends at
the new break, is not in the index, and follows only allocated blocks. -/
theorem extend_master (st : AState) (bl : List (Nat × Nat × Nat)) (xsize : Nat)
    (hI : InvP st bl) (hx8 : xsize % 8 = 0) (hx16 : 4096 ≤ xsize) :
    (extend_heap st (xsize / 4) = some none ∧ st.limit < st.brk + xsize) ∨
    (∃ cp CS st1 lg l2,
      extend_heap st (xsize / 4) = some (some (cp, st1, lg)) ∧
      st1.brk = st.brk + xsize ∧ st.brk + xsize ≤ st.limit ∧
      st1.limit = st.limit ∧ st1.heap_listp = st.heap_listp ∧
      Blocks st1.mem 16 l2 cp ∧
      Blocks st1.mem cp [(cp, CS, 0)] st1.brk ∧
      noAdjFree (l2 ++ [(cp, CS, 0)]) ∧
      (nodes st1.tree_root : Multiset (Nat × Nat)) = freeMS l2 ∧
      bst st1.tree_root = true ∧
      GET st1.mem 4 = PACK 8 1 ∧ GET st1.mem 8 = PACK 8 1 ∧
      GET st1.mem (st1.brk - 4) = PACK 0 1 ∧
      xsize ≤ CS ∧ CS % 8 = 0 ∧
      (∀ b ∈ bl, b.2.2 = 1 → b ∈ l2)) := by
  have hsizeEq : (if xsize / 4 % 2 = 1 then (xsize / 4 + 1) * 4
      else xsize / 4 * 4) = xsize := by
    rw [if_neg (by omega)]
    omega
  by_cases hok : st.brk + xsize ≤ st.limit
  · right
    have hsb : mem_sbrk st xsize
        = some (st.brk, { st with brk := st.brk + xsize }) := by
      simp only [mem_sbrk]
      rw [if_pos hok]
    have hbrklo := hI.brklo
    have hlim := hI.limhi
    have hbrkhi := hI.brkhi
    have hxlt : xsize < 4294967296 := by omega
    have hftr1 : FTRP (PUT st.mem (st.brk - 4) (PACK xsize 0)) st.brk
        = st.brk + xsize - 8 := by
      rw [FTRP, HDRP, GET_PUT_same_of_lt _ _ (by simp only [PACK]; omega),
        GET_SIZE_PACK hx8 (by omega)]
    have hnext2 : NEXT_BLKP (PUT (PUT st.mem (st.brk - 4) (PACK xsize 0))
        (st.brk + xsize - 8) (PACK xsize 0)) st.brk = st.brk + xsize := by
      rw [NEXT_BLKP, GET_PUT_ne _ _ _ (by omega),
        GET_PUT_same_of_lt _ _ (by simp only [PACK]; omega),
        GET_SIZE_PACK hx8 (by omega)]
    have hblne : bl ≠ [] := by
      intro hE
      have := Blocks_nil_end (hE ▸ hI.parse)
      omega
    obtain ⟨l2, pb, hbleq, hpend, hleft⟩ := Blocks_last hI.parse hblne
    obtain ⟨pl, PS, pal⟩ := pb
    have hmemb : (pl, PS, pal) ∈ bl := by
      rw [hbleq]
      exact List.mem_append_right _ (List.mem_cons_self _ _)
    have hfacts := Blocks_mem_facts hI.parse (pl, PS, pal) hmemb
    have hbounds := Blocks_mem_bounds hI.parse (pl, PS, pal) hmemb
    simp only at hfacts hbounds hpend hleft
    obtain ⟨hPhdr, hPftr, hPS8, hPS16, hpal2⟩ := hfacts
    -- memory after the three extension writes
    have hhdr3 : GET (PUT (PUT (PUT st.mem (st.brk - 4) (PACK xsize 0))
        (st.brk + xsize - 8) (PACK xsize 0)) (st.brk + xsize - 4) (PACK 0 1))
        (st.brk - 4) = PACK xsize 0 := by
      rw [GET_PUT_ne _ _ _ (by omega), GET_PUT_ne _ _ _ (by omega)]
      exact GET_PUT_same_of_lt _ _ (by simp only [PACK]; omega)
    have hftr3v : GET (PUT (PUT (PUT st.mem (st.brk - 4) (PACK xsize 0))
        (st.brk + xsize - 8) (PACK xsize 0)) (st.brk + xsize - 4) (PACK 0 1))
        (st.brk + xsize - 8) = PACK xsize 0 := by
      rw [GET_PUT_ne _ _ _ (by omega)]
      exact GET_PUT_same_of_lt _ _ (by simp only [PACK]; omega)
    have hpftr3 : GET (PUT (PUT (PUT st.mem (st.brk - 4) (PACK xsize 0))
        (st.brk + xsize - 8) (PACK xsize 0)) (st.brk + xsize - 4) (PACK 0 1))
        (st.brk - 8) = PACK PS pal := by
      rw [GET_PUT_ne _ _ _ (by omega), GET_PUT_ne _ _ _ (by omega),
        GET_PUT_ne _ _ _ (by omega),
        show st.brk - 8 = pl + PS - 8 from by omega]
      exact hPftr
    have hphdr3 : GET (PUT (PUT (PUT st.mem (st.brk - 4) (PACK xsize 0))
        (st.brk + xsize - 8) (PACK xsize 0)) (st.brk + xsize - 4) (PACK 0 1))
        (st.brk - PS - 4) = PACK PS pal := by
      rw [GET_PUT_ne _ _ _ (by omega), GET_PUT_ne _ _ _ (by omega),
        GET_PUT_ne _ _ _ (by omega),
        show st.brk - PS - 4 = pl - 4 from by omega]
      exact hPhdr
    have hnhdr3 : GET (PUT (PUT (PUT st.mem (st.brk - 4) (PACK xsize 0))
        (st.brk + xsize - 8) (PACK xsize 0)) (st.brk + xsize - 4) (PACK 0 1))
        (st.brk + xsize - 4) = PACK 0 1 :=
      GET_PUT_same_of_lt _ _ (by simp only [PACK]; omega)
    have hpro13 : GET (PUT (PUT (PUT st.mem (st.brk - 4) (PACK xsize 0))
        (st.brk + xsize - 8) (PACK xsize 0)) (st.brk + xsize - 4) (PACK 0 1))
        4 = PACK 8 1 := by
      rw [GET_PUT_ne _ _ _ (by omega), GET_PUT_ne _ _ _ (by omega),
        GET_PUT_ne _ _ _ (by omega)]
      exact hI.prohdr
    have hpro23 : GET (PUT (PUT (PUT st.mem (st.brk - 4) (PACK xsize 0))
        (st.brk + xsize - 8) (PACK xsize 0)) (st.brk + xsize - 4) (PACK 0 1))
        8 = PACK 8 1 := by
      rw [GET_PUT_ne _ _ _ (by omega), GET_PUT_ne _ _ _ (by omega),
        GET_PUT_ne _ _ _ (by omega)]
      exact hI.proftr
    have hLfr : Blocks (PUT (PUT (PUT st.mem (st.brk - 4) (PACK xsize 0))
        (st.brk + xsize - 8) (PACK xsize 0)) (st.brk + xsize - 4) (PACK 0 1))
        16 bl st.brk := by
      refine Blocks_frame hI.parse ?_
      intro x hx1 hx2
      rw [PUT_outside _ _ (by omega), PUT_outside _ _ (by omega),
        PUT_outside _ _ (by omega)]
    have hpal01 : pal = 0 ∨ pal = 1 := by omega
    rcases hpal01 with hpal | hpal
    · -- trailing block free: coalesce absorbs it (case 3)
      subst hpal
      have hmemP : (st.brk - PS, PS) ∈ nodes st.tree_root := by
        rw [show st.brk - PS = pl from by omega]
        refine (InvP_free_mem hI).2 ?_
        rw [hbleq]
        exact List.mem_append_right _ (List.mem_cons_self _ _)
      have hndT : (addrs st.tree_root).Nodup := InvP_nodup hI
      have htbstT : bst st.tree_root = true := hI.tbst
      obtain ⟨tr, hremEq, hcons, hbstr, hco⟩ :=
        coalesce_case3_eq { st with
            mem := PUT (PUT (PUT st.mem (st.brk - 4) (PACK xsize 0))
              (st.brk + xsize - 8) (PACK xsize 0)) (st.brk + xsize - 4)
              (PACK 0 1),
            brk := st.brk + xsize }
          st.brk xsize PS 0 hhdr3 hpftr3 hphdr3 hnhdr3 hx8 hPS8 (by norm_num)
          (by omega) (by omega) (by omega) (by omega) htbstT hndT
          hmemP
      have heqE : extend_heap st (xsize / 4)
          = some (some (st.brk - PS,
              { st with
                mem := PUT (PUT (PUT (PUT (PUT st.mem (st.brk - 4)
                  (PACK xsize 0)) (st.brk + xsize - 8) (PACK xsize 0))
                  (st.brk + xsize - 4) (PACK 0 1)) (st.brk + xsize - 8)
                  (PACK (xsize + PS) 0)) (st.brk - PS - 4)
                  (PACK (xsize + PS) 0),
                brk := st.brk + xsize, tree_root := tr },
              [st.brk - 4, st.brk + xsize - 8, st.brk + xsize - 4] ++
                ([st.brk + xsize - 8, st.brk - PS - 4] ++
                  removeWrites st.tree_root (st.brk - PS)))) := by
        simp only [extend_heap]
        rw [hsizeEq, hsb]
        dsimp only
        simp only [HDRP]
        rw [hftr1, hnext2, hco]
      refine ⟨st.brk - PS, xsize + PS, _, _, l2, heqE, rfl, hok, rfl, rfl,
        ?_, ?_, ?_, ?_, hbstr, ?_, ?_, ?_, by omega, by omega, ?_⟩
      · -- left part of the new parse
        have hleft2 : Blocks st.mem 16 l2 (st.brk - PS) := by
          rw [show st.brk - PS = pl from by omega]
          exact hleft
        refine Blocks_frame hleft2 ?_
        intro x hx1 hx2
        show PUT (PUT (PUT (PUT (PUT st.mem (st.brk - 4) (PACK xsize 0))
          (st.brk + xsize - 8) (PACK xsize 0)) (st.brk + xsize - 4)
          (PACK 0 1)) (st.brk + xsize - 8) (PACK (xsize + PS) 0))
          (st.brk - PS - 4) (PACK (xsize + PS) 0) x = st.mem x
        rw [PUT_outside _ _ (by omega), PUT_outside _ _ (by omega),
          PUT_outside _ _ (by omega), PUT_outside _ _ (by omega),
          PUT_outside _ _ (by omega)]
      · -- the merged free block
        refine Blocks.cons (st.brk - PS) (xsize + PS) 0 _ [] ?_ ?_
          (by omega) (by omega) (by omega) ?_
        · exact GET_PUT_same_of_lt _ _ (by simp only [PACK]; omega)
        · rw [show st.brk - PS + (xsize + PS) - 8 = st.brk + xsize - 8
            from by omega]
          rw [GET_PUT_ne _ _ _ (by omega)]
          exact GET_PUT_same_of_lt _ _ (by simp only [PACK]; omega)
        · rw [show st.brk - PS + (xsize + PS) = st.brk + xsize from by omega]
          exact Blocks.nil _
      · -- no adjacent free blocks
        have hdec := noAdjFree_decomp (hbleq ▸ hI.adj)
        refine noAdjFree_build1 hdec.1 List.chain'_nil ?_ ?_
        · intro x hx
          exact Or.inl (Or.resolve_right (hdec.2.2.1 x hx) (by simp))
        · intro y hy
          simp at hy
      · -- index coupling
        have hT : (nodes st.tree_root : Multiset (Nat × Nat))
            = (st.brk - PS, PS) ::ₘ freeMS l2 := by
          rw [hI.coup, hbleq, freeMS_append, freeMS_cons_free, freeMS_nil,
            show st.brk - PS = pl from by omega, Multiset.add_cons,
            add_zero]
        rw [hT] at hcons
        exact (Multiset.cons_inj_right _).1 hcons
      · -- prologue header preserved
        rw [GET_PUT_ne _ _ _ (by omega), GET_PUT_ne _ _ _ (by omega)]
        exact hpro13
      · rw [GET_PUT_ne _ _ _ (by omega), GET_PUT_ne _ _ _ (by omega)]
        exact hpro23
      · show GET (PUT (PUT (PUT (PUT (PUT st.mem (st.brk - 4) (PACK xsize 0))
          (st.brk + xsize - 8) (PACK xsize 0)) (st.brk + xsize - 4)
          (PACK 0 1)) (st.brk + xsize - 8) (PACK (xsize + PS) 0))
          (st.brk - PS - 4) (PACK (xsize + PS) 0))
          (st.brk + xsize - 4) = PACK 0 1
        rw [GET_PUT_ne _ _ _ (by omega), GET_PUT_ne _ _ _ (by omega)]
        exact GET_PUT_same_of_lt _ _ (by simp only [PACK]; omega)
      · intro b hb hb1
        rw [hbleq] at hb
        rcases List.mem_append.1 hb with hbL | hbR
        · exact hbL
        · rcases List.mem_singleton.1 hbR with rfl
          simp at hb1
    · -- trailing block allocated: no merge (case 1)
      subst hpal
      have hco := coalesce_case1_eq { st with
          mem := PUT (PUT (PUT st.mem (st.brk - 4) (PACK xsize 0))
            (st.brk + xsize - 8) (PACK xsize 0)) (st.brk + xsize - 4)
            (PACK 0 1),
          brk := st.brk + xsize }
        st.brk xsize PS 0 hhdr3 hpftr3 hphdr3 hnhdr3 hx8 hPS8 (by norm_num)
        (by omega) (by omega)
      have heqE : extend_heap st (xsize / 4)
          = some (some (st.brk,
              { st with
                mem := PUT (PUT (PUT st.mem (st.brk - 4) (PACK xsize 0))
                  (st.brk + xsize - 8) (PACK xsize 0)) (st.brk + xsize - 4)
                  (PACK 0 1),
                brk := st.brk + xsize },
              [st.brk - 4, st.brk + xsize - 8, st.brk + xsize - 4] ++
                [])) := by
        simp only [extend_heap]
        rw [hsizeEq, hsb]
        dsimp only
        simp only [HDRP]
        rw [hftr1, hnext2, hco]
      refine ⟨st.brk, xsize, _, _, bl, heqE, rfl, hok, rfl, rfl, ?_,
        ?_, ?_, ?_, ?_, ?_, ?_, hnhdr3, Nat.le_refl _, hx8,
        fun b hb _ => hb⟩
      · exact hLfr
      · exact Blocks.cons st.brk xsize 0 _ [] hhdr3 hftr3v hx8 (by omega)
          (by omega) (Blocks.nil _)
      · have hdec := noAdjFree_decomp (hbleq ▸ hI.adj)
        refine noAdjFree_build1 (hbleq ▸ hI.adj) List.chain'_nil ?_ ?_
        · intro x hx
          rw [hbleq] at hx
          have hgl : (l2 ++ [(pl, PS, 1)]).getLast? = some (pl, PS, 1) := by
            simp
          rw [hgl] at hx
          simp only [Option.mem_def, Option.some.injEq] at hx
          rw [← hx]
          exact Or.inl rfl
        · intro y hy
          simp at hy
      · exact hI.coup
      · exact hI.tbst
      · exact hpro13
      · exact hpro23
  · left
    have hsb : mem_sbrk st xsize = none := by
      simp only [mem_sbrk]
      rw [if_neg (by omega)]
    constructor
    · simp only [extend_heap]
      rw [hsizeEq, hsb]
    · omega

/-- The physical predecessor of a parsed block: its boundary tags as the
heap walk reads them (prologue included), and, when free, its position as
the last element of the left part of the parse. -/
theorem prev_tags (st : AState) (bl l r : List (Nat × Nat × Nat))
    (ptr s al : Nat) (hI : InvP st bl)
    (hbleq : bl = l ++ (ptr, s, al) :: r)
    (hL : Blocks st.mem 16 l ptr) :
    ∃ PS pa, 8 ≤ PS ∧ PS % 8 = 0 ∧ pa < 2 ∧ PS + 8 ≤ ptr ∧
      GET st.mem (ptr - 8) = PACK PS pa ∧
      GET st.mem (ptr - PS - 4) = PACK PS pa ∧
      ((pa = 1 ∧ (∀ x ∈ l.getLast?, x.2.2 = 1)) ∨
       (pa = 0 ∧ 16 ≤ PS ∧ ∃ l2, l = l2 ++ [(ptr - PS, PS, 0)] ∧
         Blocks st.mem 16 l2 (ptr - PS))) := by
  by_cases hlnil : l = []
  · have hp16 : 16 = ptr := Blocks_nil_end (hlnil ▸ hL)
    refine ⟨8, 1, Nat.le_refl _, by norm_num, by norm_num, by omega, ?_, ?_,
      Or.inl ⟨rfl, ?_⟩⟩
    · rw [show ptr - 8 = 8 from by omega]
      exact hI.proftr
    · rw [show ptr - 8 - 4 = 4 from by omega]
      exact hI.prohdr
    · intro x hx
      rw [hlnil] at hx
      simp at hx
  · obtain ⟨l2, pb, hleq, hpend, hleft⟩ := Blocks_last hL hlnil
    obtain ⟨pl, PS, pal⟩ := pb
    simp only at hpend hleft
    have hmemb : (pl, PS, pal) ∈ bl := by
      rw [hbleq, hleq]
      exact List.mem_append_left _
        (List.mem_append_right _ (List.mem_cons_self _ _))
    obtain ⟨hPhdr, hPftr, hPS8, hPS16, hpal2⟩ :=
      Blocks_mem_facts hI.parse (pl, PS, pal) hmemb
    simp only at hPhdr hPftr hPS8 hPS16 hpal2
    have hpl16 : 16 ≤ pl := (Blocks_mem_bounds hL (pl, PS, pal)
      (by rw [hleq]; exact List.mem_append_right _ (List.mem_cons_self _ _))).1
    refine ⟨PS, pal, by omega, hPS8, hpal2, by omega, ?_, ?_, ?_⟩
    · rw [show ptr - 8 = pl + PS - 8 from by omega]
      exact hPftr
    · rw [show ptr - PS - 4 = pl - 4 from by omega]
      exact hPhdr
    · have hpal01 : pal = 0 ∨ pal = 1 := by omega
      rcases hpal01 with hp | hp
      · subst hp
        refine Or.inr ⟨rfl, by omega, l2, ?_, ?_⟩
        · rw [hleq, show ptr - PS = pl from by omega]
        · rw [show ptr - PS = pl from by omega]
          exact hleft
      · subst hp
        refine Or.inl ⟨rfl, ?_⟩
        intro x hx
        rw [hleq] at hx
        have hgl : (l2 ++ [(pl, PS, 1)]).getLast? = some (pl, PS, 1) := by
          simp
        rw [hgl] at hx
        simp only [Option.mem_def, Option.some.injEq] at hx
        rw [← hx]

theorem Blocks_cons_inv {m : Mem} {a : Nat} {b : Nat × Nat × Nat}
    {rest : List (Nat × Nat × Nat)} {e : Nat}
    (h : Blocks m a (b :: rest) e) :
    b.1 = a ∧ GET m (a - 4) = PACK b.2.1 b.2.2 ∧
      GET m (a + b.2.1 - 8) = PACK b.2.1 b.2.2 ∧
      b.2.1 % 8 = 0 ∧ 16 ≤ b.2.1 ∧ b.2.2 < 2 ∧
      Blocks m (a + b.2.1) rest e := by
  cases h with
  | cons _ _ _ _ _ hh hf h8 h16 hal htail =>
    exact ⟨rfl, hh, hf, h8, h16, hal, htail⟩

/-- The physical successor of a parsed block: its boundary tags as the heap
walk reads them (epilogue included), and, when free, its position at the
head of the right part of the parse. -/
theorem next_tags (st : AState) (bl : List (Nat × Nat × Nat))
    (r : List (Nat × Nat × Nat)) (ptr s : Nat) (hI : InvP st bl)
    (hR : Blocks st.mem (ptr + s) r st.brk) :
    ∃ NS na, NS % 8 = 0 ∧ na < 2 ∧
      GET st.mem (ptr + s - 4) = PACK NS na ∧
      (na = 0 → GET st.mem (ptr + s + NS - 8) = PACK NS 0 ∧ 16 ≤ NS) ∧
      ((na = 1 ∧ ((r = [] ∧ ptr + s = st.brk) ∨
          ∃ r2, r = (ptr + s, NS, 1) :: r2)) ∨
       (na = 0 ∧ 16 ≤ NS ∧ ∃ r2, r = (ptr + s, NS, 0) :: r2 ∧
         Blocks st.mem (ptr + s + NS) r2 st.brk)) := by
  cases r with
  | nil =>
    have hE : ptr + s = st.brk := Blocks_nil_end hR
    refine ⟨0, 1, by norm_num, by norm_num, ?_, by omega,
      Or.inl ⟨rfl, Or.inl ⟨rfl, hE⟩⟩⟩
    rw [show ptr + s - 4 = st.brk - 4 from by omega]
    exact hI.epi
  | cons nb r2 =>
    obtain ⟨hb1, hh, hf, h8, h16, hal, htail⟩ := Blocks_cons_inv hR
    obtain ⟨nx, NS, nal⟩ := nb
    simp only at hb1 hh hf h8 h16 hal htail
    subst hb1
    have hn01 : nal = 0 ∨ nal = 1 := by omega
    rcases hn01 with hp | hp
    · subst hp
      exact ⟨NS, 0, h8, by norm_num, hh, fun _ => ⟨hf, h16⟩,
        Or.inr ⟨rfl, h16, r2, rfl, htail⟩⟩
    · subst hp
      exact ⟨NS, 1, h8, by norm_num, hh, by omega,
        Or.inl ⟨rfl, Or.inr ⟨r2, rfl⟩⟩⟩

set_option maxHeartbeats 1600000 in
/-- `mm_free` with both physical neighbors allocated. -/
theorem mm_free_case11 (st : AState) (bl l r : List (Nat × Nat × Nat))
    (ptr s PS NS : Nat) (hI : InvP st bl)
    (hbleq : bl = l ++ (ptr, s, 1) :: r)
    (hL : Blocks st.mem 16 l ptr)
    (hR : Blocks st.mem (ptr + s) r st.brk)
    (h8 : s % 8 = 0) (h16 : 16 ≤ s)
    (hh : GET st.mem (ptr - 4) = PACK s 1)
    (hPS : 8 ≤ PS) (hPS8 : PS % 8 = 0) (hbp : PS + 8 ≤ ptr)
    (hpftr : GET st.mem (ptr - 8) = PACK PS 1)
    (hphdr : GET st.mem (ptr - PS - 4) = PACK PS 1)
    (hlast : ∀ x ∈ l.getLast?, x.2.2 = 1)
    (hNS8 : NS % 8 = 0)
    (hnhdr : GET st.mem (ptr + s - 4) = PACK NS 1)
    (hhead : ∀ y ∈ r.head?, y.2.2 = 1) :
    ∃ st2 bl2, mm_free st ptr = some st2 ∧ InvP st2 bl2 ∧
      st2.brk = st.brk ∧ st2.limit = st.limit ∧
      (∀ b ∈ bl, b.2.2 = 1 → b ≠ (ptr, s, 1) → b ∈ bl2) := by
  have hend : ptr + s ≤ st.brk := Blocks_le hR
  have hp16 : 16 ≤ ptr := Blocks_le hL
  have hbrkhi := hI.brkhi
  have hlim := hI.limhi
  have hslt : s < 4294967296 := by omega
  have hhdr2 : GET (PUT (PUT st.mem (ptr - 4) (PACK s 0)) (ptr + s - 8)
      (PACK s 0)) (ptr - 4) = PACK s 0 := by
    rw [GET_PUT_ne _ _ _ (by omega)]
    exact GET_PUT_same_of_lt _ _ (by simp only [PACK]; omega)
  have hpftr2 : GET (PUT (PUT st.mem (ptr - 4) (PACK s 0)) (ptr + s - 8)
      (PACK s 0)) (ptr - 8) = PACK PS 1 := by
    rw [GET_PUT_ne _ _ _ (by omega), GET_PUT_ne _ _ _ (by omega)]
    exact hpftr
  have hphdr2 : GET (PUT (PUT st.mem (ptr - 4) (PACK s 0)) (ptr + s - 8)
      (PACK s 0)) (ptr - PS - 4) = PACK PS 1 := by
    rw [GET_PUT_ne _ _ _ (by omega), GET_PUT_ne _ _ _ (by omega)]
    exact hphdr
  have hnhdr2 : GET (PUT (PUT st.mem (ptr - 4) (PACK s 0)) (ptr + s - 8)
      (PACK s 0)) (ptr + s - 4) = PACK NS 1 := by
    rw [GET_PUT_ne _ _ _ (by omega), GET_PUT_ne _ _ _ (by omega)]
    exact hnhdr
  have hco := coalesce_case1_eq
    { st with mem := (PUT (PUT st.mem (ptr - 4) (PACK s 0)) (ptr + s - 8)
        (PACK s 0)) }
    ptr s PS NS hhdr2 hpftr2 hphdr2 hnhdr2 h8 hPS8 hNS8 hPS hbp
  have hsz : GET_SIZE (GET st.mem (ptr - 4)) = s := by
    rw [hh, GET_SIZE_PACK h8 (by omega)]
  have hftr1 : FTRP (PUT st.mem (ptr - 4) (PACK s 0)) ptr = ptr + s - 8 := by
    rw [FTRP, HDRP, GET_PUT_same_of_lt _ _ (by simp only [PACK]; omega),
      GET_SIZE_PACK h8 (by omega)]
  have hkey : GET_SIZE (GET (PUT (PUT st.mem (ptr - 4) (PACK s 0))
      (ptr + s - 8) (PACK s 0)) (ptr - 4)) = s := by
    rw [hhdr2, GET_SIZE_PACK h8 (by omega)]
  have heqF : mm_free st ptr = some
      { st with
        mem := PUT (PUT st.mem (ptr - 4) (PACK s 0)) (ptr + s - 8) (PACK s 0),
        tree_root := mm_insert st.tree_root (ptr, s) } := by
    delta mm_free
    dsimp only
    rw [HDRP, hsz, hftr1, hco]
    dsimp only
    rw [HDRP, hkey]
  obtain ⟨hcl, hcr, hlb, hbr⟩ := noAdjFree_decomp (hbleq ▸ hI.adj)
  refine ⟨_, l ++ (ptr, s, 0) :: r, heqF,
    { hlp := hI.hlp, brk8 := hI.brk8, brklo := hI.brklo, brkhi := hI.brkhi,
      limhi := hI.limhi, prohdr := ?_, proftr := ?_, epi := ?_, parse := ?_,
      adj := ?_, coup := ?_, tbst := bst_mm_insert _ hI.tbst },
    rfl, rfl, ?_⟩
  · rw [GET_PUT_ne _ _ _ (by omega), GET_PUT_ne _ _ _ (by omega)]
    exact hI.prohdr
  · rw [GET_PUT_ne _ _ _ (by omega), GET_PUT_ne _ _ _ (by omega)]
    exact hI.proftr
  · show GET (PUT (PUT st.mem (ptr - 4) (PACK s 0)) (ptr + s - 8) (PACK s 0))
        (st.brk - 4) = PACK 0 1
    rw [GET_PUT_ne _ _ _ (by omega), GET_PUT_ne _ _ _ (by omega)]
    exact hI.epi
  · refine Blocks_append (Blocks_frame hL ?_) ?_
    · intro x hx1 hx2
      show PUT (PUT st.mem (ptr - 4) (PACK s 0)) (ptr + s - 8) (PACK s 0) x
        = st.mem x
      rw [PUT_outside _ _ (by omega), PUT_outside _ _ (by omega)]
    · refine Blocks.cons ptr s 0 st.brk r hhdr2 ?_ h8 h16 (by omega) ?_
      · exact GET_PUT_same_of_lt _ _ (by simp only [PACK]; omega)
      · refine Blocks_frame hR ?_
        intro x hx1 hx2
        show PUT (PUT st.mem (ptr - 4) (PACK s 0)) (ptr + s - 8) (PACK s 0) x
          = st.mem x
        rw [PUT_outside _ _ (by omega), PUT_outside _ _ (by omega)]
  · exact noAdjFree_build1 hcl hcr (fun x hx => Or.inl (hlast x hx))
      (fun y hy => Or.inr (hhead y hy))
  · have h1 : (nodes (mm_insert st.tree_root (ptr, s)) : Multiset (Nat × Nat))
        = (ptr, s) ::ₘ (nodes st.tree_root : Multiset (Nat × Nat)) := by
      have h2 := Multiset.coe_eq_coe.2 (nodes_mm_insert st.tree_root (ptr, s))
      rw [h2, Multiset.cons_coe]
    rw [h1, hI.coup, hbleq, freeMS_append, freeMS_cons_alloc, freeMS_append,
      freeMS_cons_free, ← Multiset.add_cons]
  · intro b hb hb1 hbne
    rw [hbleq] at hb
    rcases List.mem_append.1 hb with hbL | hbR
    · exact List.mem_append_left _ hbL
    · rcases List.mem_cons.1 hbR with rfl | hbR2
      · exact absurd rfl hbne
      · exact List.mem_append_right _ (List.mem_cons_of_mem _ hbR2)

set_option maxHeartbeats 1600000 in
/-- `mm_free` with the previous neighbor allocated and the next free. -/
theorem mm_free_case10 (st : AState) (bl l r2 : List (Nat × Nat × Nat))
    (ptr s PS NS : Nat) (hI : InvP st bl)
    (hbleq : bl = l ++ (ptr, s, 1) :: (ptr + s, NS, 0) :: r2)
    (hL : Blocks st.mem 16 l ptr)
    (hR2 : Blocks st.mem (ptr + s + NS) r2 st.brk)
    (h8 : s % 8 = 0) (h16 : 16 ≤ s)
    (hh : GET st.mem (ptr - 4) = PACK s 1)
    (hPS : 8 ≤ PS) (hPS8 : PS % 8 = 0) (hbp : PS + 8 ≤ ptr)
    (hpftr : GET st.mem (ptr - 8) = PACK PS 1)
    (hphdr : GET st.mem (ptr - PS - 4) = PACK PS 1)
    (hlast : ∀ x ∈ l.getLast?, x.2.2 = 1)
    (hNS8 : NS % 8 = 0) (hNS16 : 16 ≤ NS)
    (hnhdr : GET st.mem (ptr + s - 4) = PACK NS 0) :
    ∃ st2 bl2, mm_free st ptr = some st2 ∧ InvP st2 bl2 ∧
      st2.brk = st.brk ∧ st2.limit = st.limit ∧
      (∀ b ∈ bl, b.2.2 = 1 → b ≠ (ptr, s, 1) → b ∈ bl2) := by
  have hp16 : 16 ≤ ptr := Blocks_le hL
  have hend : ptr + s + NS ≤ st.brk := Blocks_le hR2
  have hbrkhi := hI.brkhi
  have hlim := hI.limhi
  have hslt : s < 4294967296 := by omega
  have hhdr2 : GET (PUT (PUT st.mem (ptr - 4) (PACK s 0)) (ptr + s - 8)
      (PACK s 0)) (ptr - 4) = PACK s 0 := by
    rw [GET_PUT_ne _ _ _ (by omega)]
    exact GET_PUT_same_of_lt _ _ (by simp only [PACK]; omega)
  have hpftr2 : GET (PUT (PUT st.mem (ptr - 4) (PACK s 0)) (ptr + s - 8)
      (PACK s 0)) (ptr - 8) = PACK PS 1 := by
    rw [GET_PUT_ne _ _ _ (by omega), GET_PUT_ne _ _ _ (by omega)]
    exact hpftr
  have hphdr2 : GET (PUT (PUT st.mem (ptr - 4) (PACK s 0)) (ptr + s - 8)
      (PACK s 0)) (ptr - PS - 4) = PACK PS 1 := by
    rw [GET_PUT_ne _ _ _ (by omega), GET_PUT_ne _ _ _ (by omega)]
    exact hphdr
  have hnhdr2 : GET (PUT (PUT st.mem (ptr - 4) (PACK s 0)) (ptr + s - 8)
      (PACK s 0)) (ptr + s - 4) = PACK NS 0 := by
    rw [GET_PUT_ne _ _ _ (by omega), GET_PUT_ne _ _ _ (by omega)]
    exact hnhdr
  have hndT : (addrs st.tree_root).Nodup := InvP_nodup hI
  have hmemN : (ptr + s, NS) ∈ nodes st.tree_root := by
    refine (InvP_free_mem hI).2 ?_
    rw [hbleq]
    exact List.mem_append_right _
      (List.mem_cons_of_mem _ (List.mem_cons_self _ _))
  have htbstT : bst st.tree_root = true := hI.tbst
  obtain ⟨tr, hrem, hcons, hbstr, hco⟩ := coalesce_case2_eq
    { st with mem := (PUT (PUT st.mem (ptr - 4) (PACK s 0)) (ptr + s - 8)
        (PACK s 0)) }
    ptr s PS NS hhdr2 hpftr2 hphdr2 hnhdr2 h8 hPS8 hNS8 h16 hPS hbp
    (by omega) htbstT hndT hmemN
  have hsz : GET_SIZE (GET st.mem (ptr - 4)) = s := by
    rw [hh, GET_SIZE_PACK h8 (by omega)]
  have hftr1 : FTRP (PUT st.mem (ptr - 4) (PACK s 0)) ptr = ptr + s - 8 := by
    rw [FTRP, HDRP, GET_PUT_same_of_lt _ _ (by simp only [PACK]; omega),
      GET_SIZE_PACK h8 (by omega)]
  have hkey : GET_SIZE (GET (PUT (PUT (PUT (PUT st.mem (ptr - 4) (PACK s 0))
      (ptr + s - 8) (PACK s 0)) (ptr - 4) (PACK (s + NS) 0))
      (ptr + (s + NS) - 8) (PACK (s + NS) 0)) (ptr - 4)) = s + NS := by
    rw [GET_PUT_ne _ _ _ (by omega),
      GET_PUT_same_of_lt _ _ (by simp only [PACK]; omega),
      GET_SIZE_PACK (by omega) (by omega)]
  have heqF : mm_free st ptr = some
      { st with
        mem := PUT (PUT (PUT (PUT st.mem (ptr - 4) (PACK s 0))
          (ptr + s - 8) (PACK s 0)) (ptr - 4) (PACK (s + NS) 0))
          (ptr + (s + NS) - 8) (PACK (s + NS) 0),
        tree_root := mm_insert tr (ptr, s + NS) } := by
    delta mm_free
    dsimp only
    rw [HDRP, hsz, hftr1, hco]
    dsimp only
    rw [HDRP, hkey]
  obtain ⟨hcl, hcr, hlb, hbr⟩ := noAdjFree_decomp (hbleq ▸ hI.adj)
  have hcr2 := List.chain'_cons'.1 hcr
  refine ⟨_, l ++ (ptr, s + NS, 0) :: r2, heqF,
    { hlp := hI.hlp, brk8 := hI.brk8, brklo := hI.brklo, brkhi := hI.brkhi,
      limhi := hI.limhi, prohdr := ?_, proftr := ?_, epi := ?_, parse := ?_,
      adj := ?_, coup := ?_, tbst := bst_mm_insert _ hbstr },
    rfl, rfl, ?_⟩
  · rw [GET_PUT_ne _ _ _ (by omega), GET_PUT_ne _ _ _ (by omega),
      GET_PUT_ne _ _ _ (by omega), GET_PUT_ne _ _ _ (by omega)]
    exact hI.prohdr
  · rw [GET_PUT_ne _ _ _ (by omega), GET_PUT_ne _ _ _ (by omega),
      GET_PUT_ne _ _ _ (by omega), GET_PUT_ne _ _ _ (by omega)]
    exact hI.proftr
  · show GET (PUT (PUT (PUT (PUT st.mem (ptr - 4) (PACK s 0))
        (ptr + s - 8) (PACK s 0)) (ptr - 4) (PACK (s + NS) 0))
        (ptr + (s + NS) - 8) (PACK (s + NS) 0)) (st.brk - 4) = PACK 0 1
    rw [GET_PUT_ne _ _ _ (by omega), GET_PUT_ne _ _ _ (by omega),
      GET_PUT_ne _ _ _ (by omega), GET_PUT_ne _ _ _ (by omega)]
    exact hI.epi
  · refine Blocks_append (Blocks_frame hL ?_) ?_
    · intro x hx1 hx2
      show PUT (PUT (PUT (PUT st.mem (ptr - 4) (PACK s 0))
        (ptr + s - 8) (PACK s 0)) (ptr - 4) (PACK (s + NS) 0))
        (ptr + (s + NS) - 8) (PACK (s + NS) 0) x = st.mem x
      rw [PUT_outside _ _ (by omega), PUT_outside _ _ (by omega),
        PUT_outside _ _ (by omega), PUT_outside _ _ (by omega)]
    · refine Blocks.cons ptr (s + NS) 0 st.brk r2 ?_ ?_ (by omega) (by omega)
        (by omega) ?_
      · rw [GET_PUT_ne _ _ _ (by omega)]
        exact GET_PUT_same_of_lt _ _ (by simp only [PACK]; omega)
      · exact GET_PUT_same_of_lt _ _ (by simp only [PACK]; omega)
      · rw [show ptr + (s + NS) = ptr + s + NS from by omega]
        refine Blocks_frame hR2 ?_
        intro x hx1 hx2
        show PUT (PUT (PUT (PUT st.mem (ptr - 4) (PACK s 0))
          (ptr + s - 8) (PACK s 0)) (ptr - 4) (PACK (s + NS) 0))
          (ptr + s + NS - 8) (PACK (s + NS) 0) x = st.mem x
        rw [PUT_outside _ _ (by omega), PUT_outside _ _ (by omega),
          PUT_outside _ _ (by omega), PUT_outside _ _ (by omega)]
  · refine noAdjFree_build1 hcl hcr2.2 (fun x hx => Or.inl (hlast x hx)) ?_
    intro y hy
    exact Or.inr (Or.resolve_left (hcr2.1 y hy) (by simp))
  · have h1 : (nodes (mm_insert tr (ptr, s + NS)) : Multiset (Nat × Nat))
        = (ptr, s + NS) ::ₘ (nodes tr : Multiset (Nat × Nat)) := by
      have h2 := Multiset.coe_eq_coe.2 (nodes_mm_insert tr (ptr, s + NS))
      rw [h2, Multiset.cons_coe]
    have hT : (nodes st.tree_root : Multiset (Nat × Nat))
        = (ptr + s, NS) ::ₘ (freeMS l + freeMS r2) := by
      rw [hI.coup, hbleq, freeMS_append, freeMS_cons_alloc, freeMS_cons_free,
        ← Multiset.add_cons]
    rw [hT] at hcons
    have htr : (nodes tr : Multiset (Nat × Nat)) = freeMS l + freeMS r2 :=
      (Multiset.cons_inj_right _).1 hcons
    rw [h1, htr, freeMS_append, freeMS_cons_free, ← Multiset.add_cons]
  · intro b hb hb1 hbne
    rw [hbleq] at hb
    rcases List.mem_append.1 hb with hbL | hbR
    · exact List.mem_append_left _ hbL
    · rcases List.mem_cons.1 hbR with rfl | hbR2
      · exact absurd rfl hbne
      · rcases List.mem_cons.1 hbR2 with rfl | hbR3
        · simp at hb1
        · exact List.mem_append_right _ (List.mem_cons_of_mem _ hbR3)

set_option maxHeartbeats 1600000 in
/-- `mm_free` with the previous neighbor free and the next allocated. -/
theorem mm_free_case01 (st : AState) (bl l2 r : List (Nat × Nat × Nat))
    (ptr s PS NS : Nat) (hI : InvP st bl)
    (hbleq : bl = l2 ++ (ptr - PS, PS, 0) :: (ptr, s, 1) :: r)
    (hL2 : Blocks st.mem 16 l2 (ptr - PS))
    (hR : Blocks st.mem (ptr + s) r st.brk)
    (h8 : s % 8 = 0) (h16 : 16 ≤ s)
    (hh : GET st.mem (ptr - 4) = PACK s 1)
    (hPS8 : PS % 8 = 0) (hPS16 : 16 ≤ PS)
    (hpftr : GET st.mem (ptr - 8) = PACK PS 0)
    (hphdr : GET st.mem (ptr - PS - 4) = PACK PS 0)
    (hlast2 : ∀ x ∈ l2.getLast?, x.2.2 = 1)
    (hNS8 : NS % 8 = 0)
    (hnhdr : GET st.mem (ptr + s - 4) = PACK NS 1)
    (hhead : ∀ y ∈ r.head?, y.2.2 = 1) :
    ∃ st2 bl2, mm_free st ptr = some st2 ∧ InvP st2 bl2 ∧
      st2.brk = st.brk ∧ st2.limit = st.limit ∧
      (∀ b ∈ bl, b.2.2 = 1 → b ≠ (ptr, s, 1) → b ∈ bl2) := by
  have hpl16 : 16 ≤ ptr - PS := Blocks_le hL2
  have hbp : PS + 16 ≤ ptr := by omega
  have hend : ptr + s ≤ st.brk := Blocks_le hR
  have hbrkhi := hI.brkhi
  have hlim := hI.limhi
  have hslt : s + PS < 4294967296 := by omega
  have hhdr2 : GET (PUT (PUT st.mem (ptr - 4) (PACK s 0)) (ptr + s - 8)
      (PACK s 0)) (ptr - 4) = PACK s 0 := by
    rw [GET_PUT_ne _ _ _ (by omega)]
    exact GET_PUT_same_of_lt _ _ (by simp only [PACK]; omega)
  have hpftr2 : GET (PUT (PUT st.mem (ptr - 4) (PACK s 0)) (ptr + s - 8)
      (PACK s 0)) (ptr - 8) = PACK PS 0 := by
    rw [GET_PUT_ne _ _ _ (by omega), GET_PUT_ne _ _ _ (by omega)]
    exact hpftr
  have hphdr2 : GET (PUT (PUT st.mem (ptr - 4) (PACK s 0)) (ptr + s - 8)
      (PACK s 0)) (ptr - PS - 4) = PACK PS 0 := by
    rw [GET_PUT_ne _ _ _ (by omega), GET_PUT_ne _ _ _ (by omega)]
    exact hphdr
  have hnhdr2 : GET (PUT (PUT st.mem (ptr - 4) (PACK s 0)) (ptr + s - 8)
      (PACK s 0)) (ptr + s - 4) = PACK NS 1 := by
    rw [GET_PUT_ne _ _ _ (by omega), GET_PUT_ne _ _ _ (by omega)]
    exact hnhdr
  have hndT : (addrs st.tree_root).Nodup := InvP_nodup hI
  have hmemP : (ptr - PS, PS) ∈ nodes st.tree_root := by
    refine (InvP_free_mem hI).2 ?_
    rw [hbleq]
    exact List.mem_append_right _ (List.mem_cons_self _ _)
  have htbstT : bst st.tree_root = true := hI.tbst
  obtain ⟨tr, hrem, hcons, hbstr, hco⟩ := coalesce_case3_eq
    { st with mem := (PUT (PUT st.mem (ptr - 4) (PACK s 0)) (ptr + s - 8)
        (PACK s 0)) }
    ptr s PS NS hhdr2 hpftr2 hphdr2 hnhdr2 h8 hPS8 hNS8 h16 (by omega)
    (by omega) (by omega) htbstT hndT hmemP
  have hsz : GET_SIZE (GET st.mem (ptr - 4)) = s := by
    rw [hh, GET_SIZE_PACK h8 (by omega)]
  have hftr1 : FTRP (PUT st.mem (ptr - 4) (PACK s 0)) ptr = ptr + s - 8 := by
    rw [FTRP, HDRP, GET_PUT_same_of_lt _ _ (by simp only [PACK]; omega),
      GET_SIZE_PACK h8 (by omega)]
  have hkey : GET_SIZE (GET (PUT (PUT (PUT (PUT st.mem (ptr - 4) (PACK s 0))
      (ptr + s - 8) (PACK s 0)) (ptr + s - 8) (PACK (s + PS) 0))
      (ptr - PS - 4) (PACK (s + PS) 0)) (ptr - PS - 4)) = s + PS := by
    rw [GET_PUT_same_of_lt _ _ (by simp only [PACK]; omega),
      GET_SIZE_PACK (by omega) (by omega)]
  have heqF : mm_free st ptr = some
      { st with
        mem := PUT (PUT (PUT (PUT st.mem (ptr - 4) (PACK s 0))
          (ptr + s - 8) (PACK s 0)) (ptr + s - 8) (PACK (s + PS) 0))
          (ptr - PS - 4) (PACK (s + PS) 0),
        tree_root := mm_insert tr (ptr - PS, s + PS) } := by
    delta mm_free
    dsimp only
    rw [HDRP, hsz, hftr1, hco]
    dsimp only
    rw [HDRP, hkey]
  obtain ⟨hcl, hcr, hlb, hbr⟩ := noAdjFree_decomp (hbleq ▸ hI.adj)
  have hcr2 := List.chain'_cons'.1 hcr
  refine ⟨_, l2 ++ (ptr - PS, s + PS, 0) :: r, heqF,
    { hlp := hI.hlp, brk8 := hI.brk8, brklo := hI.brklo, brkhi := hI.brkhi,
      limhi := hI.limhi, prohdr := ?_, proftr := ?_, epi := ?_, parse := ?_,
      adj := ?_, coup := ?_, tbst := bst_mm_insert _ hbstr },
    rfl, rfl, ?_⟩
  · rw [GET_PUT_ne _ _ _ (by omega), GET_PUT_ne _ _ _ (by omega),
      GET_PUT_ne _ _ _ (by omega), GET_PUT_ne _ _ _ (by omega)]
    exact hI.prohdr
  · rw [GET_PUT_ne _ _ _ (by omega), GET_PUT_ne _ _ _ (by omega),
      GET_PUT_ne _ _ _ (by omega), GET_PUT_ne _ _ _ (by omega)]
    exact hI.proftr
  · show GET (PUT (PUT (PUT (PUT st.mem (ptr - 4) (PACK s 0))
        (ptr + s - 8) (PACK s 0)) (ptr + s - 8) (PACK (s + PS) 0))
        (ptr - PS - 4) (PACK (s + PS) 0)) (st.brk - 4) = PACK 0 1
    rw [GET_PUT_ne _ _ _ (by omega), GET_PUT_ne _ _ _ (by omega),
      GET_PUT_ne _ _ _ (by omega), GET_PUT_ne _ _ _ (by omega)]
    exact hI.epi
  · refine Blocks_append (Blocks_frame hL2 ?_) ?_
    · intro x hx1 hx2
      show PUT (PUT (PUT (PUT st.mem (ptr - 4) (PACK s 0))
        (ptr + s - 8) (PACK s 0)) (ptr + s - 8) (PACK (s + PS) 0))
        (ptr - PS - 4) (PACK (s + PS) 0) x = st.mem x
      rw [PUT_outside _ _ (by omega), PUT_outside _ _ (by omega),
        PUT_outside _ _ (by omega), PUT_outside _ _ (by omega)]
    · refine Blocks.cons (ptr - PS) (s + PS) 0 st.brk r ?_ ?_ (by omega)
        (by omega) (by omega) ?_
      · exact GET_PUT_same_of_lt _ _ (by simp only [PACK]; omega)
      · rw [show ptr - PS + (s + PS) - 8 = ptr + s - 8 from by omega,
          GET_PUT_ne _ _ _ (by omega)]
        exact GET_PUT_same_of_lt _ _ (by simp only [PACK]; omega)
      · rw [show ptr - PS + (s + PS) = ptr + s from by omega]
        refine Blocks_frame hR ?_
        intro x hx1 hx2
        show PUT (PUT (PUT (PUT st.mem (ptr - 4) (PACK s 0))
          (ptr + s - 8) (PACK s 0)) (ptr + s - 8) (PACK (s + PS) 0))
          (ptr - PS - 4) (PACK (s + PS) 0) x = st.mem x
        rw [PUT_outside _ _ (by omega), PUT_outside _ _ (by omega),
          PUT_outside _ _ (by omega), PUT_outside _ _ (by omega)]
  · exact noAdjFree_build1 hcl hcr2.2 (fun x hx => Or.inl (hlast2 x hx))
      (fun y hy => Or.inr (hhead y hy))
  · have h1 : (nodes (mm_insert tr (ptr - PS, s + PS)) : Multiset (Nat × Nat))
        = (ptr - PS, s + PS) ::ₘ (nodes tr : Multiset (Nat × Nat)) := by
      have h2 := Multiset.coe_eq_coe.2 (nodes_mm_insert tr (ptr - PS, s + PS))
      rw [h2, Multiset.cons_coe]
    have hT : (nodes st.tree_root : Multiset (Nat × Nat))
        = (ptr - PS, PS) ::ₘ (freeMS l2 + freeMS r) := by
      rw [hI.coup, hbleq, freeMS_append, freeMS_cons_free, freeMS_cons_alloc,
        ← Multiset.add_cons]
    rw [hT] at hcons
    have htr : (nodes tr : Multiset (Nat × Nat)) = freeMS l2 + freeMS r :=
      (Multiset.cons_inj_right _).1 hcons
    rw [h1, htr, freeMS_append, freeMS_cons_free, ← Multiset.add_cons]
  · intro b hb hb1 hbne
    rw [hbleq] at hb
    rcases List.mem_append.1 hb with hbL | hbR
    · exact List.mem_append_left _ hbL
    · rcases List.mem_cons.1 hbR with rfl | hbR2
      · simp at hb1
      · rcases List.mem_cons.1 hbR2 with rfl | hbR3
        · exact absurd rfl hbne
        · exact List.mem_append_right _ (List.mem_cons_of_mem _ hbR3)

set_option maxHeartbeats 1600000 in
/-- `mm_free` with both physical neighbors free. -/
theorem mm_free_case00 (st : AState) (bl l2 r2 : List (Nat × Nat × Nat))
    (ptr s PS NS : Nat) (hI : InvP st bl)
    (hbleq : bl = l2 ++ (ptr - PS, PS, 0) :: (ptr, s, 1) ::
      (ptr + s, NS, 0) :: r2)
    (hL2 : Blocks st.mem 16 l2 (ptr - PS))
    (hR2 : Blocks st.mem (ptr + s + NS) r2 st.brk)
    (h8 : s % 8 = 0) (h16 : 16 ≤ s)
    (hh : GET st.mem (ptr - 4) = PACK s 1)
    (hPS8 : PS % 8 = 0) (hPS16 : 16 ≤ PS)
    (hpftr : GET st.mem (ptr - 8) = PACK PS 0)
    (hphdr : GET st.mem (ptr - PS - 4) = PACK PS 0)
    (hlast2 : ∀ x ∈ l2.getLast?, x.2.2 = 1)
    (hNS8 : NS % 8 = 0) (hNS16 : 16 ≤ NS)
    (hnhdr : GET st.mem (ptr + s - 4) = PACK NS 0)
    (hnftr : GET st.mem (ptr + s + NS - 8) = PACK NS 0) :
    ∃ st2 bl2, mm_free st ptr = some st2 ∧ InvP st2 bl2 ∧
      st2.brk = st.brk ∧ st2.limit = st.limit ∧
      (∀ b ∈ bl, b.2.2 = 1 → b ≠ (ptr, s, 1) → b ∈ bl2) := by
  have hpl16 : 16 ≤ ptr - PS := Blocks_le hL2
  have hbp : PS + 16 ≤ ptr := by omega
  have hend : ptr + s + NS ≤ st.brk := Blocks_le hR2
  have hbrkhi := hI.brkhi
  have hlim := hI.limhi
  have hslt : s + PS + NS < 4294967296 := by omega
  have hhdr2 : GET (PUT (PUT st.mem (ptr - 4) (PACK s 0)) (ptr + s - 8)
      (PACK s 0)) (ptr - 4) = PACK s 0 := by
    rw [GET_PUT_ne _ _ _ (by omega)]
    exact GET_PUT_same_of_lt _ _ (by simp only [PACK]; omega)
  have hpftr2 : GET (PUT (PUT st.mem (ptr - 4) (PACK s 0)) (ptr + s - 8)
      (PACK s 0)) (ptr - 8) = PACK PS 0 := by
    rw [GET_PUT_ne _ _ _ (by omega), GET_PUT_ne _ _ _ (by omega)]
    exact hpftr
  have hphdr2 : GET (PUT (PUT st.mem (ptr - 4) (PACK s 0)) (ptr + s - 8)
      (PACK s 0)) (ptr - PS - 4) = PACK PS 0 := by
    rw [GET_PUT_ne _ _ _ (by omega), GET_PUT_ne _ _ _ (by omega)]
    exact hphdr
  have hnhdr2 : GET (PUT (PUT st.mem (ptr - 4) (PACK s 0)) (ptr + s - 8)
      (PACK s 0)) (ptr + s - 4) = PACK NS 0 := by
    rw [GET_PUT_ne _ _ _ (by omega), GET_PUT_ne _ _ _ (by omega)]
    exact hnhdr
  have hnftr2 : GET (PUT (PUT st.mem (ptr - 4) (PACK s 0)) (ptr + s - 8)
      (PACK s 0)) (ptr + s + NS - 8) = PACK NS 0 := by
    rw [GET_PUT_ne _ _ _ (by omega), GET_PUT_ne _ _ _ (by omega)]
    exact hnftr
  have hndT : (addrs st.tree_root).Nodup := InvP_nodup hI
  have hmemP : (ptr - PS, PS) ∈ nodes st.tree_root := by
    refine (InvP_free_mem hI).2 ?_
    rw [hbleq]
    exact List.mem_append_right _ (List.mem_cons_self _ _)
  have hmemN : (ptr + s, NS) ∈ nodes st.tree_root := by
    refine (InvP_free_mem hI).2 ?_
    rw [hbleq]
    exact List.mem_append_right _ (List.mem_cons_of_mem _
      (List.mem_cons_of_mem _ (List.mem_cons_self _ _)))
  have htbstT : bst st.tree_root = true := hI.tbst
  obtain ⟨tr1, tr2, hrem1, hcons1, hrem2, hcons2, hbstr, hco⟩ :=
    coalesce_case4_eq
    { st with mem := (PUT (PUT st.mem (ptr - 4) (PACK s 0)) (ptr + s - 8)
        (PACK s 0)) }
    ptr s PS NS hhdr2 hpftr2 hphdr2 hnhdr2 hnftr2 h8 hPS8 hNS8 h16 (by omega)
    hNS16 (by omega) (by omega) htbstT hndT hmemN hmemP
  have hsz : GET_SIZE (GET st.mem (ptr - 4)) = s := by
    rw [hh, GET_SIZE_PACK h8 (by omega)]
  have hftr1 : FTRP (PUT st.mem (ptr - 4) (PACK s 0)) ptr = ptr + s - 8 := by
    rw [FTRP, HDRP, GET_PUT_same_of_lt _ _ (by simp only [PACK]; omega),
      GET_SIZE_PACK h8 (by omega)]
  have hkey : GET_SIZE (GET (PUT (PUT (PUT (PUT st.mem (ptr - 4) (PACK s 0))
      (ptr + s - 8) (PACK s 0)) (ptr - PS - 4) (PACK (s + PS + NS) 0))
      (ptr + s + NS - 8) (PACK (s + PS + NS) 0)) (ptr - PS - 4))
      = s + PS + NS := by
    rw [GET_PUT_ne _ _ _ (by omega),
      GET_PUT_same_of_lt _ _ (by simp only [PACK]; omega),
      GET_SIZE_PACK (by omega) (by omega)]
  have heqF : mm_free st ptr = some
      { st with
        mem := PUT (PUT (PUT (PUT st.mem (ptr - 4) (PACK s 0))
          (ptr + s - 8) (PACK s 0)) (ptr - PS - 4) (PACK (s + PS + NS) 0))
          (ptr + s + NS - 8) (PACK (s + PS + NS) 0),
        tree_root := mm_insert tr2 (ptr - PS, s + PS + NS) } := by
    delta mm_free
    dsimp only
    rw [HDRP, hsz, hftr1, hco]
    dsimp only
    rw [HDRP, hkey]
  obtain ⟨hcl, hcr, hlb, hbr⟩ := noAdjFree_decomp (hbleq ▸ hI.adj)
  have hcr2 := List.chain'_cons'.1 hcr
  have hcr3 := List.chain'_cons'.1 hcr2.2
  refine ⟨_, l2 ++ (ptr - PS, s + PS + NS, 0) :: r2, heqF,
    { hlp := hI.hlp, brk8 := hI.brk8, brklo := hI.brklo, brkhi := hI.brkhi,
      limhi := hI.limhi, prohdr := ?_, proftr := ?_, epi := ?_, parse := ?_,
      adj := ?_, coup := ?_, tbst := bst_mm_insert _ hbstr },
    rfl, rfl, ?_⟩
  · rw [GET_PUT_ne _ _ _ (by omega), GET_PUT_ne _ _ _ (by omega),
      GET_PUT_ne _ _ _ (by omega), GET_PUT_ne _ _ _ (by omega)]
    exact hI.prohdr
  · rw [GET_PUT_ne _ _ _ (by omega), GET_PUT_ne _ _ _ (by omega),
      GET_PUT_ne _ _ _ (by omega), GET_PUT_ne _ _ _ (by omega)]
    exact hI.proftr
  · show GET (PUT (PUT (PUT (PUT st.mem (ptr - 4) (PACK s 0))
        (ptr + s - 8) (PACK s 0)) (ptr - PS - 4) (PACK (s + PS + NS) 0))
        (ptr + s + NS - 8) (PACK (s + PS + NS) 0)) (st.brk - 4) = PACK 0 1
    rw [GET_PUT_ne _ _ _ (by omega), GET_PUT_ne _ _ _ (by omega),
      GET_PUT_ne _ _ _ (by omega), GET_PUT_ne _ _ _ (by omega)]
    exact hI.epi
  · refine Blocks_append (Blocks_frame hL2 ?_) ?_
    · intro x hx1 hx2
      show PUT (PUT (PUT (PUT st.mem (ptr - 4) (PACK s 0))
        (ptr + s - 8) (PACK s 0)) (ptr - PS - 4) (PACK (s + PS + NS) 0))
        (ptr + s + NS - 8) (PACK (s + PS + NS) 0) x = st.mem x
      rw [PUT_outside _ _ (by omega), PUT_outside _ _ (by omega),
        PUT_outside _ _ (by omega), PUT_outside _ _ (by omega)]
    · refine Blocks.cons (ptr - PS) (s + PS + NS) 0 st.brk r2 ?_ ?_ (by omega)
        (by omega) (by omega) ?_
      · rw [GET_PUT_ne _ _ _ (by omega)]
        exact GET_PUT_same_of_lt _ _ (by simp only [PACK]; omega)
      · rw [show ptr - PS + (s + PS + NS) - 8 = ptr + s + NS - 8 from by omega]
        exact GET_PUT_same_of_lt _ _ (by simp only [PACK]; omega)
      · rw [show ptr - PS + (s + PS + NS) = ptr + s + NS from by omega]
        refine Blocks_frame hR2 ?_
        intro x hx1 hx2
        show PUT (PUT (PUT (PUT st.mem (ptr - 4) (PACK s 0))
          (ptr + s - 8) (PACK s 0)) (ptr - PS - 4) (PACK (s + PS + NS) 0))
          (ptr + s + NS - 8) (PACK (s + PS + NS) 0) x = st.mem x
        rw [PUT_outside _ _ (by omega), PUT_outside _ _ (by omega),
          PUT_outside _ _ (by omega), PUT_outside _ _ (by omega)]
  · refine noAdjFree_build1 hcl hcr3.2 (fun x hx => Or.inl (hlast2 x hx)) ?_
    intro y hy
    exact Or.inr (Or.resolve_left (hcr3.1 y hy) (by simp))
  · have h1 : (nodes (mm_insert tr2 (ptr - PS, s + PS + NS))
        : Multiset (Nat × Nat))
        = (ptr - PS, s + PS + NS) ::ₘ (nodes tr2 : Multiset (Nat × Nat)) := by
      have h2 := Multiset.coe_eq_coe.2
        (nodes_mm_insert tr2 (ptr - PS, s + PS + NS))
      rw [h2, Multiset.cons_coe]
    have hT : (nodes st.tree_root : Multiset (Nat × Nat))
        = (ptr + s, NS) ::ₘ (ptr - PS, PS) ::ₘ (freeMS l2 + freeMS r2) := by
      rw [hI.coup, hbleq, freeMS_append, freeMS_cons_free, freeMS_cons_alloc,
        freeMS_cons_free, Multiset.add_cons, Multiset.add_cons]
      exact Multiset.cons_swap _ _ _
    rw [hT] at hcons1
    have htr1 : (nodes tr1 : Multiset (Nat × Nat))
        = (ptr - PS, PS) ::ₘ (freeMS l2 + freeMS r2) :=
      (Multiset.cons_inj_right _).1 hcons1
    rw [htr1] at hcons2
    have htr2 : (nodes tr2 : Multiset (Nat × Nat)) = freeMS l2 + freeMS r2 :=
      (Multiset.cons_inj_right _).1 hcons2
    rw [h1, htr2, freeMS_append, freeMS_cons_free, ← Multiset.add_cons]
  · intro b hb hb1 hbne
    rw [hbleq] at hb
    rcases List.mem_append.1 hb with hbL | hbR
    · exact List.mem_append_left _ hbL
    · rcases List.mem_cons.1 hbR with rfl | hbR2
      · simp at hb1
      · rcases List.mem_cons.1 hbR2 with rfl | hbR3
        · exact absurd rfl hbne
        · rcases List.mem_cons.1 hbR3 with rfl | hbR4
          · simp at hb1
          · exact List.mem_append_right _ (List.mem_cons_of_mem _ hbR4)

/-- `mm_free` on an allocated block of the parsed heap restores the
invariant: the break and limit are unchanged and every other allocated
block survives in the new parse. -/
theorem free_master (st : AState) (bl : List (Nat × Nat × Nat)) (ptr s : Nat)
    (hI : InvP st bl) (hmem : (ptr, s, 1) ∈ bl) :
    ∃ st2 bl2, mm_free st ptr = some st2 ∧ InvP st2 bl2 ∧
      st2.brk = st.brk ∧ st2.limit = st.limit ∧
      (∀ b ∈ bl, b.2.2 = 1 → b ≠ (ptr, s, 1) → b ∈ bl2) := by
  obtain ⟨l, r, hbleq, hL, hMid⟩ := Blocks_split hI.parse hmem
  simp only at hbleq hL hMid
  obtain ⟨_, hh, hftr, h8, h16, _, hR⟩ := Blocks_cons_inv hMid
  simp only at hh hftr h8 h16 hR
  obtain ⟨PS, pa, hPSlo, hPS8, hpa2, hbp, hpftr, hphdr, hpd⟩ :=
    prev_tags st bl l r ptr s 1 hI hbleq hL
  obtain ⟨NS, na, hNS8, hna2, hnhdr, hnfree, hnd⟩ :=
    next_tags st bl r ptr s hI hR
  rcases hpd with ⟨hpa1, hlast⟩ | ⟨hpa0, hPS16, l2, hleq, hL2⟩
  · subst hpa1
    rcases hnd with ⟨hna1, hrc⟩ | ⟨hna0, hNS16, r2, hreq, hR2⟩
    · subst hna1
      have hhead : ∀ y ∈ r.head?, y.2.2 = 1 := by
        rcases hrc with ⟨hrnil, _⟩ | ⟨r2, hreq⟩
        · subst hrnil
          intro y hy
          simp at hy
        · subst hreq
          intro y hy
          simp only [List.head?_cons, Option.mem_def, Option.some.injEq] at hy
          rw [← hy]
      exact mm_free_case11 st bl l r ptr s PS NS hI hbleq hL hR h8 h16 hh
        hPSlo hPS8 hbp hpftr hphdr hlast hNS8 hnhdr hhead
    · subst hna0
      subst hreq
      exact mm_free_case10 st bl l r2 ptr s PS NS hI hbleq hL hR2 h8 h16 hh
        hPSlo hPS8 hbp hpftr hphdr hlast hNS8 hNS16 hnhdr
  · subst hpa0
    have hbleq2 : bl = l2 ++ (ptr - PS, PS, 0) :: (ptr, s, 1) :: r := by
      rw [hbleq, hleq]
      simp
    have hlast2 : ∀ x ∈ l2.getLast?, x.2.2 = 1 := by
      obtain ⟨_, _, hlb, _⟩ := noAdjFree_decomp (hbleq2 ▸ hI.adj)
      intro x hx
      exact Or.resolve_right (hlb x hx) (by simp)
    rcases hnd with ⟨hna1, hrc⟩ | ⟨hna0, hNS16, r2, hreq, hR2⟩
    · subst hna1
      have hhead : ∀ y ∈ r.head?, y.2.2 = 1 := by
        rcases hrc with ⟨hrnil, _⟩ | ⟨r2, hreq⟩
        · subst hrnil
          intro y hy
          simp at hy
        · subst hreq
          intro y hy
          simp only [List.head?_cons, Option.mem_def, Option.some.injEq] at hy
          rw [← hy]
      exact mm_free_case01 st bl l2 r ptr s PS NS hI hbleq2 hL2 hR h8 h16 hh
        hPS8 hPS16 hpftr hphdr hlast2 hNS8 hnhdr hhead
    · subst hna0
      subst hreq
      obtain ⟨hnftr, _⟩ := hnfree rfl
      exact mm_free_case00 st bl l2 r2 ptr s PS NS hI (by rw [hbleq2]) hL2 hR2
        h8 h16 hh hPS8 hPS16 hpftr hphdr hlast2 hNS8 hNS16 hnhdr hnftr

/-- Two distinct blocks of a sorted parse occupy disjoint extents (one ends
at or before the other starts). -/
theorem blocks_pairwise_cases : ∀ {l : List (Nat × Nat × Nat)},
    List.Pairwise (fun x y : Nat × Nat × Nat => x.1 + x.2.1 ≤ y.1) l →
    ∀ b ∈ l, ∀ c ∈ l, b ≠ c →
    b.1 + b.2.1 ≤ c.1 ∨ c.1 + c.2.1 ≤ b.1 := by
  intro l
  induction l with
  | nil =>
    intro _ b hb
    cases hb
  | cons hd tl ih =>
    intro hp b hb c hc hne
    obtain ⟨h1, h2⟩ := List.pairwise_cons.1 hp
    rcases List.mem_cons.1 hb with rfl | hb2
    · rcases List.mem_cons.1 hc with rfl | hc2
      · exact absurd rfl hne
      · exact Or.inl (h1 c hc2)
    · rcases List.mem_cons.1 hc with rfl | hc2
      · exact Or.inr (h1 b hb2)
      · exact ih h2 b hb2 c hc2 hne

set_option maxHeartbeats 1600000 in
/-- `mm_malloc` under the invariant: the call succeeds, preserves the limit
and the invariant, keeps every allocated block, and any returned pointer is
8-aligned and heads an allocated block of at least the adjusted size; on
the index-hit path every written word lies outside the returned payload,
whose bytes are preserved. -/
theorem mm_malloc_master (st : AState) (bl : List (Nat × Nat × Nat))
    (size : Nat) (hI : InvP st bl) (hsz : size + 16 ≤ 2147483648) :
    ∃ res st1 lg, mm_malloc st size = some (res, st1, lg) ∧
      st1.limit = st.limit ∧ st1.heap_listp = st.heap_listp ∧
      ∃ bl1, InvP st1 bl1 ∧
        (∀ b ∈ bl, b.2.2 = 1 → b ∈ bl1) ∧
        (∀ p, res = some p → p % 8 = 0 ∧
          ∃ S1, (p, S1, 1) ∈ bl1 ∧ adjustSize size ≤ S1) ∧
        (mm_fitter st.tree_root (adjustSize size) ≠ .leaf →
          ∀ p, res = some p →
          (∀ w ∈ lg, w + 4 ≤ p ∨ p + adjustSize size - 8 ≤ w) ∧
          (∀ x, p ≤ x → x < p + adjustSize size - 8 →
            st1.mem x = st.mem x)) := by
  by_cases hs0 : size = 0
  · subst hs0
    refine ⟨none, st, [], by simp [mm_malloc], rfl, rfl, bl, hI,
      fun b hb _ => hb, ?_, ?_⟩
    · intro p hp
      cases hp
    · intro _ p hp
      cases hp
  · obtain ⟨ha16, ha8, halo, hahi⟩ := adjustSize_facts hs0 hsz
    cases hfit : mm_fitter st.tree_root (adjustSize size) with
    | node ba bs btl btr =>
      obtain ⟨hmemT, hble⟩ := mm_fitter_node_mem hfit
      have hmemB : (ba, bs, 0) ∈ bl := (InvP_free_mem hI).1 hmemT
      obtain ⟨l, r, hbleq, hL, hMid⟩ := Blocks_split hI.parse hmemB
      simp only at hbleq hL hMid
      obtain ⟨tr, hrem, hcons, hbstr⟩ :=
        mm_remove_ok hI.tbst (InvP_nodup hI) hmemT
      have hcoup2 : (nodes tr : Multiset (Nat × Nat))
          = freeMS l + freeMS r := by
        have hT : (nodes st.tree_root : Multiset (Nat × Nat))
            = (ba, bs) ::ₘ (freeMS l + freeMS r) := by
          rw [hI.coup, hbleq, freeMS_append, freeMS_cons_free,
            ← Multiset.add_cons]
        rw [hT] at hcons
        exact (Multiset.cons_inj_right _).1 hcons
      obtain ⟨p, st2, lg2, hpl, hp8, hbrk2, hlim2, hhlp2, bl1, hIp, hSome,
          hkeep, hlg, hpay, hpos1, hpos2⟩ :=
        place_master { st with tree_root := tr } l r ba bs (adjustSize size)
          hL hMid (hbleq ▸ hI.adj) hcoup2 hbstr hI.hlp hI.brk8 hI.brklo
          hI.brkhi hI.limhi hI.prohdr hI.proftr hI.epi ha16 ha8 hble
      have heqM : mm_malloc st size = some (some p, st2,
          removeWrites st.tree_root ba ++ lg2) := by
        delta mm_malloc
        dsimp only
        rw [if_neg hs0, hfit]
        dsimp only
        rw [hrem]
        dsimp only
        rw [hpl]
      refine ⟨some p, st2, removeWrites st.tree_root ba ++ lg2, heqM,
        hlim2, hhlp2, bl1, hIp, ?_, ?_, ?_⟩
      · intro b hb hb1
        rw [hbleq] at hb
        rcases List.mem_append.1 hb with hbL | hbR
        · exact hkeep b (List.mem_append_left _ hbL) hb1
        · rcases List.mem_cons.1 hbR with rfl | hbR2
          · simp at hb1
          · exact hkeep b (List.mem_append_right _ hbR2) hb1
      · intro q hq
        simp only [Option.some.injEq] at hq
        subst hq
        exact ⟨hp8, hSome⟩
      · intro _ q hq
        simp only [Option.some.injEq] at hq
        subst hq
        refine ⟨?_, hpay⟩
        intro w hw
        rcases List.mem_append.1 hw with hwR | hwP
        · obtain ⟨x, hx, hxne, hwor⟩ :=
            removeWrites_subset (InvP_nodup hI) w hwR
          obtain ⟨sx, hsx⟩ := mem_addrs.1 hx
          have hxb : (x, sx, 0) ∈ bl := (InvP_free_mem hI).1 hsx
          have hxf := (Blocks_mem_facts hI.parse _ hxb).2.2.2.1
          simp only at hxf
          have hdisj := blocks_pairwise_cases (Blocks_sorted hI.parse)
            (x, sx, 0) hxb (ba, bs, 0) hmemB
            (by
              intro hEq
              exact hxne (congrArg Prod.fst hEq))
          simp only at hdisj
          rcases hwor with rfl | rfl
          all_goals rcases hdisj with h1 | h1
          all_goals omega
        · exact hlg w hwP
    | leaf =>
      have hx8 : max (adjustSize size) 4096 % 8 = 0 := by
        rcases max_choice (adjustSize size) 4096 with h | h
        · rw [h]
          exact ha8
        · rw [h]
      rcases extend_master st bl (max (adjustSize size) 4096) hI hx8
          (le_max_right _ _) with ⟨hE, hlt⟩ |
        ⟨cp, CS, st1, lg1, l2, hE, hbrk1, hle1, hlim1, hhlp1, hBl2, hBmid,
          hadj1, hcoup1, hbst1, hpro11, hpro21, hepi1, hxle, hCS8, hkeep1⟩
      · have heqM : mm_malloc st size = some (none, st, []) := by
          delta mm_malloc
          dsimp only
          rw [if_neg hs0, hfit]
          dsimp only
          rw [hE]
        refine ⟨none, st, [], heqM, rfl, rfl, bl, hI, fun b hb _ => hb,
          ?_, ?_⟩
        · intro p hp
          cases hp
        · intro _ p hp
          cases hp
      · obtain ⟨p, st2, lg2, hpl, hp8, hbrk2, hlim2, hhlp2, bl1, hIp, hSome,
            hkeep, hlg, hpay, hpos1, hpos2⟩ :=
          place_master st1 l2 [] cp CS (adjustSize size) hBl2 hBmid hadj1
            (by rw [hcoup1, freeMS_nil, add_zero])
            hbst1 (by rw [hhlp1]; exact hI.hlp)
            (by
              have h1 := hI.brk8
              omega)
            (by
              have h1 := hI.brklo
              omega)
            (by rw [hbrk1, hlim1]; exact hle1)
            (by rw [hlim1]; exact hI.limhi)
            hpro11 hpro21 hepi1 ha16 ha8 (le_trans (le_max_left _ _) hxle)
        have heqM : mm_malloc st size = some (some p, st2, lg1 ++ lg2) := by
          delta mm_malloc
          dsimp only
          rw [if_neg hs0, hfit]
          dsimp only
          rw [hE]
          dsimp only
          rw [hpl]
        refine ⟨some p, st2, lg1 ++ lg2, heqM,
          by rw [hlim2, hlim1], by rw [hhlp2, hhlp1], bl1, hIp, ?_, ?_, ?_⟩
        · intro b hb hb1
          exact hkeep b (List.mem_append_left _ (hkeep1 b hb hb1)) hb1
        · intro q hq
          simp only [Option.some.injEq] at hq
          subst hq
          exact ⟨hp8, hSome⟩
        · intro hne
          exact absurd rfl hne

end MM
